import Mathlib

/-!
# Matrix graph with Dijkstra (`graphm.cpp`), list graph with DFS (`graphl.cpp`)

Shallow embedding of the classes `GraphM` and `GraphL` and proofs about them.

* The fixed arrays `C[101][101]`, `T[101][101]` and `data[101]` are total
  functions on `Nat` indices; with `size ≤ 100` the code addresses only cells
  in `0..100`.
* Values of C++ type `int` are `Int`.  The one addition the code performs,
  `T[source][v].dist + C[v][w]` in `setW`, is reduced to 32 bits by `wrap32`.
* Counted `for` loops are `forLoop`; the `while(numVisits < size)` loop of
  `findShortestPath` runs for `numVisits = 0, ..., size - 1` and is a
  `forLoop` too.  The recursive printers and `dfs` get a depth budget.
* The array `adjList[101]` of `GraphL` is a function to `Option GraphNode`
  (`none` is the `NULL` pointer) and the linked list of edges of a node is a
  `List Nat`, head first.
* The edge records of the input stream are a list.  The loop
  `while(source != 0)` of `buildGraph` ends only at a record of source `0`;
  on a list without one the result is `none`.
* Output written to `cout` is a list of tokens; field-width and alignment
  manipulators are not modelled.
-/

/-- The constant `INT_MAX` of `<climits>` for a 32-bit `int`; the code uses it
as the "infinite cost" sentinel. -/
def INT_MAX : Int := 2147483647

/-- The array bound `NODELIMIT` of `graphm.h`. -/
def NODELIMIT : Nat := 101

/-- Two's-complement reduction of an exact integer to a 32-bit `int`. -/
def wrap32 (x : Int) : Int := (x + 2147483648) % 4294967296 - 2147483648

/-- A counted loop `for (i = lo; i < lo + n; ++i) s = body i s`. -/
def forLoop {σ : Type} (body : Nat → σ → σ) : Nat → Nat → σ → σ
  | _, 0, s => s
  | i, n + 1, s => forLoop body (i + 1) n (body i s)

/-- Modelled from the spec: class `NodeData` (`nodedata.h` is not part of the
sources); the spec calls it an opaque textual label, set from a `string`. -/
abbrev NodeData := String

/-- The struct `TableType` of `graphm.h`. -/
structure TableType where
  visited : Bool
  dist : Int
  path : Nat
deriving DecidableEq, Repr

/-- The data members of class `GraphM`. -/
structure GraphM where
  data : Nat → NodeData
  C : Nat → Nat → Int
  size : Nat
  T : Nat → Nat → TableType
  pathed : Bool

/-- Assignment to one cell of a two-dimensional array. -/
def setCell {α : Type} (A : Nat → Nat → α) (i j : Nat) (x : α) : Nat → Nat → α :=
  fun a b => if a = i ∧ b = j then x else A a b

/-- Assignment to one cell of a one-dimensional array. -/
def setAt {α : Type} (A : Nat → α) (i : Nat) (x : α) : Nat → α :=
  fun a => if a = i then x else A a

/-- A token written to `cout`. -/
inductive Token where
  | int (n : Int)
  | str (s : String)
  | chr (c : Char)
  | node (d : NodeData)
  | endl
deriving DecidableEq, Repr

namespace GraphM

/-- The default constructor `GraphM::GraphM()`. -/
def empty : GraphM where
  data := fun _ => ""
  C := fun _ _ => INT_MAX
  size := 0
  T := fun _ _ => { visited := false, dist := INT_MAX, path := 0 }
  pathed := false

/-- The method `GraphM::insertEdge`: the returned flag and the new state. -/
def insertEdge (g : GraphM) (source dest cost : Int) : Bool × GraphM :=
  let success : Bool := decide (source > 0 ∧ source ≤ (g.size : Int) ∧ cost > 0 ∧
    dest > 0 ∧ dest ≤ (g.size : Int) ∧ source ≠ dest)
  if success then
    (success, { g with C := setCell g.C source.toNat dest.toNat cost, pathed := false })
  else (success, g)

/-- The method `GraphM::removeEdge`: the returned flag and the new state. -/
def removeEdge (g : GraphM) (source dest : Int) : Bool × GraphM :=
  let success : Bool := decide (source > 0 ∧ source ≤ (g.size : Int) ∧
    dest > 0 ∧ dest ≤ (g.size : Int) ∧ source ≠ dest)
  if success then
    (success, { g with C := setCell g.C source.toNat dest.toNat INT_MAX, pathed := false })
  else (success, g)

/-- The edge loop of `GraphM::buildGraph`: records are consumed until one has
source field `0`; every other record is handed to `insertEdge`, whose failure
is only logged.  When the records run out before a sentinel record the
extraction at the end of the stream leaves `source` as it was and the loop
never ends: the result is `none`. -/
def buildLoop (g : GraphM) : List (Int × Int × Int) → Option GraphM
  | [] => none
  | (source, dest, cost) :: rest =>
    if source ≠ 0 then buildLoop (g.insertEdge source dest cost).2 rest else some g

/-- The loop of `GraphM::buildGraph` over the description lines: node `i`
gets line `i` (numbered from 1) and `C[i][i] = 0`. -/
def readNodes (g : GraphM) (descriptions : Nat → String) : GraphM :=
  forLoop (fun i (h : GraphM) =>
    { h with data := setAt h.data i (descriptions i), C := setCell h.C i i 0 }) 1 g.size g

/-- The method `GraphM::buildGraph`, on the content of the stream: the node
count, the description lines and the edge records; `none` when the edge loop
does not end. -/
def buildGraph (g : GraphM) (nodeCount : Int) (descriptions : Nat → String)
    (edges : List (Int × Int × Int)) : Option GraphM :=
  if nodeCount > 0 ∧ nodeCount < (NODELIMIT : Int) then
    buildLoop (readNodes { g with size := nodeCount.toNat } descriptions) edges
  else some g

/-- The method `GraphM::findV`. -/
def findV (g : GraphM) (source : Nat) : Nat :=
  forLoop (fun i v =>
    if !(g.T source i).visited then
      if (g.T source i).dist < (g.T source v).dist then i else v
    else v) 1 g.size 0

/-- The body of the loop of `GraphM::setW` for one `w`. -/
def setWStep (source v w : Nat) (g : GraphM) : GraphM :=
  if !(g.T source w).visited ∧ g.C v w < INT_MAX ∧ (g.T source v).dist < INT_MAX then
    if (g.T source w).dist > wrap32 ((g.T source v).dist + g.C v w) then
      let cell : TableType :=
        { g.T source w with dist := wrap32 ((g.T source v).dist + g.C v w), path := v }
      { g with T := setCell g.T source w cell }
    else g
  else g

/-- The method `GraphM::setW`. -/
def setW (g : GraphM) (source v : Nat) : GraphM :=
  forLoop (setWStep source v) 1 g.size g

/-- The assignment `T[source][v].visited = true`. -/
def markVisited (g : GraphM) (source v : Nat) : GraphM :=
  { g with T := setCell g.T source v ({ g.T source v with visited := true }) }

/-- The body of `while(numVisits < size)` in `findShortestPath`. -/
def visitStep (source : Nat) (g : GraphM) : GraphM :=
  let v := g.findV source
  setW (g.markVisited source v) source v

/-- The assignment `T[source][source].dist = 0`. -/
def initSource (g : GraphM) (source : Nat) : GraphM :=
  { g with T := setCell g.T source source ({ g.T source source with dist := 0 }) }

/-- The body of `for (int source = 1; ...)` in `findShortestPath`; the inner
`while` runs for `numVisits = 0, ..., size - 1`. -/
def sourceStep (source : Nat) (g : GraphM) : GraphM :=
  let g1 := g.initSource source
  forLoop (fun _ h => visitStep source h) 0 g1.size g1

/-- The two nested loops of `findShortestPath` that clear `T[1..size][1..size]`. -/
def resetTable (g : GraphM) : GraphM :=
  forLoop (fun i h => forLoop (fun j (k : GraphM) =>
    { k with T := setCell k.T i j { visited := false, dist := INT_MAX, path := 0 } }) 1 h.size h)
    1 g.size g

/-- The method `GraphM::findShortestPath`. -/
def findShortestPath (g : GraphM) : GraphM :=
  if !g.pathed then
    let g1 := resetTable g
    let g2 := forLoop sourceStep 1 g1.size g1
    { g2 with pathed := true }
  else { g with pathed := true }

/-- The method `GraphM::displayPath`.  The recursion follows the stored
predecessor links, so it is given a depth budget `fuel`; `none` means the
budget ran out.  The result is the state left behind and the tokens written. -/
def displayPath : Nat → GraphM → Nat → Nat → Option (GraphM × List Token)
  | 0, _, _, _ => none
  | fuel + 1, g, source, dest =>
    let g1 := if !g.pathed then g.findShortestPath else g
    if (g1.T source dest).path ≠ 0 then
      match displayPath fuel g1 source (g1.T source dest).path with
      | none => none
      | some (g2, out) => some (g2, out ++ [Token.int (g2.T source dest).path, Token.chr ' '])
    else some (g1, [])

/-- The method `GraphM::pathDesc`, with a depth budget as in `displayPath`. -/
def pathDesc : Nat → GraphM → Nat → Nat → Option (List Token)
  | 0, _, _, _ => none
  | fuel + 1, g, source, dest =>
    if (g.T source dest).path ≠ 0 then
      match pathDesc fuel g source (g.T source dest).path with
      | none => none
      | some out => some (out ++ [Token.node (g.data dest), Token.endl])
    else some []

/-- The body of the loop of `GraphM::displayFrom` for one `dest`. -/
def displayFromStep (fuel source dest : Nat) :
    Option (GraphM × List Token) → Option (GraphM × List Token)
  | none => none
  | some (g, out) =>
    if dest ≠ source then
      let out1 := out ++ [Token.int source, Token.int dest]
      if (g.T source dest).dist = INT_MAX then
        some (g, out1 ++ [Token.str "----", Token.endl])
      else
        match displayPath fuel g source dest with
        | none => none
        | some (g2, o) =>
          some (g2, out1 ++ [Token.int (g.T source dest).dist, Token.str "    "] ++ o ++
            [Token.int dest, Token.endl])
    else some (g, out)

/-- The method `GraphM::displayFrom`. -/
def displayFrom (fuel : Nat) (g : GraphM) (source : Nat) : Option (GraphM × List Token) :=
  forLoop (displayFromStep fuel source) 1 g.size
    (some (g, [Token.node (g.data source), Token.endl]))

/-- The method `GraphM::displayAll`. -/
def displayAll (fuel : Nat) (g : GraphM) : Option (GraphM × List Token) :=
  let g1 := if !g.pathed then g.findShortestPath else g
  let header := [Token.str "Description", Token.str "From node", Token.str "To node",
    Token.str "Dijkstra's", Token.str "Path", Token.endl]
  match forLoop (fun source (st : Option (GraphM × List Token)) =>
      match st with
      | none => none
      | some (h, out) =>
        match displayFrom fuel h source with
        | none => none
        | some (h2, o) => some (h2, out ++ o)) 1 g1.size (some (g1, header)) with
  | none => none
  | some (g2, out) => some (g2, out ++ [Token.endl])

/-- The method `GraphM::display`. -/
def display (fuel : Nat) (g : GraphM) (source dest : Nat) : Option (GraphM × List Token) :=
  if !g.pathed then
    if (g.T source dest).dist < INT_MAX then
      let out1 := [Token.int source, Token.int dest, Token.int (g.T source dest).dist,
        Token.str "        "]
      match displayPath fuel g source dest with
      | none => none
      | some (g2, o) =>
        match pathDesc fuel g2 source dest with
        | none => none
        | some o2 =>
          some (g2, out1 ++ o ++ [Token.int source, Token.endl, Token.node (g2.data dest),
            Token.endl] ++ o2 ++ [Token.endl])
    else
      some (g, [Token.str "No path from ", Token.int source, Token.str " to ", Token.int dest,
        Token.chr '.', Token.endl, Token.endl])
  else some (g, [Token.endl])

end GraphM

/-- The numbers among the tokens written, in order. -/
def intTokens : List Token → List Int
  | [] => []
  | Token.int n :: rest => n :: intTokens rest
  | _ :: rest => intTokens rest

/-- The sum of the cells `C[u][w]` over the consecutive pairs of a vertex
sequence: the total cost of a path. -/
def pathCost (C : Nat → Nat → Int) : List Nat → Int
  | u :: w :: rest => C u w + pathCost C (w :: rest)
  | _ => 0

/-- A directed path of the graph: every vertex is in `1..size` and every two
consecutive vertices are joined by a cell of finite cost. -/
def IsWalk (g : GraphM) (p : List Nat) : Prop :=
  (∀ x ∈ p, 1 ≤ x ∧ x ≤ g.size) ∧ List.Chain' (fun u w => g.C u w < INT_MAX) p

/-- A directed path from `s` to `d`. -/
def IsWalkFromTo (g : GraphM) (s d : Nat) (p : List Nat) : Prop :=
  IsWalk g p ∧ p.head? = some s ∧ p.getLast? = some d

/-- The vertex `d` is reachable from `s` along cells of finite cost. -/
def Reachable (g : GraphM) (s d : Nat) : Prop := ∃ p, IsWalkFromTo g s d p

/-- No-overflow precondition: the total cost of every directed path without a
repeated vertex is below the sentinel `INT_MAX`. -/
def NoOverflow (g : GraphM) : Prop :=
  ∀ p, IsWalk g p → p.Nodup → pathCost g.C p < INT_MAX

/-- The states of a `GraphM` object: the constructor followed by `buildGraph`
on any stream content, then any sequence of `insertEdge`, `removeEdge` and
`findShortestPath` calls with any arguments. -/
inductive Built : GraphM → Prop
  | build (nodeCount : Int) (descriptions : Nat → String) (edges : List (Int × Int × Int))
      {g : GraphM} :
      GraphM.buildGraph GraphM.empty nodeCount descriptions edges = some g → Built g
  | insert {g : GraphM} (source dest cost : Int) :
      Built g → Built (g.insertEdge source dest cost).2
  | remove {g : GraphM} (source dest : Int) :
      Built g → Built (g.removeEdge source dest).2
  | find {g : GraphM} : Built g → Built g.findShortestPath

/-- The table `findShortestPath` computes from the current cost matrix when
the cache flag is down. -/
def fromScratch (g : GraphM) : GraphM := GraphM.findShortestPath { g with pathed := false }

/-- Shape of the cost matrix and of column 0 of the table in every state of a
built graph. -/
structure WellFormed (g : GraphM) : Prop where
  size_lt : g.size < NODELIMIT
  diag : ∀ i, 1 ≤ i → i ≤ g.size → g.C i i = 0
  pos : ∀ i j, 1 ≤ i → i ≤ g.size → 1 ≤ j → j ≤ g.size → i ≠ j → 0 < g.C i j
  row0 : ∀ j, g.C 0 j = INT_MAX
  col0 : ∀ i, (g.T i 0).dist = INT_MAX

/-- Two states that `findShortestPath` cannot tell apart once the cache flag
is down: same cost matrix and size, same table cells in `1..size × 1..size`,
same sentinel distance in column 0. -/
structure Sim (g h : GraphM) : Prop where
  C_eq : g.C = h.C
  size_eq : g.size = h.size
  cell : ∀ i j, 1 ≤ i → i ≤ g.size → 1 ≤ j → j ≤ g.size → g.T i j = h.T i j
  col0_eq : ∀ i, 1 ≤ i → i ≤ g.size → (g.T i 0).dist = (h.T i 0).dist

/-- Invariant of the `while` loop of `findShortestPath` on row `s` of the
table, for cost matrix `C` and `n` vertices. -/
structure RowInv (C : Nat → Nat → Int) (n s : Nat) (r : Nat → TableType) : Prop where
  sentinel : (r 0).dist = INT_MAX
  src : (r s).dist = 0 ∧ (r s).path = 0
  range : ∀ j, 1 ≤ j → j ≤ n → 0 ≤ (r j).dist ∧ (r j).dist ≤ INT_MAX
  visFin : ∀ j, 1 ≤ j → j ≤ n → (r j).visited = true → (r j).dist < INT_MAX
  pred : ∀ j, 1 ≤ j → j ≤ n → j ≠ s → (r j).dist < INT_MAX →
    1 ≤ (r j).path ∧ (r j).path ≤ n ∧ (r (r j).path).visited = true ∧ (r j).path ≠ j ∧
      C (r j).path j < INT_MAX ∧ (r j).dist = (r (r j).path).dist + C (r j).path j
  mono : ∀ u w, 1 ≤ u → u ≤ n → 1 ≤ w → w ≤ n → (r u).visited = true →
    (r w).visited = false → (r u).dist ≤ (r w).dist
  relaxed : ∀ u w, 1 ≤ u → u ≤ n → 1 ≤ w → w ≤ n → (r u).visited = true →
    C u w < INT_MAX → (r w).dist ≤ (r u).dist + C u w ∧ (r w).dist < INT_MAX

/-- Every vertex of `1..n` whose distance is finite has been visited. -/
def RowDone (n : Nat) (r : Nat → TableType) : Prop :=
  ∀ j, 1 ≤ j → j ≤ n → (r j).dist < INT_MAX → (r j).visited = true

/-- The tokens `displayPath` writes for a sequence of vertices. -/
def pathTokens : List Nat → List Token
  | [] => []
  | v :: rest => Token.int v :: Token.chr ' ' :: pathTokens rest

/-- The scenario of the specification: three vertices labelled A, B, C and
the edge records (1,2,5), (2,3,3), (1,3,20), closed by a sentinel record. -/
def scenarioGraph : GraphM :=
  (GraphM.buildGraph GraphM.empty 3
    (fun i => if i = 1 then "A" else if i = 2 then "B" else "C")
    [(1, 2, 5), (2, 3, 3), (1, 3, 20), (0, 0, 0)]).getD GraphM.empty

/-- A graph of two vertices joined by the single edge (1,2,5). -/
def pairGraph : GraphM :=
  (GraphM.buildGraph GraphM.empty 2 (fun i => if i = 1 then "A" else "B")
    [(1, 2, 5), (0, 0, 0)]).getD GraphM.empty

/-- The two-vertex graph after `findShortestPath()` and a following
`insertEdge(1,2,7)`: the cache flag is down and the table is stale. -/
def staleGraph : GraphM := (pairGraph.findShortestPath.insertEdge 1 2 7).2

/-! ## The states inside `findShortestPath`

A counted loop run for fewer rounds gives the state in which the full loop
starts its next round, so the states below are those the code passes through
while `findShortestPath` recomputes the table. -/

namespace GraphM

/-- The state in which the source loop of `findShortestPath` starts the round
for `source = k + 1`. -/
def sourceState (g : GraphM) (k : Nat) : GraphM :=
  forLoop sourceStep 1 k (resetTable g)

/-- The state in which the `while` loop for `source = k + 1` starts the pass
with `numVisits = m`. -/
def visitState (g : GraphM) (k m : Nat) : GraphM :=
  forLoop (fun _ h => visitStep (k + 1) h) 0 m ((g.sourceState k).initSource (k + 1))

/-- The vertex `v = findV(source)` selected in that pass. -/
def relaxVertex (g : GraphM) (k m : Nat) : Nat :=
  (g.visitState k m).findV (k + 1)

/-- The state in which the loop of `setW(source, v)` of that pass starts the
round for `w = j + 1`. -/
def relaxState (g : GraphM) (k m j : Nat) : GraphM :=
  forLoop (setWStep (k + 1) (g.relaxVertex k m)) 1 j
    ((g.visitState k m).markVisited (k + 1) (g.relaxVertex k m))

/-- The guard of `setW` holds for `w`, so the sum
`T[source][v].dist + C[v][w]` is evaluated. -/
def sumEvaluated (g : GraphM) (source v w : Nat) : Prop :=
  (g.T source w).visited = false ∧ g.C v w < INT_MAX ∧ (g.T source v).dist < INT_MAX

end GraphM

/-- A graph of three vertices with the accepted edges (1,2,2147483646) and
(2,3,2147483646). -/
def overflowGraph : GraphM :=
  (GraphM.buildGraph GraphM.empty 3 (fun _ => "n")
    [(1, 2, 2147483646), (2, 3, 2147483646), (0, 0, 0)]).getD GraphM.empty

/-! ## Adjacency-list graph with depth-first search (`graphl.cpp`)

The array `adjList[101]` of `GraphNode*` is a function to `Option GraphNode`,
`none` being `NULL`; the singly linked list of `EdgeNode`s hanging from
`edgeHead` is the list of its `adjGraphNode` fields, head first.  A result
`none` stands for a run without a result: a `NULL` pointer dereferenced, a
loop that does not end, or a recursion deeper than the depth budget. -/

/-- The array bound `GRAPHNODELIMIT` of `graphl.h`. -/
def GRAPHNODELIMIT : Nat := 101

/-- The struct `GraphNode` of `graphl.h`. -/
structure GraphNode where
  edgeHead : List Nat
  data : NodeData
  visited : Bool
deriving DecidableEq, Repr

/-- The data member of class `GraphL`. -/
structure GraphL where
  adjList : Nat → Option GraphNode

namespace GraphL

/-- The default constructor `GraphL::GraphL()`. -/
def empty : GraphL where
  adjList := fun _ => none

/-- A write through the pointer `adjList[i]`: node `i` becomes `node`. -/
def setNode (g : GraphL) (i : Nat) (node : GraphNode) : GraphL where
  adjList := setAt g.adjList i (some node)

/-- The method `GraphL::insertEdge`: the returned flag and the new state. -/
def insertEdge (g : GraphL) (source dest size : Int) : Option (Bool × GraphL) :=
  let success : Bool := decide (source > 0 ∧ source ≤ size ∧
    dest > 0 ∧ dest ≤ size ∧ source ≠ dest)
  if success then
    match g.adjList source.toNat with
    | some node =>
      some (success, g.setNode source.toNat { node with edgeHead := dest.toNat :: node.edgeHead })
    | none => none
  else some (success, g)

/-- The edge loop of `GraphL::buildGraph`: as for `GraphM`, with records of
two fields and `nodeCount` handed to `insertEdge` as the size. -/
def buildLoop (nodeCount : Int) (g : GraphL) : List (Int × Int) → Option GraphL
  | [] => none
  | (source, dest) :: rest =>
    if source ≠ 0 then
      match g.insertEdge source dest nodeCount with
      | some (_, g2) => buildLoop nodeCount g2 rest
      | none => none
    else some g

/-- The loop of `GraphL::buildGraph` over the description lines:
`adjList[i] = new GraphNode()` (no edge, not visited) with line `i` as data. -/
def readNodes (g : GraphL) (nodeCount : Nat) (descriptions : Nat → String) : GraphL :=
  forLoop (fun i (h : GraphL) =>
    h.setNode i { edgeHead := [], data := descriptions i, visited := false }) 1 nodeCount g

/-- The method `GraphL::buildGraph`, on the content of the stream. -/
def buildGraph (g : GraphL) (nodeCount : Int) (descriptions : Nat → String)
    (edges : List (Int × Int)) : Option GraphL :=
  if nodeCount > 0 ∧ nodeCount < (GRAPHNODELIMIT : Int) then
    buildLoop nodeCount (readNodes g nodeCount.toNat descriptions) edges
  else some g

/-- The loop `while(visit != NULL)` of `GraphL::dfs` over the edge list of the
vertex; `recurse` is the recursive call `dfs(visit->adjGraphNode)`. -/
def dfsLoop (recurse : Nat → GraphL × List Token → Option (GraphL × List Token)) :
    List Nat → GraphL × List Token → Option (GraphL × List Token)
  | [], st => some st
  | d :: rest, (g, out) =>
    match g.adjList d with
    | none => none
    | some node =>
      if !node.visited then
        match recurse d (g, out) with
        | none => none
        | some st => dfsLoop recurse rest st
      else dfsLoop recurse rest (g, out)

/-- The method `GraphL::dfs`, with a depth budget; the state is the graph and
the tokens written so far. -/
def dfs : Nat → Nat → GraphL × List Token → Option (GraphL × List Token)
  | 0, _, _ => none
  | fuel + 1, v, (g, out) =>
    match g.adjList v with
    | none => none
    | some node =>
      dfsLoop (dfs fuel) node.edgeHead
        (g.setNode v { node with visited := true }, out ++ [Token.int v, Token.chr ' '])

/-- The first loop of `GraphL::depthFirstSearch`, from index `i` with `k`
indices left below `GRAPHNODELIMIT`; it stops at the first `NULL`. -/
def resetLoop : Nat → Nat → GraphL → GraphL
  | 0, _, g => g
  | k + 1, i, g =>
    match g.adjList i with
    | some node =>
      resetLoop k (i + 1) (g.setNode i { node with visited := false })
    | none => g

/-- The second loop of `GraphL::depthFirstSearch`, from index `v` with `k`
indices left below `GRAPHNODELIMIT`. -/
def searchLoop (fuel : Nat) :
    Nat → Nat → GraphL × List Token → Option (GraphL × List Token)
  | 0, _, st => some st
  | k + 1, v, (g, out) =>
    match g.adjList v with
    | none => some (g, out)
    | some node =>
      if !node.visited then
        match dfs fuel v (g, out) with
        | none => none
        | some st => searchLoop fuel k (v + 1) st
      else searchLoop fuel k (v + 1) (g, out)

/-- The method `GraphL::depthFirstSearch`. -/
def depthFirstSearch (fuel : Nat) (g : GraphL) : Option (GraphL × List Token) :=
  match searchLoop fuel (GRAPHNODELIMIT - 1) 1
      (resetLoop (GRAPHNODELIMIT - 1) 1 g,
        [Token.endl, Token.str "Depth-first ordering: "]) with
  | none => none
  | some (g2, out) => some (g2, out ++ [Token.endl, Token.endl])

/-- The number of nodes `buildGraph` creates for a node count read. -/
def nodeTotal (nodeCount : Int) : Nat :=
  if nodeCount > 0 ∧ nodeCount < (GRAPHNODELIMIT : Int) then nodeCount.toNat else 0

/-- The visited flag of node `i`; `false` where there is no node. -/
def isVisited (g : GraphL) (i : Nat) : Bool :=
  match g.adjList i with
  | some node => node.visited
  | none => false

/-- The edge list of node `i`; empty where there is no node. -/
def edgesOf (g : GraphL) (i : Nat) : List Nat :=
  match g.adjList i with
  | some node => node.edgeHead
  | none => []

/-- The graph with the visited flag raised on the nodes listed. -/
def markAll (g : GraphL) (L : List Nat) : GraphL where
  adjList := fun i =>
    (g.adjList i).map (fun node => { node with visited := node.visited || decide (i ∈ L) })

/-- The graph with every visited flag lowered. -/
def clearAll (g : GraphL) : GraphL where
  adjList := fun i => (g.adjList i).map (fun node => { node with visited := false })

/-- The vertices of `1..n` not yet visited. -/
def unvisited (g : GraphL) (n : Nat) : Finset Nat :=
  (Finset.Icc 1 n).filter (fun i => g.isVisited i = false)

/-- A list graph of `n` vertices: exactly the nodes `1..n` exist, and every
edge leads to a vertex of `1..n` other than its source. -/
structure Shape (g : GraphL) (n : Nat) : Prop where
  bound : n < GRAPHNODELIMIT
  alloc : ∀ i, 1 ≤ i → i ≤ n → ∃ node, g.adjList i = some node
  free : ∀ i, i = 0 ∨ n < i → g.adjList i = none
  edges : ∀ i node, g.adjList i = some node → ∀ d ∈ node.edgeHead, 1 ≤ d ∧ d ≤ n ∧ d ≠ i

/-- The validation of `GraphL::insertEdge` on one edge record. -/
def accepted (size : Int) (r : Int × Int) : Bool :=
  decide (r.1 > 0 ∧ r.1 ≤ size ∧ r.2 > 0 ∧ r.2 ≤ size ∧ r.1 ≠ r.2)

/-- The destinations of the accepted records with source `v`, in the order of
the records. -/
def destsOf (size : Int) (v : Nat) (records : List (Int × Int)) : List Nat :=
  (records.filter (fun r => accepted size r && decide (r.1.toNat = v))).map (fun r => r.2.toNat)

/-- The method `insertEdge` applied to the records of a list, in order. -/
def insertAll (size : Int) (g : GraphL) : List (Int × Int) → Option GraphL
  | [] => some g
  | (source, dest) :: rest =>
    match g.insertEdge source dest size with
    | some (_, g2) => insertAll size g2 rest
    | none => none

/-- Modelled from the spec: vertex `b` is reachable from vertex `a` along
directed edges, that is by following entries of the edge lists zero or more
times. -/
def Reaches (g : GraphL) (a b : Nat) : Prop :=
  Relation.ReflTransGen (fun u d => d ∈ g.edgesOf u) a b

end GraphL

/-- The states of a `GraphL` object of `n` vertices: the constructor followed
by `buildGraph` on a stream content for which it returns, then any number of
`depthFirstSearch` calls (run with a depth budget of at least `n`, which is
enough for the recursion to return). -/
inductive ListBuilt : Nat → GraphL → Prop
  | build (nodeCount : Int) (descriptions : Nat → String) (edges : List (Int × Int))
      {g : GraphL} :
      GraphL.buildGraph GraphL.empty nodeCount descriptions edges = some g →
      ListBuilt (GraphL.nodeTotal nodeCount) g
  | search {n : Nat} {g g2 : GraphL} (fuel : Nat) (out : List Token) :
      ListBuilt n g → n ≤ fuel → GraphL.depthFirstSearch fuel g = some (g2, out) →
      ListBuilt n g2

/-- The states of a `GraphL` object together with the edge records its
`buildGraph` call handed to `insertEdge`, in order: the constructor followed
by `buildGraph` on a stream whose records before the first one of source `0`
are `records`, then any number of `depthFirstSearch` calls.  `insertEdge` is
private to the class, so no edge is inserted after `buildGraph`. -/
inductive ListBuiltFrom : Nat → List (Int × Int) → GraphL → Prop
  | build (nodeCount : Int) (descriptions : Nat → String) (records : List (Int × Int))
      (dest : Int) (post : List (Int × Int)) {g : GraphL} :
      (∀ r ∈ records, r.1 ≠ 0) →
      GraphL.buildGraph GraphL.empty nodeCount descriptions (records ++ (0, dest) :: post) =
        some g →
      ListBuiltFrom (GraphL.nodeTotal nodeCount) records g
  | search {n : Nat} {records : List (Int × Int)} {g g2 : GraphL} (fuel : Nat)
      (out : List Token) :
      ListBuiltFrom n records g → n ≤ fuel → GraphL.depthFirstSearch fuel g = some (g2, out) →
      ListBuiltFrom n records g2

/-- A list graph of four vertices with a cycle 1 → 2 → 3 → 1, a duplicate
edge 1 → 2, the edge 1 → 3 inserted last, two rejected records and vertex 4
on its own. -/
def cycleGraph : GraphL :=
  (GraphL.buildGraph GraphL.empty 4 (fun _ => "n")
    [(1, 2), (2, 3), (3, 1), (1, 2), (2, 2), (1, 7), (1, 3), (0, 0), (4, 1)]).getD GraphL.empty

/-- The four-vertex graph after one call of `depthFirstSearch()`: every
visited flag is raised. -/
def searchedGraph : GraphL :=
  ((GraphL.depthFirstSearch 4 cycleGraph).map (fun r => r.1)).getD GraphL.empty

/-- A list graph of three vertices without any edge. -/
def isolatedGraph : GraphL :=
  (GraphL.buildGraph GraphL.empty 3 (fun _ => "n") [(0, 0)]).getD GraphL.empty

/-! ## Loops -/

theorem forLoop_succ_last {σ : Type} (body : Nat → σ → σ) (i n : Nat) (s : σ) :
    forLoop body i (n + 1) s = body (i + n) (forLoop body i n s) := by
  induction n generalizing i s with
  | zero => simp [forLoop]
  | succ n ih =>
    rw [forLoop, ih (i + 1) (body i s)]
    have h : i + 1 + n = i + (n + 1) := by omega
    rw [h]
    rfl

/-- Invariant rule for a counted loop. -/
theorem forLoop_inv {σ : Type} (body : Nat → σ → σ) (P : Nat → σ → Prop) (i n : Nat) (s : σ)
    (h0 : P i s)
    (hstep : ∀ k t, i ≤ k → k < i + n → P k t → P (k + 1) (body k t)) :
    P (i + n) (forLoop body i n s) := by
  induction n with
  | zero => simpa [forLoop] using h0
  | succ n ih =>
    rw [forLoop_succ_last]
    have h1 : P (i + n) (forLoop body i n s) :=
      ih (fun k t hk hk2 hp => hstep k t hk (by omega) hp)
    exact hstep (i + n) _ (by omega) (by omega) h1

/-- Two runs of a counted loop whose bodies respect a relation stay related. -/
theorem forLoop_rel {σ τ : Type} (f : Nat → σ → σ) (f2 : Nat → τ → τ) (R : σ → τ → Prop)
    (i n : Nat) (a : σ) (b : τ) (h0 : R a b)
    (hstep : ∀ k x y, i ≤ k → k < i + n → R x y → R (f k x) (f2 k y)) :
    R (forLoop f i n a) (forLoop f2 i n b) := by
  induction n with
  | zero => simpa [forLoop] using h0
  | succ n ih =>
    rw [forLoop_succ_last, forLoop_succ_last]
    exact hstep (i + n) _ _ (by omega) (by omega)
      (ih (fun k x y hk hk2 hr => hstep k x y hk (by omega) hr))

theorem wrap32_of_range (x : Int) (h0 : 0 ≤ x) (h1 : x < INT_MAX) : wrap32 x = x := by
  unfold wrap32
  unfold INT_MAX at h1
  omega

/-! ## `insertEdge` and `removeEdge` -/

namespace GraphM

theorem insertEdge_fst (g : GraphM) (source dest cost : Int) :
    (g.insertEdge source dest cost).1 = decide (source > 0 ∧ source ≤ (g.size : Int) ∧ cost > 0 ∧
      dest > 0 ∧ dest ≤ (g.size : Int) ∧ source ≠ dest) := by
  unfold insertEdge
  dsimp only
  split <;> rfl

theorem removeEdge_fst (g : GraphM) (source dest : Int) :
    (g.removeEdge source dest).1 = decide (source > 0 ∧ source ≤ (g.size : Int) ∧
      dest > 0 ∧ dest ≤ (g.size : Int) ∧ source ≠ dest) := by
  unfold removeEdge
  dsimp only
  split <;> rfl

theorem insertEdge_snd_of_true (g : GraphM) (source dest cost : Int)
    (h : (g.insertEdge source dest cost).1 = true) :
    (g.insertEdge source dest cost).2 =
      { g with C := setCell g.C source.toNat dest.toNat cost, pathed := false } := by
  rw [insertEdge_fst] at h
  unfold insertEdge
  simp only [h, if_true]

theorem insertEdge_snd_of_false (g : GraphM) (source dest cost : Int)
    (h : (g.insertEdge source dest cost).1 = false) :
    (g.insertEdge source dest cost).2 = g := by
  rw [insertEdge_fst] at h
  unfold insertEdge
  simp only [h]
  rfl

theorem removeEdge_snd_of_true (g : GraphM) (source dest : Int)
    (h : (g.removeEdge source dest).1 = true) :
    (g.removeEdge source dest).2 =
      { g with C := setCell g.C source.toNat dest.toNat INT_MAX, pathed := false } := by
  rw [removeEdge_fst] at h
  unfold removeEdge
  simp only [h, if_true]

theorem removeEdge_snd_of_false (g : GraphM) (source dest : Int)
    (h : (g.removeEdge source dest).1 = false) :
    (g.removeEdge source dest).2 = g := by
  rw [removeEdge_fst] at h
  unfold removeEdge
  simp only [h]
  rfl

end GraphM
/-! ## Frame and pointwise description of `setW` -/

namespace GraphM

theorem setWStep_frame (s v w : Nat) (g : GraphM) :
    (setWStep s v w g).C = g.C ∧ (setWStep s v w g).size = g.size ∧
    (setWStep s v w g).data = g.data ∧ (setWStep s v w g).pathed = g.pathed := by
  unfold setWStep
  split
  · split <;> simp
  · simp

theorem setWStep_T_other (s v w : Nat) (g : GraphM) (a b : Nat) (h : ¬ (a = s ∧ b = w)) :
    (setWStep s v w g).T a b = g.T a b := by
  unfold setWStep
  split
  · split
    · simp [setCell, h]
    · rfl
  · rfl

theorem setWStep_of_visited (s v w : Nat) (g : GraphM) (h : (g.T s w).visited = true) :
    setWStep s v w g = g := by
  unfold setWStep
  simp [h]

/-- The step of `setW` reads only the cells `T[s][w]`, `T[s][v]` and `C[v][w]`. -/
theorem setWStep_congr (s v w : Nat) (g h : GraphM) (hC : h.C v w = g.C v w)
    (hw : h.T s w = g.T s w) (hv : h.T s v = g.T s v) :
    (setWStep s v w h).T s w = (setWStep s v w g).T s w := by
  unfold setWStep
  simp only [hC, hw, hv]
  split
  · split
    · simp [setCell]
    · exact hw
  · exact hw

theorem setW_spec (g : GraphM) (s v : Nat) (hv : (g.T s v).visited = true) :
    (setW g s v).C = g.C ∧ (setW g s v).size = g.size ∧
    (setW g s v).data = g.data ∧ (setW g s v).pathed = g.pathed ∧
    ∀ a b, (setW g s v).T a b =
      if a = s ∧ 1 ≤ b ∧ b ≤ g.size then (setWStep s v b g).T s b else g.T a b := by
  have key := forLoop_inv (setWStep s v)
    (fun k h => h.C = g.C ∧ h.size = g.size ∧ h.data = g.data ∧ h.pathed = g.pathed ∧
      ∀ a b, h.T a b = if a = s ∧ 1 ≤ b ∧ b < k then (setWStep s v b g).T s b else g.T a b)
    1 g.size g
    ⟨rfl, rfl, rfl, rfl, fun a b => by
      have : ¬ (a = s ∧ 1 ≤ b ∧ b < 1) := by omega
      rw [if_neg this]⟩
    (by
      intro k h hk1 hk2 ⟨hC, hsz, hdata, hp, hT⟩
      obtain ⟨fC, fsz, fdata, fp⟩ := setWStep_frame s v k h
      refine ⟨fC.trans hC, fsz.trans hsz, fdata.trans hdata, fp.trans hp, ?_⟩
      intro a b
      have hTk : h.T s k = g.T s k := by
        rw [hT]
        have : ¬ (s = s ∧ 1 ≤ k ∧ k < k) := by omega
        rw [if_neg this]
      have hTv : h.T s v = g.T s v := by
        rw [hT]
        split
        · rw [setWStep_of_visited s v v g hv]
        · rfl
      by_cases hab : a = s ∧ b = k
      · obtain ⟨rfl, rfl⟩ := hab
        have : a = a ∧ 1 ≤ b ∧ b < b + 1 := ⟨rfl, hk1, by omega⟩
        rw [if_pos this]
        exact setWStep_congr a v b g h (by rw [hC]) hTk hTv
      · rw [setWStep_T_other s v k h a b hab, hT]
        by_cases c : a = s ∧ 1 ≤ b ∧ b < k
        · have c2 : a = s ∧ 1 ≤ b ∧ b < k + 1 := ⟨c.1, c.2.1, by omega⟩
          rw [if_pos c, if_pos c2]
        · have c2 : ¬ (a = s ∧ 1 ≤ b ∧ b < k + 1) := by
            intro hc
            rcases Nat.lt_succ_iff_lt_or_eq.mp hc.2.2 with h1 | h1
            · exact c ⟨hc.1, hc.2.1, h1⟩
            · exact hab ⟨hc.1, h1⟩
          rw [if_neg c, if_neg c2])
  obtain ⟨hC, hsz, hdata, hp, hT⟩ := key
  refine ⟨hC, hsz, hdata, hp, ?_⟩
  intro a b
  have := hT a b
  unfold setW
  rw [this]
  have e : (a = s ∧ 1 ≤ b ∧ b < 1 + g.size) ↔ (a = s ∧ 1 ≤ b ∧ b ≤ g.size) := by
    constructor <;> rintro ⟨h1, h2, h3⟩ <;> exact ⟨h1, h2, by omega⟩
  simp only [e]

end GraphM

/-! ## Selection of the next vertex -/

namespace GraphM

/-- What `findV` returns: `0` when no unvisited vertex of `1..size` has a
distance below the sentinel cell `T[source][0]`, otherwise the lowest-index
unvisited vertex of minimal distance. -/
theorem findV_spec (g : GraphM) (s : Nat) :
    (g.findV s = 0 ∧ ∀ i, 1 ≤ i → i ≤ g.size → (g.T s i).visited = false →
        ¬ (g.T s i).dist < (g.T s 0).dist) ∨
    (1 ≤ g.findV s ∧ g.findV s ≤ g.size ∧ (g.T s (g.findV s)).visited = false ∧
      (g.T s (g.findV s)).dist < (g.T s 0).dist ∧
      ∀ i, 1 ≤ i → i ≤ g.size → (g.T s i).visited = false →
        (g.T s (g.findV s)).dist ≤ (g.T s i).dist ∧
        (i < g.findV s → (g.T s (g.findV s)).dist < (g.T s i).dist)) := by
  have key := forLoop_inv
    (fun i v => if !(g.T s i).visited then
      if (g.T s i).dist < (g.T s v).dist then i else v else v)
    (fun k v =>
      (v = 0 ∧ ∀ i, 1 ≤ i → i < k → (g.T s i).visited = false →
        ¬ (g.T s i).dist < (g.T s 0).dist) ∨
      (1 ≤ v ∧ v < k ∧ (g.T s v).visited = false ∧ (g.T s v).dist < (g.T s 0).dist ∧
        ∀ i, 1 ≤ i → i < k → (g.T s i).visited = false →
          (g.T s v).dist ≤ (g.T s i).dist ∧ (i < v → (g.T s v).dist < (g.T s i).dist)))
    1 g.size 0 (Or.inl ⟨rfl, fun i h1 h2 => by omega⟩)
    (by
      intro k v hk1 _ hP
      by_cases hvis : (g.T s k).visited = false
      · by_cases hlt : (g.T s k).dist < (g.T s v).dist
        · have hbody : (if (!(g.T s k).visited) = true then
              if (g.T s k).dist < (g.T s v).dist then k else v else v) = k := by
            simp [hvis, hlt]
          simp only [hbody]
          right
          rcases hP with ⟨rfl, h⟩ | ⟨_, _, _, hv0, h⟩
          · refine ⟨hk1, by omega, hvis, hlt, ?_⟩
            intro i hi1 hi2 hiv
            rcases Nat.lt_succ_iff_lt_or_eq.mp hi2 with h3 | rfl
            · have := h i hi1 h3 hiv
              exact ⟨by omega, fun _ => by omega⟩
            · exact ⟨le_refl _, fun h4 => absurd h4 (lt_irrefl _)⟩
          · refine ⟨hk1, by omega, hvis, by omega, ?_⟩
            intro i hi1 hi2 hiv
            rcases Nat.lt_succ_iff_lt_or_eq.mp hi2 with h3 | rfl
            · have := (h i hi1 h3 hiv).1
              exact ⟨by omega, fun _ => by omega⟩
            · exact ⟨le_refl _, fun h4 => absurd h4 (lt_irrefl _)⟩
        · have hbody : (if (!(g.T s k).visited) = true then
              if (g.T s k).dist < (g.T s v).dist then k else v else v) = v := by
            simp [hvis, hlt]
          simp only [hbody]
          rcases hP with ⟨rfl, h⟩ | ⟨hv1, hv2, hvv, hv0, h⟩
          · left
            refine ⟨rfl, ?_⟩
            intro i hi1 hi2 hiv
            rcases Nat.lt_succ_iff_lt_or_eq.mp hi2 with h3 | rfl
            · exact h i hi1 h3 hiv
            · exact hlt
          · right
            refine ⟨hv1, by omega, hvv, hv0, ?_⟩
            intro i hi1 hi2 hiv
            rcases Nat.lt_succ_iff_lt_or_eq.mp hi2 with h3 | rfl
            · exact h i hi1 h3 hiv
            · exact ⟨by omega, fun h4 => by omega⟩
      · have hvis2 : (g.T s k).visited = true := by simpa using hvis
        have hbody : (if (!(g.T s k).visited) = true then
            if (g.T s k).dist < (g.T s v).dist then k else v else v) = v := by
          simp [hvis2]
        simp only [hbody]
        rcases hP with ⟨rfl, h⟩ | ⟨hv1, hv2, hvv, hv0, h⟩
        · left
          refine ⟨rfl, ?_⟩
          intro i hi1 hi2 hiv
          rcases Nat.lt_succ_iff_lt_or_eq.mp hi2 with h3 | rfl
          · exact h i hi1 h3 hiv
          · rw [hvis2] at hiv; exact absurd hiv (by simp)
        · right
          refine ⟨hv1, by omega, hvv, hv0, ?_⟩
          intro i hi1 hi2 hiv
          rcases Nat.lt_succ_iff_lt_or_eq.mp hi2 with h3 | rfl
          · exact h i hi1 h3 hiv
          · rw [hvis2] at hiv; exact absurd hiv (by simp))
  have e : g.findV s = forLoop (fun i v => if !(g.T s i).visited then
      if (g.T s i).dist < (g.T s v).dist then i else v else v) 1 g.size 0 := rfl
  rw [← e] at key
  rcases key with ⟨h0, h⟩ | ⟨h1, h2, h3, h4, h⟩
  · exact Or.inl ⟨h0, fun i hi1 hi2 => h i hi1 (by omega)⟩
  · exact Or.inr ⟨h1, by omega, h3, h4, fun i hi1 hi2 => h i hi1 (by omega)⟩

theorem markVisited_T (g : GraphM) (s v a b : Nat) :
    (g.markVisited s v).T a b =
      if a = s ∧ b = v then { g.T s v with visited := true } else g.T a b := rfl

/-- The state after one pass of the `while` loop, cell by cell. -/
theorem visitStep_spec (g : GraphM) (s : Nat) :
    (visitStep s g).C = g.C ∧ (visitStep s g).size = g.size ∧
    (visitStep s g).data = g.data ∧ (visitStep s g).pathed = g.pathed ∧
    ∀ a b, (visitStep s g).T a b =
      if a = s ∧ 1 ≤ b ∧ b ≤ g.size then
        (setWStep s (g.findV s) b (g.markVisited s (g.findV s))).T s b
      else (g.markVisited s (g.findV s)).T a b := by
  have h := setW_spec (g.markVisited s (g.findV s)) s (g.findV s)
    (by simp [markVisited_T])
  exact h

end GraphM

namespace GraphM

theorem visitStep_T_self (g : GraphM) (s : Nat) :
    (visitStep s g).T s (g.findV s) = { g.T s (g.findV s) with visited := true } := by
  rw [(visitStep_spec g s).2.2.2.2]
  split
  · rw [setWStep_of_visited _ _ _ _ (by simp [markVisited_T])]
    simp [markVisited_T]
  · simp [markVisited_T]

theorem visitStep_T_other (g : GraphM) (s w : Nat) (hw1 : 1 ≤ w) (hw2 : w ≤ g.size)
    (hne : w ≠ g.findV s) :
    (visitStep s g).T s w =
      if (g.T s w).visited = false ∧ g.C (g.findV s) w < INT_MAX ∧
          (g.T s (g.findV s)).dist < INT_MAX ∧
          wrap32 ((g.T s (g.findV s)).dist + g.C (g.findV s) w) < (g.T s w).dist then
        { g.T s w with dist := wrap32 ((g.T s (g.findV s)).dist + g.C (g.findV s) w),
                       path := g.findV s }
      else g.T s w := by
  rw [(visitStep_spec g s).2.2.2.2]
  rw [if_pos ⟨rfl, hw1, hw2⟩]
  have e1 : (g.markVisited s (g.findV s)).T s w = g.T s w := by
    simp [markVisited_T, hne]
  have e2 : ((g.markVisited s (g.findV s)).T s (g.findV s)).dist = (g.T s (g.findV s)).dist := by
    simp [markVisited_T]
  have e3 : (g.markVisited s (g.findV s)).C = g.C := rfl
  unfold setWStep
  simp only [e1, e2, e3]
  by_cases c1 : (g.T s w).visited = false
  · by_cases c2 : g.C (g.findV s) w < INT_MAX ∧ (g.T s (g.findV s)).dist < INT_MAX
    · by_cases c3 : wrap32 ((g.T s (g.findV s)).dist + g.C (g.findV s) w) < (g.T s w).dist
      · simp [c1, c2.1, c2.2, c3, setCell]
      · simp [c1, c2.1, c2.2, c3, e1]
    · have c2' : g.C (g.findV s) w < INT_MAX → ¬ (g.T s (g.findV s)).dist < INT_MAX :=
        fun h1 h2 => c2 ⟨h1, h2⟩
      by_cases c4 : g.C (g.findV s) w < INT_MAX
      · simp [c1, c4, c2' c4, e1]
      · simp [c1, c4, e1]
  · have c1' : (g.T s w).visited = true := by simpa using c1
    simp [c1', e1]

theorem visitStep_T_row_outside (g : GraphM) (s b : Nat) (hb : ¬ (1 ≤ b ∧ b ≤ g.size)) :
    ((visitStep s g).T s b).dist = (g.T s b).dist ∧
    ((visitStep s g).T s b).path = (g.T s b).path := by
  rw [(visitStep_spec g s).2.2.2.2]
  rw [if_neg (fun h => hb h.2)]
  rw [markVisited_T]
  split
  · rename_i h
    rw [h.2]
    exact ⟨rfl, rfl⟩
  · exact ⟨rfl, rfl⟩

theorem visitStep_T_other_row (g : GraphM) (s a b : Nat) (ha : a ≠ s) :
    (visitStep s g).T a b = g.T a b := by
  rw [(visitStep_spec g s).2.2.2.2]
  rw [if_neg (fun h => ha h.1)]
  rw [markVisited_T, if_neg (fun h => ha h.1)]

/-- A visited cell of `1..size` is left alone by a pass of the `while` loop. -/
theorem visitStep_T_visited (g : GraphM) (s w : Nat) (hw1 : 1 ≤ w) (hw2 : w ≤ g.size)
    (hvis : (g.T s w).visited = true) : (visitStep s g).T s w = g.T s w := by
  by_cases hne : w = g.findV s
  · rw [hne, visitStep_T_self]
    rw [hne] at hvis
    cases h : g.T s (g.findV s) with
    | mk a b c =>
      rw [h] at hvis
      simp only at hvis
      simp [hvis]
  · rw [visitStep_T_other g s w hw1 hw2 hne]
    rw [if_neg (fun h => by rw [hvis] at h; exact absurd h.1 (by simp))]

end GraphM

/-! ## Paths -/

theorem pathCost_concat (C : Nat → Nat → Int) (p : List Nat) (u j : Nat) :
    pathCost C (p ++ [u] ++ [j]) = pathCost C (p ++ [u]) + C u j := by
  induction p with
  | nil => simp [pathCost]
  | cons a q ih =>
    cases q with
    | nil =>
      simp only [List.cons_append, List.nil_append, pathCost]
      ring
    | cons b q2 =>
      have e : pathCost C (a :: b :: q2 ++ [u] ++ [j]) =
          C a b + pathCost C (b :: q2 ++ [u] ++ [j]) := rfl
      have e2 : pathCost C (a :: b :: q2 ++ [u]) = C a b + pathCost C (b :: q2 ++ [u]) := rfl
      rw [e, e2, ih]
      ring

theorem IsWalk.concat {g : GraphM} {p : List Nat} {u j : Nat} (hp : IsWalk g (p ++ [u]))
    (hj1 : 1 ≤ j) (hj2 : j ≤ g.size) (hedge : g.C u j < INT_MAX) :
    IsWalk g (p ++ [u] ++ [j]) := by
  refine ⟨?_, ?_⟩
  · intro x hx
    rcases List.mem_append.mp hx with h | h
    · exact hp.1 x h
    · rw [List.mem_singleton] at h
      rw [h]
      exact ⟨hj1, hj2⟩
  · refine List.Chain'.append hp.2 (List.chain'_singleton j) ?_
    intro x hx y hy
    rw [List.getLast?_concat] at hx
    simp only [List.head?_cons, Option.mem_def, Option.some.injEq] at hx hy
    rw [← hx, ← hy]
    exact hedge

theorem IsWalk.tail {g : GraphM} {a : Nat} {p : List Nat} (hp : IsWalk g (a :: p)) :
    IsWalk g p :=
  ⟨fun x hx => hp.1 x (List.mem_cons_of_mem a hx), List.Chain'.tail hp.2⟩

/-- From the loop invariant: every vertex with a finite distance is the end of
a path from the source, without repeated vertex, that follows the stored
predecessor links, costs exactly the stored distance and runs through visited
vertices of smaller distance. -/
theorem RowInv.walk {g : GraphM} {s : Nat} {r : Nat → TableType}
    (hpos : ∀ i j, 1 ≤ i → i ≤ g.size → 1 ≤ j → j ≤ g.size → i ≠ j → 0 < g.C i j)
    (hs1 : 1 ≤ s) (hs2 : s ≤ g.size) (h : RowInv g.C g.size s r) :
    ∀ (k j : Nat), 1 ≤ j → j ≤ g.size → (r j).dist < INT_MAX → (r j).dist.toNat ≤ k →
      ∃ p, IsWalkFromTo g s j p ∧ p.Nodup ∧ pathCost g.C p = (r j).dist ∧
        (∀ x ∈ p, x ≠ j → (r x).visited = true ∧ (r x).dist < (r j).dist) ∧
        List.Chain' (fun u w => (r w).path = u) p := by
  intro k
  induction k with
  | zero =>
    intro j hj1 hj2 hfin hk
    by_cases hjs : j = s
    · subst hjs
      refine ⟨[j], ⟨⟨?_, List.chain'_singleton j⟩, rfl, rfl⟩, List.nodup_singleton j, ?_, ?_,
        List.chain'_singleton j⟩
      · intro x hx
        rw [List.mem_singleton] at hx
        rw [hx]; exact ⟨hj1, hj2⟩
      · simp [pathCost, h.src.1]
      · intro x hx hne
        rw [List.mem_singleton] at hx
        exact absurd hx hne
    · exfalso
      obtain ⟨hu1, hu2, _, hune, _, hd⟩ := h.pred j hj1 hj2 hjs hfin
      have hc := hpos _ _ hu1 hu2 hj1 hj2 hune
      have hr := (h.range _ hu1 hu2).1
      omega
  | succ k ih =>
    intro j hj1 hj2 hfin hk
    by_cases hjs : j = s
    · subst hjs
      refine ⟨[j], ⟨⟨?_, List.chain'_singleton j⟩, rfl, rfl⟩, List.nodup_singleton j, ?_, ?_,
        List.chain'_singleton j⟩
      · intro x hx
        rw [List.mem_singleton] at hx
        rw [hx]; exact ⟨hj1, hj2⟩
      · simp [pathCost, h.src.1]
      · intro x hx hne
        rw [List.mem_singleton] at hx
        exact absurd hx hne
    · obtain ⟨hu1, hu2, huv, hune, hedge, hd⟩ := h.pred j hj1 hj2 hjs hfin
      have hc := hpos _ _ hu1 hu2 hj1 hj2 hune
      have hr := (h.range _ hu1 hu2).1
      obtain ⟨p, ⟨hw, hhead, hlast⟩, hnd, hcost, hvis, hch⟩ :=
        ih (r j).path hu1 hu2 (by omega) (by omega)
      obtain ⟨q, rfl⟩ := List.getLast?_eq_some_iff.mp hlast
      have hnotin : j ∉ q ++ [(r j).path] := by
        intro hmem
        by_cases hx : j = (r j).path
        · exact hune hx.symm
        · have := (hvis j hmem hx).2
          omega
      refine ⟨q ++ [(r j).path] ++ [j], ⟨hw.concat hj1 hj2 hedge, ?_, List.getLast?_concat _⟩,
        ?_, ?_, ?_, ?_⟩
      · rw [List.head?_append_of_ne_nil _ (by simp)]
        exact hhead
      · refine List.Nodup.append hnd (List.nodup_singleton j) ?_
        intro x hx1 hx2
        rw [List.mem_singleton] at hx2
        rw [hx2] at hx1
        exact hnotin hx1
      · rw [pathCost_concat, hcost, hd]
      · intro x hx hne
        rcases List.mem_append.mp hx with hx1 | hx1
        · by_cases hxu : x = (r j).path
          · rw [hxu]
            exact ⟨huv, by omega⟩
          · have := hvis x hx1 hxu
            exact ⟨this.1, by omega⟩
        · rw [List.mem_singleton] at hx1
          exact absurd hx1 hne
      · refine List.Chain'.append hch (List.chain'_singleton j) ?_
        intro x hx y hy
        rw [List.getLast?_concat] at hx
        simp only [List.head?_cons, Option.mem_def, Option.some.injEq] at hx hy
        rw [← hx, ← hy]

/-! ## The loop invariant of Dijkstra's algorithm -/

theorem RowInv.congr {C : Nat → Nat → Int} {n s : Nat} {r r2 : Nat → TableType}
    (h : RowInv C n s r) (hs1 : 1 ≤ s) (hs2 : s ≤ n)
    (hcell : ∀ j, 1 ≤ j → j ≤ n → r2 j = r j) (h0 : (r2 0).dist = (r 0).dist) :
    RowInv C n s r2 := by
  refine ⟨?_, ?_, ?_, ?_, ?_, ?_, ?_⟩
  · rw [h0]; exact h.sentinel
  · rw [hcell s hs1 hs2]; exact h.src
  · intro j hj1 hj2
    rw [hcell j hj1 hj2]; exact h.range j hj1 hj2
  · intro j hj1 hj2
    rw [hcell j hj1 hj2]; exact h.visFin j hj1 hj2
  · intro j hj1 hj2 hjs
    rw [hcell j hj1 hj2]
    intro hfin
    obtain ⟨a1, a2, a3, a4, a5, a6⟩ := h.pred j hj1 hj2 hjs hfin
    rw [hcell _ a1 a2]
    exact ⟨a1, a2, a3, a4, a5, a6⟩
  · intro u w hu1 hu2 hw1 hw2
    rw [hcell u hu1 hu2, hcell w hw1 hw2]
    exact h.mono u w hu1 hu2 hw1 hw2
  · intro u w hu1 hu2 hw1 hw2
    rw [hcell u hu1 hu2, hcell w hw1 hw2]
    exact h.relaxed u w hu1 hu2 hw1 hw2

/-- One pass of the `while` loop that visits `v` and relaxes its out-edges
keeps the invariant, when the sums formed do not overflow. -/
theorem RowInv.step {C : Nat → Nat → Int} {n s v : Nat} {r r2 : Nat → TableType}
    (h : RowInv C n s r) (hs1 : 1 ≤ s) (hs2 : s ≤ n)
    (hnonneg : ∀ i j, 1 ≤ i → i ≤ n → 1 ≤ j → j ≤ n → 0 ≤ C i j)
    (hv1 : 1 ≤ v) (hv2 : v ≤ n) (hvu : (r v).visited = false) (hvf : (r v).dist < INT_MAX)
    (hmin : ∀ i, 1 ≤ i → i ≤ n → (r i).visited = false → (r v).dist ≤ (r i).dist)
    (h0 : (r2 0).dist = (r 0).dist)
    (hself : r2 v = { r v with visited := true })
    (hother : ∀ w, 1 ≤ w → w ≤ n → w ≠ v → r2 w =
      if (r w).visited = false ∧ C v w < INT_MAX ∧ (r v).dist + C v w < (r w).dist then
        { r w with dist := (r v).dist + C v w, path := v }
      else r w)
    (hsum : ∀ w, 1 ≤ w → w ≤ n → w ≠ v → (r w).visited = false → C v w < INT_MAX →
      (r v).dist + C v w < INT_MAX) :
    RowInv C n s r2 := by
  have hdv : (r2 v).dist = (r v).dist ∧ (r2 v).path = (r v).path ∧ (r2 v).visited = true := by
    rw [hself]; exact ⟨rfl, rfl, rfl⟩
  have hkeep : ∀ w, 1 ≤ w → w ≤ n → (r w).visited = true → r2 w = r w := by
    intro w hw1 hw2 hvis
    have hne : w ≠ v := by
      intro e; rw [e, hvu] at hvis; exact absurd hvis (by simp)
    rw [hother w hw1 hw2 hne, if_neg]
    intro hc; rw [hvis] at hc; exact absurd hc.1 (by simp)
  have hvis2 : ∀ w, 1 ≤ w → w ≤ n → w ≠ v → (r2 w).visited = (r w).visited := by
    intro w hw1 hw2 hne
    rw [hother w hw1 hw2 hne]
    split <;> rfl
  have hcases : ∀ w, 1 ≤ w → w ≤ n →
      ((r2 w).dist = (r w).dist ∧ (r2 w).path = (r w).path ∧
        (w ≠ v → (r w).visited = false → C v w < INT_MAX → (r w).dist ≤ (r v).dist + C v w)) ∨
      (w ≠ v ∧ (r w).visited = false ∧ C v w < INT_MAX ∧ (r v).dist + C v w < (r w).dist ∧
        (r2 w).dist = (r v).dist + C v w ∧ (r2 w).path = v) := by
    intro w hw1 hw2
    by_cases hne : w = v
    · left
      rw [hne]
      exact ⟨hdv.1, hdv.2.1, fun hc => absurd rfl hc⟩
    · rw [hother w hw1 hw2 hne]
      by_cases hc : (r w).visited = false ∧ C v w < INT_MAX ∧ (r v).dist + C v w < (r w).dist
      · right
        rw [if_pos hc]
        exact ⟨hne, hc.1, hc.2.1, hc.2.2, rfl, rfl⟩
      · left
        rw [if_neg hc]
        refine ⟨rfl, rfl, ?_⟩
        intro _ h1 h2
        by_contra h3
        exact hc ⟨h1, h2, by omega⟩
  have hle : ∀ w, 1 ≤ w → w ≤ n → (r2 w).dist ≤ (r w).dist := by
    intro w hw1 hw2
    rcases hcases w hw1 hw2 with ⟨a, _, _⟩ | ⟨_, _, _, a, b, _⟩ <;> omega
  have hvisdist : ∀ u, 1 ≤ u → u ≤ n → (r2 u).visited = true →
      (r2 u).dist = (r u).dist ∧ (u = v ∨ (r u).visited = true) := by
    intro u hu1 hu2 hvis
    by_cases hne : u = v
    · rw [hne]; exact ⟨hdv.1, Or.inl rfl⟩
    · rw [hvis2 u hu1 hu2 hne] at hvis
      rw [hkeep u hu1 hu2 hvis]
      exact ⟨rfl, Or.inr hvis⟩
  have hrv := h.range v hv1 hv2
  refine ⟨?_, ?_, ?_, ?_, ?_, ?_, ?_⟩
  · rw [h0]; exact h.sentinel
  · rcases hcases s hs1 hs2 with ⟨a, b, _⟩ | ⟨a, _, c, d, _, _⟩
    · rw [a, b]; exact h.src
    · exfalso
      have := hnonneg v s hv1 hv2 hs1 hs2
      have := h.src.1
      omega
  · intro j hj1 hj2
    have hr := h.range j hj1 hj2
    rcases hcases j hj1 hj2 with ⟨a, _, _⟩ | ⟨a, _, c, d, e, _⟩
    · rw [a]; exact hr
    · have := hnonneg v j hv1 hv2 hj1 hj2
      rw [e]; omega
  · intro j hj1 hj2 hvis
    obtain ⟨a, b⟩ := hvisdist j hj1 hj2 hvis
    rw [a]
    rcases b with b | b
    · rw [b]; exact hvf
    · exact h.visFin j hj1 hj2 b
  · intro j hj1 hj2 hjs hfin
    rcases hcases j hj1 hj2 with ⟨a, b, _⟩ | ⟨a, _, c, d, e, f⟩
    · rw [a] at hfin
      obtain ⟨a1, a2, a3, a4, a5, a6⟩ := h.pred j hj1 hj2 hjs hfin
      rw [a, b, hkeep _ a1 a2 a3]
      exact ⟨a1, a2, a3, a4, a5, a6⟩
    · rw [e, f, hdv.1, hdv.2.2]
      exact ⟨hv1, hv2, rfl, fun e2 => a e2.symm, c, rfl⟩
  · intro u w hu1 hu2 hw1 hw2 hvu2 hvw
    obtain ⟨a, b⟩ := hvisdist u hu1 hu2 hvu2
    have hwne : w ≠ v := by
      intro e; rw [e, hdv.2.2] at hvw; exact absurd hvw (by simp)
    rw [hvis2 w hw1 hw2 hwne] at hvw
    have hvw_min := hmin w hw1 hw2 hvw
    have hc := hnonneg v w hv1 hv2 hw1 hw2
    rw [a]
    rcases b with b | b
    · rw [b]
      rcases hcases w hw1 hw2 with ⟨c, _, _⟩ | ⟨_, _, _, _, e, _⟩ <;> omega
    · have h1 := h.mono u w hu1 hu2 hw1 hw2 b hvw
      have h2 := h.mono u v hu1 hu2 hv1 hv2 b hvu
      rcases hcases w hw1 hw2 with ⟨c, _, _⟩ | ⟨_, _, _, _, e, _⟩ <;> omega
  · intro u w hu1 hu2 hw1 hw2 hvu2 hedge
    obtain ⟨a, b⟩ := hvisdist u hu1 hu2 hvu2
    have hlew := hle w hw1 hw2
    rw [a]
    rcases b with b | b
    · rw [b] at hedge ⊢
      by_cases hwv : w = v
      · rw [hwv, hdv.1]
        have := hnonneg v v hv1 hv2 hv1 hv2
        exact ⟨by omega, hvf⟩
      · cases hvw : (r w).visited with
        | true =>
          have h1 := h.mono w v hw1 hw2 hv1 hv2 hvw hvu
          have h2 := h.visFin w hw1 hw2 hvw
          have := hnonneg v w hv1 hv2 hw1 hw2
          exact ⟨by omega, by omega⟩
        | false =>
          have h3 := hsum w hw1 hw2 hwv hvw hedge
          rcases hcases w hw1 hw2 with ⟨c, _, d⟩ | ⟨_, _, _, _, e, _⟩
          · have := d hwv hvw hedge
            exact ⟨by omega, by omega⟩
          · exact ⟨by omega, by omega⟩
    · have := h.relaxed u w hu1 hu2 hw1 hw2 b hedge
      exact ⟨by omega, by omega⟩

theorem NoOverflow.transfer {g h : GraphM} (hno : NoOverflow g) (hC : h.C = g.C)
    (hsz : h.size = g.size) : NoOverflow h := by
  intro p hp hnd
  rw [hC]
  exact hno p ⟨by rw [← hsz]; exact hp.1, by rw [← hC]; exact hp.2⟩ hnd

namespace GraphM

/-- The sum formed when relaxing an edge out of the selected vertex is the
cost of a path without repeated vertex, so it stays below `INT_MAX`. -/
theorem relax_sum_lt (g : GraphM) (s v w : Nat)
    (hpos : ∀ i j, 1 ≤ i → i ≤ g.size → 1 ≤ j → j ≤ g.size → i ≠ j → 0 < g.C i j)
    (hno : NoOverflow g) (hs1 : 1 ≤ s) (hs2 : s ≤ g.size)
    (h : RowInv g.C g.size s (g.T s))
    (hv1 : 1 ≤ v) (hv2 : v ≤ g.size) (hvf : (g.T s v).dist < INT_MAX)
    (hw1 : 1 ≤ w) (hw2 : w ≤ g.size) (hne : w ≠ v) (hwu : (g.T s w).visited = false)
    (hedge : g.C v w < INT_MAX) :
    (g.T s v).dist + g.C v w < INT_MAX := by
  obtain ⟨p, ⟨hwalk, _, hlast⟩, hnd, hcost, hvis, _⟩ :=
    h.walk hpos hs1 hs2 _ v hv1 hv2 hvf (le_refl _)
  obtain ⟨q, rfl⟩ := List.getLast?_eq_some_iff.mp hlast
  have hnotin : w ∉ q ++ [v] := by
    intro hmem
    have := (hvis w hmem hne).1
    rw [hwu] at this
    exact absurd this (by simp)
  have hnd2 : (q ++ [v] ++ [w]).Nodup := by
    refine List.Nodup.append hnd (List.nodup_singleton w) ?_
    intro x hx1 hx2
    rw [List.mem_singleton] at hx2
    rw [hx2] at hx1
    exact hnotin hx1
  have := hno _ (hwalk.concat hw1 hw2 hedge) hnd2
  rw [pathCost_concat, hcost] at this
  exact this

/-- A pass of the `while` loop keeps the invariant of row `s`; it either finds
nothing left to visit and leaves the row as it is, or visits one new vertex. -/
theorem visitStep_rowInv (g : GraphM) (s : Nat)
    (hdiag : ∀ i, 1 ≤ i → i ≤ g.size → g.C i i = 0)
    (hpos : ∀ i j, 1 ≤ i → i ≤ g.size → 1 ≤ j → j ≤ g.size → i ≠ j → 0 < g.C i j)
    (hno : NoOverflow g) (hs1 : 1 ≤ s) (hs2 : s ≤ g.size)
    (h : RowInv g.C g.size s (g.T s)) :
    RowInv g.C g.size s ((visitStep s g).T s) ∧
    ((RowDone g.size (g.T s) ∧ ∀ j, 1 ≤ j → j ≤ g.size → (visitStep s g).T s j = g.T s j) ∨
     (1 ≤ g.findV s ∧ g.findV s ≤ g.size ∧ (g.T s (g.findV s)).visited = false ∧
       (g.T s (g.findV s)).dist < INT_MAX ∧
       ∀ w, 1 ≤ w → w ≤ g.size →
        (((visitStep s g).T s w).visited = false ↔
          ((g.T s w).visited = false ∧ w ≠ g.findV s)))) := by
  have hout := visitStep_T_row_outside g s 0 (by omega)
  rcases findV_spec g s with ⟨hv0, hall⟩ | ⟨hv1, hv2, hvu, hvf, hmin⟩
  · have hsame : ∀ j, 1 ≤ j → j ≤ g.size → (visitStep s g).T s j = g.T s j := by
      intro j hj1 hj2
      rw [visitStep_T_other g s j hj1 hj2 (by omega), if_neg]
      intro hc
      rw [hv0, h.sentinel] at hc
      exact absurd hc.2.2.1 (lt_irrefl _)
    refine ⟨h.congr hs1 hs2 hsame hout.1, Or.inl ⟨?_, hsame⟩⟩
    intro j hj1 hj2 hfin
    cases hvj : (g.T s j).visited with
    | true => rfl
    | false =>
      have := hall j hj1 hj2 hvj
      rw [h.sentinel] at this
      exact absurd hfin this
  · rw [h.sentinel] at hvf
    have hnonneg : ∀ i j, 1 ≤ i → i ≤ g.size → 1 ≤ j → j ≤ g.size → 0 ≤ g.C i j := by
      intro i j hi1 hi2 hj1 hj2
      by_cases hij : i = j
      · rw [hij, hdiag j hj1 hj2]
      · exact le_of_lt (hpos i j hi1 hi2 hj1 hj2 hij)
    have hsum : ∀ w, 1 ≤ w → w ≤ g.size → w ≠ g.findV s → (g.T s w).visited = false →
        g.C (g.findV s) w < INT_MAX → (g.T s (g.findV s)).dist + g.C (g.findV s) w < INT_MAX :=
      fun w hw1 hw2 hne hwu hedge =>
        relax_sum_lt g s _ w hpos hno hs1 hs2 h hv1 hv2 hvf hw1 hw2 hne hwu hedge
    have hother : ∀ w, 1 ≤ w → w ≤ g.size → w ≠ g.findV s → (visitStep s g).T s w =
        if (g.T s w).visited = false ∧ g.C (g.findV s) w < INT_MAX ∧
            (g.T s (g.findV s)).dist + g.C (g.findV s) w < (g.T s w).dist then
          { g.T s w with dist := (g.T s (g.findV s)).dist + g.C (g.findV s) w,
                         path := g.findV s }
        else g.T s w := by
      intro w hw1 hw2 hne
      rw [visitStep_T_other g s w hw1 hw2 hne]
      by_cases hc : (g.T s w).visited = false ∧ g.C (g.findV s) w < INT_MAX
      · have hlt := hsum w hw1 hw2 hne hc.1 hc.2
        have h0 := (h.range _ hv1 hv2).1
        have hcw := hnonneg _ w hv1 hv2 hw1 hw2
        have hwrap := wrap32_of_range _ (by omega) hlt
        rw [hwrap]
        by_cases hd : (g.T s (g.findV s)).dist + g.C (g.findV s) w < (g.T s w).dist
        · rw [if_pos ⟨hc.1, hc.2, hvf, hd⟩, if_pos ⟨hc.1, hc.2, hd⟩]
        · rw [if_neg (fun x => hd x.2.2.2), if_neg (fun x => hd x.2.2)]
      · rw [if_neg (fun x => hc ⟨x.1, x.2.1⟩), if_neg (fun x => hc ⟨x.1, x.2.1⟩)]
    refine ⟨h.step hs1 hs2 hnonneg hv1 hv2 hvu hvf (fun i hi1 hi2 hiu => (hmin i hi1 hi2 hiu).1)
      hout.1 (visitStep_T_self g s) hother hsum, Or.inr ⟨hv1, hv2, hvu, hvf, ?_⟩⟩
    intro w hw1 hw2
    by_cases hne : w = g.findV s
    · rw [hne, visitStep_T_self]
      simp
    · rw [hother w hw1 hw2 hne]
      constructor
      · intro hx
        refine ⟨?_, hne⟩
        rw [← hx]
        split <;> rfl
      · intro hx
        rw [← hx.1]
        split <;> rfl

end GraphM

namespace GraphM

/-- Row `s` of a freshly cleared table, once `T[s][s].dist = 0` is stored,
satisfies the loop invariant. -/
theorem rowInv_init (C : Nat → Nat → Int) (n s : Nat) (r : Nat → TableType)
    (hsent : (r 0).dist = INT_MAX)
    (hsrc : r s = { visited := false, dist := 0, path := 0 })
    (hinit : ∀ j, 1 ≤ j → j ≤ n → j ≠ s → r j = { visited := false, dist := INT_MAX, path := 0 }) :
    RowInv C n s r := by
  have hunv : ∀ j, 1 ≤ j → j ≤ n → (r j).visited = false := by
    intro j hj1 hj2
    by_cases hjs : j = s
    · rw [hjs, hsrc]
    · rw [hinit j hj1 hj2 hjs]
  refine ⟨hsent, by rw [hsrc]; exact ⟨rfl, rfl⟩, ?_, ?_, ?_, ?_, ?_⟩
  · intro j hj1 hj2
    by_cases hjs : j = s
    · rw [hjs, hsrc]; simp [INT_MAX]
    · rw [hinit j hj1 hj2 hjs]; simp [INT_MAX]
  · intro j hj1 hj2 hv
    rw [hunv j hj1 hj2] at hv
    exact absurd hv (by simp)
  · intro j hj1 hj2 hjs hfin
    rw [hinit j hj1 hj2 hjs] at hfin
    exact absurd hfin (lt_irrefl _)
  · intro u w hu1 hu2 _ _ hv
    rw [hunv u hu1 hu2] at hv
    exact absurd hv (by simp)
  · intro u w hu1 hu2 _ _ hv
    rw [hunv u hu1 hu2] at hv
    exact absurd hv (by simp)

/-- Dijkstra's algorithm from one source: after the `size` passes of the
`while` loop, row `s` satisfies the invariant and every vertex with a finite
distance has been visited; nothing outside row `s` has changed. -/
theorem sourceStep_spec (g : GraphM) (s : Nat)
    (hdiag : ∀ i, 1 ≤ i → i ≤ g.size → g.C i i = 0)
    (hpos : ∀ i j, 1 ≤ i → i ≤ g.size → 1 ≤ j → j ≤ g.size → i ≠ j → 0 < g.C i j)
    (hno : NoOverflow g) (hs1 : 1 ≤ s) (hs2 : s ≤ g.size)
    (hsent : (g.T s 0).dist = INT_MAX)
    (hinit : ∀ j, 1 ≤ j → j ≤ g.size → g.T s j = { visited := false, dist := INT_MAX, path := 0 }) :
    (sourceStep s g).C = g.C ∧ (sourceStep s g).size = g.size ∧
    (sourceStep s g).data = g.data ∧ (sourceStep s g).pathed = g.pathed ∧
    (∀ a b, a ≠ s → (sourceStep s g).T a b = g.T a b) ∧
    ((sourceStep s g).T s 0).dist = INT_MAX ∧
    RowInv g.C g.size s ((sourceStep s g).T s) ∧ RowDone g.size ((sourceStep s g).T s) := by
  let g1 : GraphM := { g with T := setCell g.T s s ({ g.T s s with dist := 0 }) }
  have hg1 : sourceStep s g = forLoop (fun _ h => visitStep s h) 0 g.size g1 := rfl
  have hs0 : s ≠ 0 := by omega
  have hInv1 : RowInv g.C g.size s (g1.T s) := by
    refine rowInv_init g.C g.size s _ ?_ ?_ ?_
    · show (setCell g.T s s _ s 0).dist = INT_MAX
      simp only [setCell]
      rw [if_neg (fun h0 => hs0 h0.2.symm)]
      exact hsent
    · show setCell g.T s s _ s s = _
      simp [setCell, hinit s hs1 hs2]
    · intro j hj1 hj2 hjs
      show setCell g.T s s _ s j = _
      simp [setCell, hjs, hinit j hj1 hj2]
  have key := forLoop_inv (fun _ h => visitStep s h)
    (fun k h => h.C = g.C ∧ h.size = g.size ∧ h.data = g.data ∧ h.pathed = g.pathed ∧
      (∀ a b, a ≠ s → h.T a b = g.T a b) ∧ RowInv g.C g.size s (h.T s) ∧
      (RowDone g.size (h.T s) ∨
        ((Finset.Icc 1 g.size).filter (fun j => (h.T s j).visited = false)).card + k ≤ g.size))
    0 g.size g1
    ⟨rfl, rfl, rfl, rfl, fun a b ha => by
        show setCell g.T s s _ a b = _
        simp [setCell, ha], hInv1, Or.inr (by
        have h1 := Finset.card_filter_le (Finset.Icc 1 g.size)
          (fun j => (g1.T s j).visited = false)
        have h2 : (Finset.Icc 1 g.size).card = g.size := by simp
        exact h1.trans (le_of_eq h2))⟩
    (by
      intro k h _ _ ⟨hC, hsz, hdata, hp, hrows, hInv, hcount⟩
      obtain ⟨fC, fsz, fdata, fp, _⟩ := visitStep_spec h s
      have hstep := visitStep_rowInv h s (by rw [hC, hsz]; exact hdiag)
        (by rw [hC, hsz]; exact hpos) (hno.transfer hC hsz) hs1 (by rw [hsz]; exact hs2)
        (by rw [hC, hsz]; exact hInv)
      rw [hC, hsz] at hstep
      refine ⟨fC.trans hC, fsz.trans hsz, fdata.trans hdata, fp.trans hp, ?_, hstep.1, ?_⟩
      · intro a b ha
        rw [visitStep_T_other_row h s a b ha]
        exact hrows a b ha
      · rcases hstep.2 with ⟨hdone, hsame⟩ | ⟨hv1, hv2, hvu, hvf, hiff⟩
        · left
          intro j hj1 hj2
          rw [hsame j hj1 hj2]
          exact hdone j hj1 hj2
        · right
          rcases hcount with hdone | hcard
          · have := hdone _ hv1 hv2 hvf
            rw [hvu] at this
            exact absurd this (by simp)
          · have hset : (Finset.Icc 1 g.size).filter
                (fun j => ((visitStep s h).T s j).visited = false) =
                ((Finset.Icc 1 g.size).filter (fun j => (h.T s j).visited = false)).erase
                  (h.findV s) := by
              ext j
              simp only [Finset.mem_filter, Finset.mem_Icc, Finset.mem_erase]
              constructor
              · rintro ⟨⟨hj1, hj2⟩, hj⟩
                have := (hiff j hj1 hj2).mp hj
                exact ⟨this.2, ⟨hj1, hj2⟩, this.1⟩
              · rintro ⟨hne, ⟨hj1, hj2⟩, hj⟩
                exact ⟨⟨hj1, hj2⟩, (hiff j hj1 hj2).mpr ⟨hj, hne⟩⟩
            have hmem : h.findV s ∈ (Finset.Icc 1 g.size).filter
                (fun j => (h.T s j).visited = false) := by
              simp only [Finset.mem_filter, Finset.mem_Icc]
              exact ⟨⟨hv1, hv2⟩, hvu⟩
            rw [hset, Finset.card_erase_of_mem hmem]
            have := Finset.card_pos.mpr ⟨_, hmem⟩
            omega)
  rw [← hg1] at key
  obtain ⟨hC, hsz, hdata, hp, hrows, hInv, hcount⟩ := key
  refine ⟨hC, hsz, hdata, hp, hrows, hInv.sentinel, hInv, ?_⟩
  rcases hcount with hdone | hcard
  · exact hdone
  · intro j hj1 hj2 _
    have hzero : ((Finset.Icc 1 g.size).filter
        (fun j => ((sourceStep s g).T s j).visited = false)).card = 0 := by omega
    rw [Finset.card_eq_zero] at hzero
    cases hv : ((sourceStep s g).T s j).visited with
    | true => rfl
    | false =>
      have : j ∈ (Finset.Icc 1 g.size).filter
          (fun j => ((sourceStep s g).T s j).visited = false) := by
        simp only [Finset.mem_filter, Finset.mem_Icc]
        exact ⟨⟨hj1, hj2⟩, hv⟩
      rw [hzero] at this
      exact absurd this (Finset.not_mem_empty j)

end GraphM

namespace GraphM

/-- The clearing loops of `findShortestPath`, cell by cell. -/
theorem resetTable_spec (g : GraphM) :
    (resetTable g).C = g.C ∧ (resetTable g).size = g.size ∧
    (resetTable g).data = g.data ∧ (resetTable g).pathed = g.pathed ∧
    ∀ a b, (resetTable g).T a b =
      if 1 ≤ a ∧ a ≤ g.size ∧ 1 ≤ b ∧ b ≤ g.size then
        { visited := false, dist := INT_MAX, path := 0 }
      else g.T a b := by
  have inner : ∀ (i : Nat) (h : GraphM),
      let h2 := forLoop (fun j (k : GraphM) =>
        { k with T := setCell k.T i j { visited := false, dist := INT_MAX, path := 0 } })
        1 h.size h
      h2.C = h.C ∧ h2.size = h.size ∧ h2.data = h.data ∧ h2.pathed = h.pathed ∧
      ∀ a b, h2.T a b =
        if a = i ∧ 1 ≤ b ∧ b ≤ h.size then { visited := false, dist := INT_MAX, path := 0 }
        else h.T a b := by
    intro i h
    have key := forLoop_inv (fun j (k : GraphM) =>
        { k with T := setCell k.T i j { visited := false, dist := INT_MAX, path := 0 } })
      (fun m k => k.C = h.C ∧ k.size = h.size ∧ k.data = h.data ∧ k.pathed = h.pathed ∧
        ∀ a b, k.T a b =
          if a = i ∧ 1 ≤ b ∧ b < m then { visited := false, dist := INT_MAX, path := 0 }
          else h.T a b)
      1 h.size h
      ⟨rfl, rfl, rfl, rfl, fun a b => by
        rw [if_neg]; omega⟩
      (by
        intro m k hm1 _ ⟨hC, hsz, hdata, hp, hT⟩
        refine ⟨hC, hsz, hdata, hp, ?_⟩
        intro a b
        show setCell k.T i m _ a b = _
        simp only [setCell]
        by_cases c : a = i ∧ b = m
        · rw [if_pos c, if_pos ⟨c.1, by omega, by omega⟩]
        · rw [if_neg c, hT]
          by_cases c2 : a = i ∧ 1 ≤ b ∧ b < m
          · rw [if_pos c2, if_pos ⟨c2.1, c2.2.1, by omega⟩]
          · rw [if_neg c2, if_neg]
            intro hc
            rcases Nat.lt_succ_iff_lt_or_eq.mp hc.2.2 with h1 | h1
            · exact c2 ⟨hc.1, hc.2.1, h1⟩
            · exact c ⟨hc.1, h1⟩)
    obtain ⟨hC, hsz, hdata, hp, hT⟩ := key
    refine ⟨hC, hsz, hdata, hp, ?_⟩
    intro a b
    rw [hT]
    by_cases c : a = i ∧ 1 ≤ b ∧ b ≤ h.size
    · rw [if_pos c, if_pos ⟨c.1, c.2.1, by omega⟩]
    · rw [if_neg c, if_neg]
      intro hc
      exact c ⟨hc.1, hc.2.1, by omega⟩
  have key := forLoop_inv (fun i h => forLoop (fun j (k : GraphM) =>
      { k with T := setCell k.T i j { visited := false, dist := INT_MAX, path := 0 } })
      1 h.size h)
    (fun m k => k.C = g.C ∧ k.size = g.size ∧ k.data = g.data ∧ k.pathed = g.pathed ∧
      ∀ a b, k.T a b =
        if 1 ≤ a ∧ a < m ∧ 1 ≤ b ∧ b ≤ g.size then
          { visited := false, dist := INT_MAX, path := 0 }
        else g.T a b)
    1 g.size g
    ⟨rfl, rfl, rfl, rfl, fun a b => by
      rw [if_neg]; omega⟩
    (by
      intro m k hm1 _ ⟨hC, hsz, hdata, hp, hT⟩
      obtain ⟨iC, isz, idata, ip, iT⟩ := inner m k
      refine ⟨iC.trans hC, isz.trans hsz, idata.trans hdata, ip.trans hp, ?_⟩
      intro a b
      rw [iT, hsz]
      by_cases c : a = m ∧ 1 ≤ b ∧ b ≤ g.size
      · rw [if_pos c, if_pos ⟨by omega, by omega, c.2.1, c.2.2⟩]
      · rw [if_neg c, hT]
        by_cases c2 : 1 ≤ a ∧ a < m ∧ 1 ≤ b ∧ b ≤ g.size
        · rw [if_pos c2, if_pos ⟨c2.1, by omega, c2.2.2.1, c2.2.2.2⟩]
        · rw [if_neg c2, if_neg]
          intro hc
          rcases Nat.lt_succ_iff_lt_or_eq.mp hc.2.1 with h1 | h1
          · exact c2 ⟨hc.1, h1, hc.2.2.1, hc.2.2.2⟩
          · exact c ⟨h1, hc.2.2.1, hc.2.2.2⟩)
  obtain ⟨hC, hsz, hdata, hp, hT⟩ := key
  refine ⟨hC, hsz, hdata, hp, ?_⟩
  intro a b
  have := hT a b
  unfold resetTable
  rw [this]
  by_cases c : 1 ≤ a ∧ a ≤ g.size ∧ 1 ≤ b ∧ b ≤ g.size
  · rw [if_pos c, if_pos ⟨c.1, by omega, c.2.2.1, c.2.2.2⟩]
  · rw [if_neg c, if_neg]
    intro hc
    exact c ⟨hc.1, by omega, hc.2.2.1, hc.2.2.2⟩

theorem findShortestPath_of_pathed (g : GraphM) (hp : g.pathed = true) :
    g.findShortestPath = g := by
  unfold findShortestPath
  simp [hp]
  cases g
  simp_all

theorem findShortestPath_of_not_pathed (g : GraphM) (hp : g.pathed = false) :
    g.findShortestPath =
      { forLoop sourceStep 1 g.size (resetTable g) with pathed := true } := by
  unfold findShortestPath
  simp [hp, (resetTable_spec g).2.1]

/-- The table of `findShortestPath` when it recomputes: every row of
`1..size` satisfies the invariant of Dijkstra's loop with nothing finite left
unvisited; cost matrix, size, labels and column 0 distances are untouched. -/
theorem findShortestPath_spec (g : GraphM) (hwf : WellFormed g) (hno : NoOverflow g)
    (hp : g.pathed = false) :
    g.findShortestPath.C = g.C ∧ g.findShortestPath.size = g.size ∧
    g.findShortestPath.data = g.data ∧ g.findShortestPath.pathed = true ∧
    (∀ i, (g.findShortestPath.T i 0).dist = INT_MAX) ∧
    ∀ s, 1 ≤ s → s ≤ g.size →
      RowInv g.C g.size s (g.findShortestPath.T s) ∧ RowDone g.size (g.findShortestPath.T s) := by
  obtain ⟨rC, rsz, rdata, rp, rT⟩ := resetTable_spec g
  have key := forLoop_inv sourceStep
    (fun k h => h.C = g.C ∧ h.size = g.size ∧ h.data = g.data ∧ h.pathed = g.pathed ∧
      (∀ i, (h.T i 0).dist = INT_MAX) ∧
      (∀ a b, k ≤ a → h.T a b = (resetTable g).T a b) ∧
      ∀ s, 1 ≤ s → s < k → RowInv g.C g.size s (h.T s) ∧ RowDone g.size (h.T s))
    1 g.size (resetTable g)
    ⟨rC, rsz, rdata, rp, fun i => by
        rw [rT, if_neg (by omega)]
        exact hwf.col0 i, fun _ _ _ => rfl, fun s h1 h2 => by omega⟩
    (by
      intro k h hk1 hk2 ⟨hC, hsz, hdata, hpp, hcol, hrest, hdone⟩
      have hk3 : k ≤ g.size := by omega
      obtain ⟨sC, ssz, sdata, sp, srows, ssent, sInv, sDone⟩ := sourceStep_spec h k
        (by rw [hC, hsz]; exact hwf.diag) (by rw [hC, hsz]; exact hwf.pos)
        (hno.transfer hC hsz) hk1 (by rw [hsz]; exact hk3) (hcol k)
        (by
          intro j hj1 hj2
          rw [hsz] at hj2
          rw [hrest k j (le_refl _), rT, if_pos ⟨hk1, hk3, hj1, hj2⟩])
      simp only [hC, hsz] at sInv sDone
      refine ⟨sC.trans hC, ssz.trans hsz, sdata.trans hdata, sp.trans hpp, ?_, ?_, ?_⟩
      · intro i
        by_cases hik : i = k
        · rw [hik]; exact ssent
        · rw [srows i 0 hik]; exact hcol i
      · intro a b hab
        rw [srows a b (by omega)]
        exact hrest a b (by omega)
      · intro s hs1 hs2
        rcases Nat.lt_succ_iff_lt_or_eq.mp hs2 with h1 | h1
        · have e : (sourceStep k h).T s = h.T s := by
            funext b
            exact srows s b (by omega)
          rw [e]
          exact hdone s hs1 h1
        · rw [h1]
          exact ⟨sInv, sDone⟩)
  obtain ⟨hC, hsz, hdata, hpp, hcol, _, hdone⟩ := key
  rw [findShortestPath_of_not_pathed g hp]
  exact ⟨hC, hsz, hdata, rfl, hcol, fun s hs1 hs2 => hdone s hs1 (by omega)⟩

end GraphM

/-! ## The table depends only on the cost matrix -/

theorem Sim.dist_eq {g h : GraphM} (hs : Sim g h) {s v : Nat} (hs1 : 1 ≤ s) (hs2 : s ≤ g.size)
    (hv : v ≤ g.size) : (g.T s v).dist = (h.T s v).dist := by
  by_cases h0 : v = 0
  · rw [h0]; exact hs.col0_eq s hs1 hs2
  · rw [hs.cell s v hs1 hs2 (by omega) hv]

theorem Sim.update {g h : GraphM} (hs : Sim g h) (s w : Nat) (x y : TableType)
    (hxy : x.dist = y.dist) (hw : 1 ≤ w → x = y) :
    Sim { g with T := setCell g.T s w x } { h with T := setCell h.T s w y } := by
  refine ⟨hs.C_eq, hs.size_eq, ?_, ?_⟩
  · intro i j hi1 hi2 hj1 hj2
    show setCell g.T s w x i j = setCell h.T s w y i j
    simp only [setCell]
    by_cases c : i = s ∧ j = w
    · rw [if_pos c, if_pos c]
      exact hw (by omega)
    · rw [if_neg c, if_neg c]
      exact hs.cell i j hi1 hi2 hj1 hj2
  · intro i hi1 hi2
    show (setCell g.T s w x i 0).dist = (setCell h.T s w y i 0).dist
    simp only [setCell]
    by_cases c : i = s ∧ 0 = w
    · rw [if_pos c, if_pos c]
      exact hxy
    · rw [if_neg c, if_neg c]
      exact hs.col0_eq i hi1 hi2

namespace GraphM

theorem findV_le (g : GraphM) (s : Nat) : g.findV s ≤ g.size := by
  rcases findV_spec g s with ⟨h, _⟩ | ⟨_, h, _⟩
  · omega
  · exact h

theorem findV_sim {g h : GraphM} (hs : Sim g h) (s : Nat) (hs1 : 1 ≤ s) (hs2 : s ≤ g.size) :
    g.findV s = h.findV s := by
  have key := forLoop_rel
    (fun i v => if !(g.T s i).visited then
      if (g.T s i).dist < (g.T s v).dist then i else v else v)
    (fun i v => if !(h.T s i).visited then
      if (h.T s i).dist < (h.T s v).dist then i else v else v)
    (fun v v2 => v = v2 ∧ v ≤ g.size) 1 g.size 0 0 ⟨rfl, Nat.zero_le _⟩
    (by
      intro k x y hk1 hk2 ⟨hxy, hx⟩
      subst hxy
      have hk3 : k ≤ g.size := by omega
      refine ⟨?_, ?_⟩
      · simp only [hs.cell s k hs1 hs2 hk1 hk3, hs.dist_eq hs1 hs2 hx]
      simp only
      split
      · split
        · exact hk3
        · exact hx
      · exact hx)
  have e1 : g.findV s = forLoop (fun i v => if !(g.T s i).visited then
      if (g.T s i).dist < (g.T s v).dist then i else v else v) 1 g.size 0 := rfl
  have e2 : h.findV s = forLoop (fun i v => if !(h.T s i).visited then
      if (h.T s i).dist < (h.T s v).dist then i else v else v) 1 g.size 0 := by
    rw [hs.size_eq]; rfl
  rw [e1, e2]
  exact key.1

theorem markVisited_sim {g h : GraphM} (hs : Sim g h) (s v : Nat) (hs1 : 1 ≤ s)
    (hs2 : s ≤ g.size) (hv : v ≤ g.size) : Sim (g.markVisited s v) (h.markVisited s v) := by
  refine hs.update s v _ _ (hs.dist_eq hs1 hs2 hv) ?_
  intro hv1
  rw [hs.cell s v hs1 hs2 hv1 hv]

theorem setWStep_sim {g h : GraphM} (hs : Sim g h) (s v w : Nat) (hs1 : 1 ≤ s)
    (hs2 : s ≤ g.size) (hv : v ≤ g.size) (hw1 : 1 ≤ w) (hw2 : w ≤ g.size) :
    Sim (setWStep s v w g) (setWStep s v w h) := by
  have e1 := hs.cell s w hs1 hs2 hw1 hw2
  have e2 := hs.dist_eq hs1 hs2 hv
  have e3 : g.C v w = h.C v w := by rw [hs.C_eq]
  unfold setWStep
  simp only [← e1, ← e2, ← e3]
  split
  · split
    · exact hs.update s w _ _ rfl (fun _ => rfl)
    · exact hs
  · exact hs

theorem setW_sim {g h : GraphM} (hs : Sim g h) (s v : Nat) (hs1 : 1 ≤ s)
    (hs2 : s ≤ g.size) (hv : v ≤ g.size) : Sim (setW g s v) (setW h s v) := by
  show Sim (forLoop (setWStep s v) 1 g.size g) (forLoop (setWStep s v) 1 h.size h)
  rw [← hs.size_eq]
  refine forLoop_rel (setWStep s v) (setWStep s v)
    (fun x y => Sim x y ∧ x.size = g.size) 1 g.size g h ⟨hs, rfl⟩ ?_ |>.1
  intro k x y hk1 hk2 ⟨hxy, hsz⟩
  exact ⟨setWStep_sim hxy s v k hs1 (by omega) (by omega) hk1 (by omega),
    (setWStep_frame s v k x).2.1.trans hsz⟩

theorem visitStep_sim {g h : GraphM} (hs : Sim g h) (s : Nat) (hs1 : 1 ≤ s)
    (hs2 : s ≤ g.size) : Sim (visitStep s g) (visitStep s h) := by
  unfold visitStep
  rw [← findV_sim hs s hs1 hs2]
  exact setW_sim (markVisited_sim hs s _ hs1 hs2 (findV_le g s)) s _ hs1 hs2 (findV_le g s)

theorem sourceStep_sim {g h : GraphM} (hs : Sim g h) (s : Nat) (hs1 : 1 ≤ s)
    (hs2 : s ≤ g.size) : Sim (sourceStep s g) (sourceStep s h) := by
  have h1 : Sim (g.initSource s) (h.initSource s) := by
    refine hs.update s s _ _ rfl ?_
    intro _
    rw [hs.cell s s hs1 hs2 hs1 hs2]
  have e : (h.initSource s).size = g.size := hs.size_eq.symm
  show Sim (forLoop (fun _ x => visitStep s x) 0 g.size (g.initSource s))
    (forLoop (fun _ x => visitStep s x) 0 (h.initSource s).size (h.initSource s))
  rw [e]
  refine forLoop_rel (fun _ x => visitStep s x) (fun _ x => visitStep s x)
    (fun x y => Sim x y ∧ x.size = g.size) 0 g.size _ _ ⟨h1, rfl⟩ ?_ |>.1
  intro k x y _ _ ⟨hxy, hsz⟩
  exact ⟨visitStep_sim hxy s hs1 (by omega), (visitStep_spec x s).2.1.trans hsz⟩

/-- Two states with the same cost matrix, size and column-0 sentinels get the
same table cells in `1..size × 1..size` from a recomputation, whatever their
tables held before. -/
theorem findShortestPath_congr (g h : GraphM) (hpg : g.pathed = false) (hph : h.pathed = false)
    (hC : g.C = h.C) (hsz : g.size = h.size)
    (hcol : ∀ i, 1 ≤ i → i ≤ g.size → (g.T i 0).dist = (h.T i 0).dist) :
    ∀ i j, 1 ≤ i → i ≤ g.size → 1 ≤ j → j ≤ g.size →
      g.findShortestPath.T i j = h.findShortestPath.T i j := by
  obtain ⟨gC, gsz, _, _, gT⟩ := resetTable_spec g
  obtain ⟨hC2, hsz2, _, _, hT⟩ := resetTable_spec h
  have h0 : Sim (resetTable g) (resetTable h) := by
    refine ⟨by rw [gC, hC2, hC], by rw [gsz, hsz2, hsz], ?_, ?_⟩
    · intro i j hi1 hi2 hj1 hj2
      rw [gsz] at hi2 hj2
      rw [gT, hT, if_pos ⟨hi1, hi2, hj1, hj2⟩, if_pos ⟨hi1, hsz ▸ hi2, hj1, hsz ▸ hj2⟩]
    · intro i hi1 hi2
      rw [gsz] at hi2
      rw [gT, hT, if_neg (by omega), if_neg (by omega)]
      exact hcol i hi1 hi2
  have key := forLoop_rel sourceStep sourceStep
    (fun x y => Sim x y ∧ x.size = g.size) 1 g.size _ _ ⟨h0, gsz⟩
    (by
      intro k x y hk1 hk2 ⟨hxy, hxs⟩
      refine ⟨sourceStep_sim hxy k hk1 (by omega), ?_⟩
      have hframe : ∀ (z : GraphM), (sourceStep k z).size = z.size := by
        intro z
        show (forLoop (fun _ x => visitStep k x) 0 z.size (z.initSource k)).size = z.size
        exact (forLoop_inv (fun _ x => visitStep k x) (fun _ x => x.size = z.size) 0 z.size _ rfl
          (fun m t _ _ ht => (visitStep_spec t k).2.1.trans ht))
      exact (hframe x).trans hxs)
  intro i j hi1 hi2 hj1 hj2
  rw [findShortestPath_of_not_pathed g hpg, findShortestPath_of_not_pathed h hph, ← hsz]
  exact key.1.cell i j hi1 (by rw [key.2]; exact hi2) hj1 (by rw [key.2]; exact hj2)

end GraphM

/-! ## What `findShortestPath` leaves alone, with or without overflow -/

namespace GraphM

theorem sourceStep_frame (g : GraphM) (s : Nat) (hs1 : 1 ≤ s) (hs2 : s ≤ g.size) :
    (sourceStep s g).C = g.C ∧ (sourceStep s g).size = g.size ∧
    (sourceStep s g).data = g.data ∧ (sourceStep s g).pathed = g.pathed ∧
    (∀ a b, a ≠ s → (sourceStep s g).T a b = g.T a b) ∧
    ∀ b, ¬ (1 ≤ b ∧ b ≤ g.size) →
      ((sourceStep s g).T s b).dist = (g.T s b).dist ∧
      ((sourceStep s g).T s b).path = (g.T s b).path := by
  have key := forLoop_inv (fun _ h => visitStep s h)
    (fun _ h => h.C = g.C ∧ h.size = g.size ∧ h.data = g.data ∧ h.pathed = g.pathed ∧
      (∀ a b, a ≠ s → h.T a b = g.T a b) ∧
      ∀ b, ¬ (1 ≤ b ∧ b ≤ g.size) →
        (h.T s b).dist = (g.T s b).dist ∧ (h.T s b).path = (g.T s b).path)
    0 g.size (g.initSource s)
    ⟨rfl, rfl, rfl, rfl, fun a b ha => by
        show setCell g.T s s _ a b = _
        simp [setCell, ha], fun b hb => by
        show (setCell g.T s s _ s b).dist = _ ∧ (setCell g.T s s _ s b).path = _
        have : ¬ (s = s ∧ b = s) := fun h => hb ⟨by omega, by omega⟩
        unfold setCell
        rw [if_neg this]
        exact ⟨rfl, rfl⟩⟩
    (by
      intro k h _ _ ⟨hC, hsz, hdata, hp, hrows, hout⟩
      obtain ⟨fC, fsz, fdata, fp, _⟩ := visitStep_spec h s
      refine ⟨fC.trans hC, fsz.trans hsz, fdata.trans hdata, fp.trans hp, ?_, ?_⟩
      · intro a b ha
        rw [visitStep_T_other_row h s a b ha]
        exact hrows a b ha
      · intro b hb
        have := visitStep_T_row_outside h s b (by rw [hsz]; exact hb)
        rw [this.1, this.2]
        exact hout b hb)
  exact key

/-- In a freshly cleared row with `T[s][s].dist = 0`, `findV` selects `s`. -/
theorem findV_init (g : GraphM) (s : Nat) (hs1 : 1 ≤ s) (hs2 : s ≤ g.size)
    (hsent : (g.T s 0).dist = INT_MAX)
    (hsrc : (g.T s s).visited = false ∧ (g.T s s).dist < INT_MAX)
    (hinit : ∀ j, 1 ≤ j → j ≤ g.size → j ≠ s → (g.T s j).dist = INT_MAX) :
    g.findV s = s := by
  rcases findV_spec g s with ⟨_, hall⟩ | ⟨hv1, hv2, _, hvf, _⟩
  · have := hall s hs1 hs2 hsrc.1
    rw [hsent] at this
    exact absurd hsrc.2 this
  · by_contra hne
    rw [hsent, hinit _ hv1 hv2 hne] at hvf
    exact absurd hvf (lt_irrefl _)

/-- The first pass of the `while` loop visits the source itself, and no later
pass touches its cell: this needs no assumption on the edge costs. -/
theorem sourceStep_src (g : GraphM) (s : Nat) (hs1 : 1 ≤ s) (hs2 : s ≤ g.size)
    (hsent : (g.T s 0).dist = INT_MAX)
    (hinit : ∀ j, 1 ≤ j → j ≤ g.size → g.T s j = { visited := false, dist := INT_MAX, path := 0 }) :
    (sourceStep s g).T s s = { visited := true, dist := 0, path := 0 } := by
  have hs0 : s ≠ 0 := by omega
  have hcell : ∀ b, (g.initSource s).T s b =
      if b = s then { g.T s s with dist := 0 } else g.T s b := by
    intro b
    show setCell g.T s s _ s b = _
    simp [setCell]
  have key := forLoop_inv (fun _ h => visitStep s h)
    (fun k h => h.size = g.size ∧
      ((k = 0 ∧ h.T s = (g.initSource s).T s) ∨
       (1 ≤ k ∧ h.T s s = { visited := true, dist := 0, path := 0 })))
    0 g.size (g.initSource s) ⟨rfl, Or.inl ⟨rfl, rfl⟩⟩
    (by
      intro k h _ _ ⟨hsz, hcase⟩
      refine ⟨(visitStep_spec h s).2.1.trans hsz, Or.inr ⟨by omega, ?_⟩⟩
      rcases hcase with ⟨_, hrow⟩ | ⟨_, hsrc⟩
      · have hv : h.findV s = s := by
          refine findV_init h s hs1 (by rw [hsz]; exact hs2) ?_ ?_ ?_
          · rw [hrow, hcell, if_neg (fun e => hs0 e.symm)]
            exact hsent
          · rw [hrow, hcell, if_pos rfl, hinit s hs1 hs2]
            exact ⟨rfl, by simp [INT_MAX]⟩
          · intro j hj1 hj2 hjs
            rw [hsz] at hj2
            rw [hrow, hcell, if_neg hjs, hinit j hj1 hj2]
        have := visitStep_T_self h s
        rw [hv] at this
        rw [this, hrow, hcell, if_pos rfl, hinit s hs1 hs2]
      · rw [visitStep_T_visited h s s hs1 (by rw [hsz]; exact hs2) (by rw [hsrc]), hsrc])
  have hpos : 1 ≤ g.size := by omega
  rcases key.2 with ⟨h0, _⟩ | ⟨_, h⟩
  · omega
  · exact h

/-- The source loop of `findShortestPath`: frame, and the source cells. -/
theorem sourceLoop_frame (g : GraphM)
    (hinit : ∀ i j, 1 ≤ i → i ≤ g.size → 1 ≤ j → j ≤ g.size →
      g.T i j = { visited := false, dist := INT_MAX, path := 0 })
    (hcol : ∀ i, 1 ≤ i → i ≤ g.size → (g.T i 0).dist = INT_MAX) :
    (forLoop sourceStep 1 g.size g).C = g.C ∧ (forLoop sourceStep 1 g.size g).size = g.size ∧
    (forLoop sourceStep 1 g.size g).data = g.data ∧
    (forLoop sourceStep 1 g.size g).pathed = g.pathed ∧
    (∀ a b, ¬ (1 ≤ a ∧ a ≤ g.size ∧ 1 ≤ b ∧ b ≤ g.size) →
      ((forLoop sourceStep 1 g.size g).T a b).dist = (g.T a b).dist ∧
      ((forLoop sourceStep 1 g.size g).T a b).path = (g.T a b).path) ∧
    ∀ s, 1 ≤ s → s ≤ g.size →
      (forLoop sourceStep 1 g.size g).T s s = { visited := true, dist := 0, path := 0 } := by
  have key := forLoop_inv sourceStep
    (fun k h => h.C = g.C ∧ h.size = g.size ∧ h.data = g.data ∧ h.pathed = g.pathed ∧
      (∀ a b, ¬ (1 ≤ a ∧ a ≤ g.size ∧ 1 ≤ b ∧ b ≤ g.size) →
        (h.T a b).dist = (g.T a b).dist ∧ (h.T a b).path = (g.T a b).path) ∧
      (∀ a b, k ≤ a → h.T a b = g.T a b) ∧
      ∀ s, 1 ≤ s → s < k → h.T s s = { visited := true, dist := 0, path := 0 })
    1 g.size g
    ⟨rfl, rfl, rfl, rfl, fun _ _ _ => ⟨rfl, rfl⟩, fun _ _ _ => rfl, fun s h1 h2 => by omega⟩
    (by
      intro k h hk1 hk2 ⟨hC, hsz, hdata, hp, hout, hrest, hsrc⟩
      have hk3 : k ≤ h.size := by omega
      obtain ⟨fC, fsz, fdata, fp, frows, fout⟩ := sourceStep_frame h k hk1 hk3
      refine ⟨fC.trans hC, fsz.trans hsz, fdata.trans hdata, fp.trans hp, ?_, ?_, ?_⟩
      · intro a b hab
        by_cases hak : a = k
        · subst hak
          have hb : ¬ (1 ≤ b ∧ b ≤ h.size) := by
            rw [hsz]; intro hb; exact hab ⟨hk1, by omega, hb.1, hb.2⟩
          rw [(fout b hb).1, (fout b hb).2]
          exact hout a b hab
        · rw [frows a b hak]
          exact hout a b hab
      · intro a b hka
        rw [frows a b (by omega)]
        exact hrest a b (by omega)
      · intro s hs1 hs2
        rcases Nat.lt_succ_iff_lt_or_eq.mp hs2 with h1 | h1
        · rw [frows s s (by omega)]
          exact hsrc s hs1 h1
        · subst h1
          refine sourceStep_src h s hk1 hk3 ?_ ?_
          · rw [hrest s 0 (le_refl _)]
            exact hcol s hk1 (by omega)
          · intro j hj1 hj2
            rw [hrest s j (le_refl _)]
            exact hinit s j hk1 (by omega) hj1 (by omega))
  obtain ⟨hC, hsz, hdata, hp, hout, _, hsrc⟩ := key
  exact ⟨hC, hsz, hdata, hp, hout, fun s hs1 hs2 => hsrc s hs1 (by omega)⟩

/-- Frame of `findShortestPath`: cost matrix, size and labels are kept, the
flag is raised, and no cell outside `1..size × 1..size` changes its distance
or predecessor. -/
theorem findShortestPath_frame (g : GraphM) (hcol : ∀ i, (g.T i 0).dist = INT_MAX) :
    g.findShortestPath.C = g.C ∧ g.findShortestPath.size = g.size ∧
    g.findShortestPath.data = g.data ∧ g.findShortestPath.pathed = true ∧
    (∀ a b, ¬ (1 ≤ a ∧ a ≤ g.size ∧ 1 ≤ b ∧ b ≤ g.size) →
      (g.findShortestPath.T a b).dist = (g.T a b).dist ∧
      (g.findShortestPath.T a b).path = (g.T a b).path) ∧
    (g.pathed = false → ∀ s, 1 ≤ s → s ≤ g.size →
      g.findShortestPath.T s s = { visited := true, dist := 0, path := 0 }) := by
  cases hp : g.pathed with
  | true =>
    rw [findShortestPath_of_pathed g hp]
    exact ⟨rfl, rfl, rfl, hp, fun _ _ _ => ⟨rfl, rfl⟩, fun h => absurd h (by simp)⟩
  | false =>
    obtain ⟨rC, rsz, rdata, rp, rT⟩ := resetTable_spec g
    obtain ⟨hC, hsz, hdata, _, hout, hsrc⟩ := sourceLoop_frame (resetTable g)
      (by
        intro i j hi1 hi2 hj1 hj2
        rw [rsz] at hi2 hj2
        rw [rT, if_pos ⟨hi1, hi2, hj1, hj2⟩])
      (by
        intro i _ _
        rw [rT, if_neg (by omega)]
        exact hcol i)
    rw [findShortestPath_of_not_pathed g hp]
    rw [rsz] at hC hsz hdata hout hsrc
    refine ⟨hC.trans rC, hsz, hdata.trans rdata, rfl, ?_, fun _ => hsrc⟩
    intro a b hab
    have := hout a b hab
    rw [rT, if_neg hab] at this
    exact this

end GraphM

/-! ## Invariants of every state of a built graph -/

namespace GraphM

theorem wellFormed_setCell (g : GraphM) (hwf : WellFormed g) (s d : Nat) (c : Int) (p : Bool)
    (hs1 : 1 ≤ s) (hsd : s ≠ d) (hc : 0 < c) :
    WellFormed { g with C := setCell g.C s d c, pathed := p } := by
  refine ⟨hwf.size_lt, ?_, ?_, ?_, hwf.col0⟩
  · intro i hi1 hi2
    show setCell g.C s d c i i = 0
    unfold setCell
    rw [if_neg (fun h => hsd (h.1.symm.trans h.2))]
    exact hwf.diag i hi1 hi2
  · intro i j hi1 hi2 hj1 hj2 hij
    show 0 < setCell g.C s d c i j
    unfold setCell
    split
    · exact hc
    · exact hwf.pos i j hi1 hi2 hj1 hj2 hij
  · intro j
    show setCell g.C s d c 0 j = INT_MAX
    unfold setCell
    rw [if_neg (fun h => by omega)]
    exact hwf.row0 j

theorem insertEdge_wf (g : GraphM) (hwf : WellFormed g) (source dest cost : Int) :
    WellFormed (g.insertEdge source dest cost).2 := by
  cases h : (g.insertEdge source dest cost).1 with
  | false => rw [insertEdge_snd_of_false g source dest cost h]; exact hwf
  | true =>
    rw [insertEdge_snd_of_true g source dest cost h]
    rw [insertEdge_fst, decide_eq_true_eq] at h
    exact wellFormed_setCell g hwf _ _ cost false (by omega) (by omega) (by omega)

theorem removeEdge_wf (g : GraphM) (hwf : WellFormed g) (source dest : Int) :
    WellFormed (g.removeEdge source dest).2 := by
  cases h : (g.removeEdge source dest).1 with
  | false => rw [removeEdge_snd_of_false g source dest h]; exact hwf
  | true =>
    rw [removeEdge_snd_of_true g source dest h]
    rw [removeEdge_fst, decide_eq_true_eq] at h
    exact wellFormed_setCell g hwf _ _ INT_MAX false (by omega) (by omega) (by simp [INT_MAX])

theorem insertEdge_pathed (g : GraphM) (source dest cost : Int) (hp : g.pathed = false) :
    (g.insertEdge source dest cost).2.pathed = false := by
  cases h : (g.insertEdge source dest cost).1 with
  | false => rw [insertEdge_snd_of_false g source dest cost h]; exact hp
  | true => rw [insertEdge_snd_of_true g source dest cost h]

theorem buildLoop_inv (P : GraphM → Prop)
    (hstep : ∀ g source dest cost, P g → P (g.insertEdge source dest cost).2)
    (edges : List (Int × Int × Int)) :
    ∀ g g2, P g → buildLoop g edges = some g2 → P g2 := by
  induction edges with
  | nil => intro g g2 _ h; simp [buildLoop] at h
  | cons e rest ih =>
    intro g g2 hg h
    obtain ⟨source, dest, cost⟩ := e
    unfold buildLoop at h
    split at h
    · exact ih _ g2 (hstep g source dest cost hg) h
    · rw [Option.some.injEq] at h
      rw [← h]
      exact hg

theorem wellFormed_empty : WellFormed empty :=
  ⟨by simp [empty, NODELIMIT], fun i h1 h2 => by simp [empty] at h2; omega,
    fun i j h1 h2 => by simp [empty] at h2; omega, fun _ => rfl, fun _ => rfl⟩

theorem readNodes_spec (g : GraphM) (descriptions : Nat → String) :
    (readNodes g descriptions).size = g.size ∧ (readNodes g descriptions).T = g.T ∧
    (readNodes g descriptions).pathed = g.pathed ∧
    (∀ a b, (readNodes g descriptions).C a b =
      if a = b ∧ 1 ≤ a ∧ a ≤ g.size then 0 else g.C a b) ∧
    ∀ a, (readNodes g descriptions).data a =
      if 1 ≤ a ∧ a ≤ g.size then descriptions a else g.data a := by
  have key := forLoop_inv (fun i (h : GraphM) =>
      { h with data := setAt h.data i (descriptions i), C := setCell h.C i i 0 })
    (fun k h => h.size = g.size ∧ h.T = g.T ∧ h.pathed = g.pathed ∧
      (∀ a b, h.C a b = if a = b ∧ 1 ≤ a ∧ a < k then 0 else g.C a b) ∧
      ∀ a, h.data a = if 1 ≤ a ∧ a < k then descriptions a else g.data a)
    1 g.size g
    ⟨rfl, rfl, rfl, fun a b => by rw [if_neg (by omega)], fun a => by rw [if_neg (by omega)]⟩
    (by
      intro k h hk1 _ ⟨hsz, hT, hp, hC, hD⟩
      refine ⟨hsz, hT, hp, ?_, ?_⟩
      · intro a b
        show setCell h.C k k 0 a b = _
        unfold setCell
        by_cases c : a = k ∧ b = k
        · rw [if_pos c, if_pos ⟨by omega, by omega, by omega⟩]
        · rw [if_neg c, hC]
          by_cases c2 : a = b ∧ 1 ≤ a ∧ a < k
          · rw [if_pos c2, if_pos ⟨c2.1, c2.2.1, by omega⟩]
          · rw [if_neg c2, if_neg]
            intro hc
            rcases Nat.lt_succ_iff_lt_or_eq.mp hc.2.2 with h1 | h1
            · exact c2 ⟨hc.1, hc.2.1, h1⟩
            · exact c ⟨h1, by omega⟩
      · intro a
        show setAt h.data k (descriptions k) a = _
        unfold setAt
        by_cases c : a = k
        · rw [if_pos c, if_pos ⟨by omega, by omega⟩, c]
        · rw [if_neg c, hD]
          by_cases c2 : 1 ≤ a ∧ a < k
          · rw [if_pos c2, if_pos ⟨c2.1, by omega⟩]
          · rw [if_neg c2, if_neg]
            intro hc
            rcases Nat.lt_succ_iff_lt_or_eq.mp hc.2 with h1 | h1
            · exact c2 ⟨hc.1, h1⟩
            · exact c h1)
  obtain ⟨hsz, hT, hp, hC, hD⟩ := key
  refine ⟨hsz, hT, hp, ?_, ?_⟩
  · intro a b
    have := hC a b
    unfold readNodes
    rw [this]
    by_cases c : a = b ∧ 1 ≤ a ∧ a ≤ g.size
    · rw [if_pos c, if_pos ⟨c.1, c.2.1, by omega⟩]
    · rw [if_neg c, if_neg]
      intro hc
      exact c ⟨hc.1, hc.2.1, by omega⟩
  · intro a
    have := hD a
    unfold readNodes
    rw [this]
    by_cases c : 1 ≤ a ∧ a ≤ g.size
    · rw [if_pos c, if_pos ⟨c.1, by omega⟩]
    · rw [if_neg c, if_neg]
      intro hc
      exact c ⟨hc.1, by omega⟩

theorem buildGraph_inv (nodeCount : Int) (descriptions : Nat → String)
    (edges : List (Int × Int × Int)) (g2 : GraphM)
    (hb : buildGraph empty nodeCount descriptions edges = some g2) :
    WellFormed g2 ∧ g2.pathed = false := by
  unfold buildGraph at hb
  split at hb
  · rename_i hn
    obtain ⟨hsz, hT, hp, hC, _⟩ :=
      readNodes_spec { empty with size := nodeCount.toNat } descriptions
    refine buildLoop_inv (fun g => WellFormed g ∧ g.pathed = false)
      (fun g s d c hg => ⟨insertEdge_wf g hg.1 s d c, insertEdge_pathed g s d c hg.2⟩)
      edges _ g2 ⟨⟨?_, ?_, ?_, ?_, ?_⟩, hp⟩ hb
    · rw [hsz]
      show nodeCount.toNat < NODELIMIT
      simp only [NODELIMIT] at hn ⊢
      omega
    · intro i hi1 hi2
      rw [hsz] at hi2
      rw [hC, if_pos ⟨rfl, hi1, hi2⟩]
    · intro i j _ _ _ _ hij
      rw [hC, if_neg (fun h => hij h.1)]
      simp [INT_MAX, empty]
    · intro j
      rw [hC, if_neg (by omega)]
      rfl
    · intro i
      rw [hT]
      rfl
  · rw [Option.some.injEq] at hb
    rw [← hb]
    exact ⟨wellFormed_empty, rfl⟩

theorem findShortestPath_wf (g : GraphM) (hwf : WellFormed g) :
    WellFormed g.findShortestPath := by
  obtain ⟨hC, hsz, _, _, hout, _⟩ := findShortestPath_frame g hwf.col0
  refine ⟨by rw [hsz]; exact hwf.size_lt, by rw [hC, hsz]; exact hwf.diag,
    by rw [hC, hsz]; exact hwf.pos, by rw [hC]; exact hwf.row0, ?_⟩
  intro i
  rw [(hout i 0 (by omega)).1]
  exact hwf.col0 i

end GraphM

theorem Built.wellFormed {g : GraphM} (h : Built g) : WellFormed g := by
  induction h with
  | build n d e hb => exact (GraphM.buildGraph_inv n d e _ hb).1
  | insert s d c _ ih => exact GraphM.insertEdge_wf _ ih s d c
  | remove s d _ ih => exact GraphM.removeEdge_wf _ ih s d
  | find _ ih => exact GraphM.findShortestPath_wf _ ih

/-- Cache validity: while the flag `pathed` is up, the table cells of
`1..size × 1..size` are those a recomputation from the current cost matrix
would produce. -/
theorem Built.cache {g : GraphM} (h : Built g) (hp : g.pathed = true) :
    ∀ i j, 1 ≤ i → i ≤ g.size → 1 ≤ j → j ≤ g.size → g.T i j = (fromScratch g).T i j := by
  induction h with
  | build n d e hb =>
    rw [(GraphM.buildGraph_inv n d e _ hb).2] at hp
    exact absurd hp (by simp)
  | @insert g s d c _ ih =>
    cases h : (g.insertEdge s d c).1 with
    | false =>
      rw [GraphM.insertEdge_snd_of_false g s d c h] at hp ⊢
      exact ih hp
    | true =>
      rw [GraphM.insertEdge_snd_of_true g s d c h] at hp
      exact absurd hp (by simp)
  | @remove g s d _ ih =>
    cases h : (g.removeEdge s d).1 with
    | false =>
      rw [GraphM.removeEdge_snd_of_false g s d h] at hp ⊢
      exact ih hp
    | true =>
      rw [GraphM.removeEdge_snd_of_true g s d h] at hp
      exact absurd hp (by simp)
  | @find g hb ih =>
    cases hpg : g.pathed with
    | true =>
      rw [GraphM.findShortestPath_of_pathed g hpg]
      exact ih hpg
    | false =>
      obtain ⟨hC, hsz, _, _, hout, _⟩ := GraphM.findShortestPath_frame g hb.wellFormed.col0
      intro i j hi1 hi2 hj1 hj2
      rw [hsz] at hi2 hj2
      exact GraphM.findShortestPath_congr g { g.findShortestPath with pathed := false } hpg rfl
        hC.symm hsz.symm (fun a _ _ => ((hout a 0 (by omega)).1).symm) i j hi1 hi2 hj1 hj2

/-! ## The table after `findShortestPath` -/

theorem WellFormed.lower {g : GraphM} (h : WellFormed g) :
    WellFormed { g with pathed := false } :=
  ⟨h.size_lt, h.diag, h.pos, h.row0, h.col0⟩

/-- In every state of a built graph whose path costs do not overflow, each
row `s` of the table left by `findShortestPath` satisfies the invariant of
Dijkstra's loop with nothing finite left unvisited. -/
theorem Built.table {g : GraphM} (hb : Built g) (hno : NoOverflow g) (s : Nat)
    (hs1 : 1 ≤ s) (hs2 : s ≤ g.size) :
    RowInv g.C g.size s (g.findShortestPath.T s) ∧ RowDone g.size (g.findShortestPath.T s) := by
  cases hp : g.pathed with
  | false => exact (GraphM.findShortestPath_spec g hb.wellFormed hno hp).2.2.2.2.2 s hs1 hs2
  | true =>
    rw [GraphM.findShortestPath_of_pathed g hp]
    have hspec := GraphM.findShortestPath_spec { g with pathed := false } hb.wellFormed.lower
      (hno.transfer rfl rfl) rfl
    have hrow := hspec.2.2.2.2.2 s hs1 hs2
    have hcell : ∀ j, 1 ≤ j → j ≤ g.size → g.T s j = (fromScratch g).T s j :=
      fun j hj1 hj2 => hb.cache hp s j hs1 hs2 hj1 hj2
    refine ⟨hrow.1.congr hs1 hs2 hcell ?_, ?_⟩
    · rw [hb.wellFormed.col0 s]
      exact (hspec.2.2.2.2.1 s).symm
    · intro j hj1 hj2
      rw [hcell j hj1 hj2]
      exact hrow.2 j hj1 hj2

/-- With the invariant and nothing finite left unvisited, the distance of the
end of any path that starts at a visited vertex is finite and at most the
distance of the start plus the cost of the path. -/
theorem RowInv.le_walk {g : GraphM} {s : Nat} {r : Nat → TableType}
    (h : RowInv g.C g.size s r) (hd : RowDone g.size r) :
    ∀ (p : List Nat) (a j : Nat), IsWalk g p → p.head? = some a → p.getLast? = some j →
      (r a).visited = true →
      (r j).dist ≤ (r a).dist + pathCost g.C p ∧ (r j).dist < INT_MAX := by
  intro p
  induction p with
  | nil => intro a j _ hh; simp at hh
  | cons x rest ih =>
    intro a j hw hh hl hva
    simp only [List.head?_cons, Option.some.injEq] at hh
    subst hh
    have hx := hw.1 x (List.mem_cons_self _ _)
    cases rest with
    | nil =>
      simp only [List.getLast?_singleton, Option.some.injEq] at hl
      subst hl
      exact ⟨by simp [pathCost], h.visFin x hx.1 hx.2 hva⟩
    | cons y rest2 =>
      have hy := hw.1 y (List.mem_cons_of_mem _ (List.mem_cons_self _ _))
      have hedge : g.C x y < INT_MAX := (List.chain'_cons.mp hw.2).1
      obtain ⟨h1, h2⟩ := h.relaxed x y hx.1 hx.2 hy.1 hy.2 hva hedge
      have hvy := hd y hy.1 hy.2 h2
      rw [List.getLast?_cons_cons] at hl
      obtain ⟨h3, h4⟩ := ih y j hw.tail rfl hl hvy
      refine ⟨?_, h4⟩
      have e : pathCost g.C (x :: y :: rest2) = g.C x y + pathCost g.C (y :: rest2) := rfl
      rw [e]
      omega

theorem intTokens_pathTokens (q : List Nat) :
    intTokens (pathTokens q) = q.map Int.ofNat := by
  induction q with
  | nil => rfl
  | cons a q ih => simp [pathTokens, intTokens, ih]

theorem length_le_of_nodup_range (p : List Nat) (n : Nat) (hnd : p.Nodup)
    (hmem : ∀ x ∈ p, 1 ≤ x ∧ x ≤ n) : p.length ≤ n := by
  have hsub : p.toFinset ⊆ Finset.Icc 1 n := by
    intro x hx
    rw [List.mem_toFinset] at hx
    exact Finset.mem_Icc.mpr (hmem x hx)
  have := Finset.card_le_card hsub
  rw [List.toFinset_card_of_nodup hnd, Nat.card_Icc] at this
  omega

theorem pathCost_le_of_bound (g : GraphM) (M : Int)
    (hM : ∀ u w, 1 ≤ u → u ≤ g.size → 1 ≤ w → w ≤ g.size → g.C u w < INT_MAX → g.C u w ≤ M) :
    ∀ p, IsWalk g p → pathCost g.C p ≤ (p.length - 1 : Nat) * M := by
  intro p
  induction p with
  | nil => intro _; simp [pathCost]
  | cons x rest ih =>
    intro hw
    cases rest with
    | nil => simp [pathCost]
    | cons y rest2 =>
      have hx := hw.1 x (List.mem_cons_self _ _)
      have hy := hw.1 y (List.mem_cons_of_mem _ (List.mem_cons_self _ _))
      have hedge : g.C x y < INT_MAX := (List.chain'_cons.mp hw.2).1
      have h1 := hM x y hx.1 hx.2 hy.1 hy.2 hedge
      have h2 := ih hw.tail
      have e : pathCost g.C (x :: y :: rest2) = g.C x y + pathCost g.C (y :: rest2) := rfl
      rw [e]
      simp only [List.length_cons, Nat.add_sub_cancel] at h2 ⊢
      push_cast
      linarith

/-- A sufficient condition for the no-overflow precondition: `size - 1` edges
of the largest finite cost stay below `INT_MAX`. -/
theorem noOverflow_of_bound (g : GraphM) (M : Int) (hM0 : 0 ≤ M)
    (hM : ∀ u w, 1 ≤ u → u ≤ g.size → 1 ≤ w → w ≤ g.size → g.C u w < INT_MAX → g.C u w ≤ M)
    (hbound : (g.size - 1 : Nat) * M < INT_MAX) : NoOverflow g := by
  intro p hw hnd
  have h1 := pathCost_le_of_bound g M hM p hw
  have h2 := length_le_of_nodup_range p g.size hnd hw.1
  have h3 : ((p.length - 1 : Nat) : Int) ≤ ((g.size - 1 : Nat) : Int) := by
    exact_mod_cast Nat.sub_le_sub_right h2 1
  have h4 : ((p.length - 1 : Nat) : Int) * M ≤ ((g.size - 1 : Nat) : Int) * M :=
    mul_le_mul_of_nonneg_right h3 hM0
  linarith

theorem scenarioGraph_size : scenarioGraph.size = 3 := by decide

theorem pairGraph_size : pairGraph.size = 2 := by decide

theorem scenarioGraph_built : Built scenarioGraph :=
  Built.build 3 (fun i => if i = 1 then "A" else if i = 2 then "B" else "C")
    [(1, 2, 5), (2, 3, 3), (1, 3, 20), (0, 0, 0)] rfl

set_option maxRecDepth 100000 in
theorem scenarioGraph_noOverflow : NoOverflow scenarioGraph := by
  refine noOverflow_of_bound scenarioGraph 20 (by decide) ?_ (by rw [scenarioGraph_size]; decide)
  intro u w hu1 hu2 hw1 hw2
  rw [scenarioGraph_size] at hu2 hw2
  interval_cases u <;> interval_cases w <;> decide

set_option maxRecDepth 100000 in
theorem scenarioGraph_walk : IsWalkFromTo scenarioGraph 1 3 [1, 2, 3] := by
  refine ⟨⟨?_, ?_⟩, rfl, rfl⟩
  · intro x hx
    rw [scenarioGraph_size]
    simp only [List.mem_cons, List.mem_singleton, List.not_mem_nil, or_false] at hx
    omega
  · exact List.chain'_cons.mpr ⟨by decide,
      List.chain'_cons.mpr ⟨by decide, List.chain'_singleton _⟩⟩

/-! ## Shortest paths: optimality, reconstruction, unreachability -/

theorem Built.source_visited {g : GraphM} (hb : Built g) (hno : NoOverflow g) (s : Nat)
    (hs1 : 1 ≤ s) (hs2 : s ≤ g.size) : (g.findShortestPath.T s s).visited = true := by
  obtain ⟨hinv, hdone⟩ := hb.table hno s hs1 hs2
  exact hdone s hs1 hs2 (by rw [hinv.src.1]; simp [INT_MAX])

/-- C1. In every state of a built graph in which the total cost of every
directed path without repeated vertex is below `INT_MAX`, after
`findShortestPath()` the distance `T[s][d].dist` is at most the summed edge
cost of every directed path from `s` to `d`: no strictly shorter path exists.
(A path to `d` keeps `d` within `1..size`, and may repeat vertices.) -/
theorem findShortestPath_optimal (g : GraphM) (hb : Built g) (hno : NoOverflow g)
    (s d : Nat) (hs1 : 1 ≤ s) (hs2 : s ≤ g.size)
    (p : List Nat) (hp : IsWalkFromTo g s d p) :
    (g.findShortestPath.T s d).dist ≤ pathCost g.C p := by
  obtain ⟨hinv, hdone⟩ := hb.table hno s hs1 hs2
  have h := (hinv.le_walk hdone p s d hp.1 hp.2.1 hp.2.2
    (hb.source_visited hno s hs1 hs2)).1
  rw [hinv.src.1] at h
  omega

set_option maxRecDepth 100000 in
theorem findShortestPath_optimal_witness :
    IsWalkFromTo scenarioGraph 1 3 [1, 2, 3] ∧
    (scenarioGraph.findShortestPath.T 1 3).dist ≤ pathCost scenarioGraph.C [1, 2, 3] :=
  ⟨scenarioGraph_walk,
    findShortestPath_optimal scenarioGraph scenarioGraph_built scenarioGraph_noOverflow 1 3
      (by decide) (by decide) [1, 2, 3] scenarioGraph_walk⟩

/-- C3. Under the no-overflow precondition, after `findShortestPath()`, for
`1 <= s,d <= size` the distance `T[s][d].dist` equals `INT_MAX` if and only
if no directed path of finite-cost cells leads from `s` to `d`; and for
`s != d` the line `displayFrom` writes for `d` is the "no path" line `----`
exactly when `d` is unreachable from `s`. -/
theorem unreachable_iff_infinite (g : GraphM) (hb : Built g) (hno : NoOverflow g)
    (s d : Nat) (hs1 : 1 ≤ s) (hs2 : s ≤ g.size) (hd1 : 1 ≤ d) (hd2 : d ≤ g.size) :
    ((g.findShortestPath.T s d).dist = INT_MAX ↔ ¬ Reachable g s d) ∧
    (s ≠ d → ∀ fuel out,
      (GraphM.displayFromStep fuel s d (some (g.findShortestPath, out)) =
        some (g.findShortestPath,
          out ++ [Token.int s, Token.int d] ++ [Token.str "----", Token.endl]) ↔
        ¬ Reachable g s d)) := by
  obtain ⟨hinv, hdone⟩ := hb.table hno s hs1 hs2
  have hiff : (g.findShortestPath.T s d).dist = INT_MAX ↔ ¬ Reachable g s d := by
    constructor
    · rintro heq ⟨p, hp⟩
      have := (hinv.le_walk hdone p s d hp.1 hp.2.1 hp.2.2
        (hb.source_visited hno s hs1 hs2)).2
      rw [heq] at this
      exact absurd this (lt_irrefl _)
    · intro hnr
      by_contra hne
      have hlt : (g.findShortestPath.T s d).dist < INT_MAX :=
        lt_of_le_of_ne (hinv.range d hd1 hd2).2 hne
      obtain ⟨p, hp, _⟩ := hinv.walk hb.wellFormed.pos hs1 hs2 _ d hd1 hd2 hlt (le_refl _)
      exact hnr ⟨p, hp⟩
  refine ⟨hiff, ?_⟩
  intro hsd fuel out
  rw [← hiff]
  have hds : d ≠ s := fun e => hsd e.symm
  unfold GraphM.displayFromStep
  simp only [ne_eq, hds, not_false_eq_true, if_true]
  constructor
  · intro h
    by_contra hne
    rw [if_neg hne] at h
    cases hdp : GraphM.displayPath fuel g.findShortestPath s d with
    | none => rw [hdp] at h; simp at h
    | some r =>
      obtain ⟨g2, o⟩ := r
      rw [hdp] at h
      simp only [Option.some.injEq, Prod.mk.injEq] at h
      have h2 := h.2
      simp only [List.append_assoc, List.append_cancel_left_eq, List.cons_append,
        List.nil_append, List.cons.injEq] at h2
      simp at h2
  · intro h
    rw [if_pos h]

set_option maxRecDepth 100000 in
theorem unreachable_iff_infinite_witness :
    ((scenarioGraph.findShortestPath.T 3 1).dist = INT_MAX ↔ ¬ Reachable scenarioGraph 3 1) ∧
    ((3 : Nat) ≠ 1 → ∀ fuel out,
      (GraphM.displayFromStep fuel 3 1 (some (scenarioGraph.findShortestPath, out)) =
        some (scenarioGraph.findShortestPath,
          out ++ [Token.int (3 : Nat), Token.int (1 : Nat)] ++ [Token.str "----", Token.endl]) ↔
        ¬ Reachable scenarioGraph 3 1)) :=
  unreachable_iff_infinite scenarioGraph scenarioGraph_built scenarioGraph_noOverflow 3 1
    (by decide) (by decide) (by decide) (by decide)

/-- C4. In every state of a built graph, after `findShortestPath()` every
vertex `v` of `1..size` has `T[v][v].dist = 0` and `T[v][v].path = 0`, and
`displayPath(v,v)` writes nothing, so the path from `v` to `v` is `[v]`. -/
theorem self_distance_zero (g : GraphM) (hb : Built g) (v : Nat) (hv1 : 1 ≤ v)
    (hv2 : v ≤ g.size) :
    (g.findShortestPath.T v v).dist = 0 ∧ (g.findShortestPath.T v v).path = 0 ∧
    ∀ fuel, 1 ≤ fuel →
      GraphM.displayPath fuel g.findShortestPath v v = some (g.findShortestPath, []) := by
  have hcell : g.findShortestPath.T v v = { visited := true, dist := 0, path := 0 } := by
    cases hp : g.pathed with
    | false =>
      exact (GraphM.findShortestPath_frame g hb.wellFormed.col0).2.2.2.2.2 hp v hv1 hv2
    | true =>
      rw [GraphM.findShortestPath_of_pathed g hp, hb.cache hp v v hv1 hv2 hv1 hv2]
      exact (GraphM.findShortestPath_frame { g with pathed := false }
        hb.wellFormed.col0).2.2.2.2.2 rfl v hv1 hv2
  have hpathed : g.findShortestPath.pathed = true :=
    (GraphM.findShortestPath_frame g hb.wellFormed.col0).2.2.2.1
  refine ⟨by rw [hcell], by rw [hcell], ?_⟩
  intro fuel hf
  cases fuel with
  | zero => omega
  | succ fuel =>
    unfold GraphM.displayPath
    simp [hpathed, hcell]

set_option maxRecDepth 100000 in
theorem self_distance_zero_witness :
    (scenarioGraph.findShortestPath.T 2 2).dist = 0 ∧
    (scenarioGraph.findShortestPath.T 2 2).path = 0 ∧
    ∀ fuel, 1 ≤ fuel →
      GraphM.displayPath fuel scenarioGraph.findShortestPath 2 2 =
        some (scenarioGraph.findShortestPath, []) :=
  self_distance_zero scenarioGraph scenarioGraph_built 2 (by decide) (by decide)

/-! ## The scenario of the specification -/

set_option maxRecDepth 100000 in
/-- C5. For the graph built with three vertices A, B, C and the edges
(1,2,5), (2,3,3), (1,3,20), `findShortestPath()` yields `T[1][3].dist = 8`
with predecessor 2 for vertex 3 and predecessor 1 for vertex 2, and the path
written for the pair (1,3) is 1, 2 followed by 3, not the direct edge of
cost 20. -/
theorem scenario_shortest_path :
    (scenarioGraph.findShortestPath.T 1 3).dist = 8 ∧
    (scenarioGraph.findShortestPath.T 1 3).path = 2 ∧
    (scenarioGraph.findShortestPath.T 1 2).path = 1 ∧
    (scenarioGraph.findShortestPath.T 1 1).path = 0 ∧
    scenarioGraph.C 1 3 = 20 ∧
    (GraphM.displayPath 3 scenarioGraph.findShortestPath 1 3).map
      (fun r => intTokens r.2 ++ [3]) = some [1, 2, 3] := by
  decide

/-! ## Cache validity -/

/-- C6. In every state reached from a built graph by `insertEdge`,
`removeEdge` and `findShortestPath`: while `pathed` is true the cells of `T`
in `1..size × 1..size` are those `findShortestPath` computes from scratch
from the current cost matrix; a successful `insertEdge` or `removeEdge` puts
`pathed` to false; and with `pathed` false the recomputed cells depend only
on the cost matrix and size, not on what the table held before. -/
theorem cache_validity (g : GraphM) (hb : Built g) :
    (g.pathed = true → ∀ i j, 1 ≤ i → i ≤ g.size → 1 ≤ j → j ≤ g.size →
      g.T i j = (fromScratch g).T i j) ∧
    (∀ source dest cost, (g.insertEdge source dest cost).1 = true →
      (g.insertEdge source dest cost).2.pathed = false) ∧
    (∀ source dest, (g.removeEdge source dest).1 = true →
      (g.removeEdge source dest).2.pathed = false) ∧
    (∀ h, Built h → h.C = g.C → h.size = g.size → g.pathed = false → h.pathed = false →
      ∀ i j, 1 ≤ i → i ≤ g.size → 1 ≤ j → j ≤ g.size →
        g.findShortestPath.T i j = h.findShortestPath.T i j) := by
  refine ⟨fun hp => hb.cache hp, ?_, ?_, ?_⟩
  · intro s d c h
    rw [GraphM.insertEdge_snd_of_true g s d c h]
  · intro s d h
    rw [GraphM.removeEdge_snd_of_true g s d h]
  · intro h hbh hC hsz hpg hph
    exact GraphM.findShortestPath_congr g h hpg hph hC.symm hsz.symm
      (fun i _ _ => by rw [hb.wellFormed.col0 i, hbh.wellFormed.col0 i])

theorem cache_validity_witness :
    (scenarioGraph.findShortestPath.pathed = true →
      ∀ i j, 1 ≤ i → i ≤ scenarioGraph.findShortestPath.size →
        1 ≤ j → j ≤ scenarioGraph.findShortestPath.size →
        scenarioGraph.findShortestPath.T i j =
          (fromScratch scenarioGraph.findShortestPath).T i j) ∧
    (∀ source dest cost,
      (scenarioGraph.findShortestPath.insertEdge source dest cost).1 = true →
      (scenarioGraph.findShortestPath.insertEdge source dest cost).2.pathed = false) ∧
    (∀ source dest, (scenarioGraph.findShortestPath.removeEdge source dest).1 = true →
      (scenarioGraph.findShortestPath.removeEdge source dest).2.pathed = false) ∧
    (∀ h, Built h → h.C = scenarioGraph.findShortestPath.C →
      h.size = scenarioGraph.findShortestPath.size →
      scenarioGraph.findShortestPath.pathed = false → h.pathed = false →
      ∀ i j, 1 ≤ i → i ≤ scenarioGraph.findShortestPath.size →
        1 ≤ j → j ≤ scenarioGraph.findShortestPath.size →
        scenarioGraph.findShortestPath.findShortestPath.T i j = h.findShortestPath.T i j) :=
  cache_validity scenarioGraph.findShortestPath (Built.find scenarioGraph_built)

/-! ## `display` -/

set_option maxRecDepth 100000 in
/-- C7 (the code departs from the claim). On the freshly built two-vertex
graph with the edge (1,2,5), vertex 2 is reachable from vertex 1, yet
`display(1,2)` consults the table before any computation, writes "No path
from 1 to 2." and leaves the cache flag down; once the table is current,
`display(1,2)` writes nothing but the final line break. -/
theorem display_ignores_stale_cache :
    Reachable pairGraph 1 2 ∧
    pairGraph.pathed = false ∧
    (GraphM.display 2 pairGraph 1 2).map (fun r => r.2) =
      some [Token.str "No path from ", Token.int 1, Token.str " to ", Token.int 2,
        Token.chr '.', Token.endl, Token.endl] ∧
    (GraphM.display 2 pairGraph 1 2).map (fun r => r.1.pathed) = some false ∧
    (pairGraph.findShortestPath.T 1 2).dist = 5 ∧
    (GraphM.display 2 pairGraph.findShortestPath 1 2).map (fun r => r.2) =
      some [Token.endl] := by
  refine ⟨⟨[1, 2], ⟨?_, ?_⟩, rfl, rfl⟩, by decide, by decide, by decide, by decide, by decide⟩
  · intro x hx
    rw [pairGraph_size]
    simp only [List.mem_cons, List.mem_singleton, List.not_mem_nil, or_false] at hx
    omega
  · exact List.chain'_cons.mpr ⟨by decide, List.chain'_singleton _⟩

set_option maxRecDepth 100000 in
/-- C8 (the code departs from the claim). On the two-vertex graph after
`findShortestPath()` and `insertEdge(1,2,7)`, `display(1,2)` reports a path:
it writes the pair, the stale distance 5, the predecessor chain `1` and then
the source `1` again instead of the destination `2`, so the vertex sequence
written is 1, 1 and does not end at the destination. -/
theorem display_path_ends_with_source :
    staleGraph.pathed = false ∧
    (GraphM.display 2 staleGraph 1 2).map (fun r => r.2) =
      some [Token.int 1, Token.int 2, Token.int 5, Token.str "        ",
        Token.int 1, Token.chr ' ', Token.int 1, Token.endl,
        Token.node "B", Token.endl, Token.node "B", Token.endl, Token.endl] ∧
    (GraphM.displayPath 2 staleGraph 1 2).map (fun r => intTokens r.2 ++ [2]) =
      some [1, 2] := by
  decide

/-! ## Effect of the edge mutations -/

/-- C9. For every graph and all `source`, `dest`, `weight` with
`1 <= source,dest <= size`, `source != dest` and `weight > 0`,
`insertEdge` returns true, stores `weight` in `C[source][dest]` whatever was
there, puts `pathed` to false and leaves every other cost cell, the size, the
labels and the table unchanged. -/
theorem insertEdge_success (g : GraphM) (source dest weight : Int)
    (hs1 : 1 ≤ source) (hs2 : source ≤ g.size) (hd1 : 1 ≤ dest) (hd2 : dest ≤ g.size)
    (hne : source ≠ dest) (hw : weight > 0) :
    (g.insertEdge source dest weight).1 = true ∧
    (g.insertEdge source dest weight).2.C source.toNat dest.toNat = weight ∧
    (g.insertEdge source dest weight).2.pathed = false ∧
    (∀ i j, ¬ (i = source.toNat ∧ j = dest.toNat) →
      (g.insertEdge source dest weight).2.C i j = g.C i j) ∧
    (g.insertEdge source dest weight).2.size = g.size ∧
    (g.insertEdge source dest weight).2.data = g.data ∧
    (g.insertEdge source dest weight).2.T = g.T := by
  have h : (g.insertEdge source dest weight).1 = true := by
    rw [GraphM.insertEdge_fst, decide_eq_true_eq]
    exact ⟨by omega, hs2, hw, by omega, hd2, hne⟩
  rw [GraphM.insertEdge_snd_of_true g source dest weight h]
  refine ⟨h, ?_, rfl, ?_, rfl, rfl, rfl⟩
  · show setCell g.C source.toNat dest.toNat weight source.toNat dest.toNat = weight
    simp [setCell]
  · intro i j hij
    show setCell g.C source.toNat dest.toNat weight i j = g.C i j
    unfold setCell
    rw [if_neg hij]

set_option maxRecDepth 100000 in
theorem insertEdge_success_witness :
    (scenarioGraph.insertEdge 1 3 4).1 = true ∧
    (scenarioGraph.insertEdge 1 3 4).2.C (1 : Int).toNat (3 : Int).toNat = 4 ∧
    (scenarioGraph.insertEdge 1 3 4).2.pathed = false ∧
    (∀ i j, ¬ (i = (1 : Int).toNat ∧ j = (3 : Int).toNat) →
      (scenarioGraph.insertEdge 1 3 4).2.C i j = scenarioGraph.C i j) ∧
    (scenarioGraph.insertEdge 1 3 4).2.size = scenarioGraph.size ∧
    (scenarioGraph.insertEdge 1 3 4).2.data = scenarioGraph.data ∧
    (scenarioGraph.insertEdge 1 3 4).2.T = scenarioGraph.T :=
  insertEdge_success scenarioGraph 1 3 4 (by decide) (by decide) (by decide) (by decide)
    (by decide) (by decide)

/-- C10. `insertEdge` returns false exactly when `source == dest`, or
`source` or `dest` is `<= 0` or `> size`, or `weight <= 0`; `removeEdge`
returns false exactly when `source == dest` or `source` or `dest` is `<= 0`
or `> size`; and a rejected call leaves the whole state (cost matrix, table,
size, labels, `pathed`) as it was. -/
theorem mutation_rejection (g : GraphM) (source dest weight : Int) :
    ((g.insertEdge source dest weight).1 = false ↔
      (source = dest ∨ source ≤ 0 ∨ source > g.size ∨ dest ≤ 0 ∨ dest > g.size ∨
        weight ≤ 0)) ∧
    ((g.removeEdge source dest).1 = false ↔
      (source = dest ∨ source ≤ 0 ∨ source > g.size ∨ dest ≤ 0 ∨ dest > g.size)) ∧
    ((g.insertEdge source dest weight).1 = false →
      (g.insertEdge source dest weight).2 = g) ∧
    ((g.removeEdge source dest).1 = false → (g.removeEdge source dest).2 = g) := by
  refine ⟨?_, ?_, GraphM.insertEdge_snd_of_false g source dest weight,
    GraphM.removeEdge_snd_of_false g source dest⟩
  · rw [GraphM.insertEdge_fst, decide_eq_false_iff_not]
    constructor
    · intro h
      by_contra hc
      push_neg at hc
      exact h ⟨by omega, by omega, by omega, by omega, by omega, hc.1⟩
    · rintro h ⟨h1, h2, h3, h4, h5, h6⟩
      omega
  · rw [GraphM.removeEdge_fst, decide_eq_false_iff_not]
    constructor
    · intro h
      by_contra hc
      push_neg at hc
      exact h ⟨by omega, by omega, by omega, by omega, hc.1⟩
    · rintro h ⟨h1, h2, h3, h4, h5⟩
      omega

/-! ## Inserting and then removing an edge -/

/-- C11. For every matrix graph and all `source != dest` within `1..size` and
`weight > 0`, `insertEdge(source,dest,weight)` followed by
`removeEdge(source,dest)` both return true and leave `C[source][dest]` equal
to the sentinel `INT_MAX` with `pathed` false, every other cost cell being as
before the insertion. -/
theorem insert_then_remove (g : GraphM) (source dest weight : Int)
    (hs1 : 1 ≤ source) (hs2 : source ≤ g.size) (hd1 : 1 ≤ dest) (hd2 : dest ≤ g.size)
    (hne : source ≠ dest) (hw : weight > 0) :
    (g.insertEdge source dest weight).1 = true ∧
    ((g.insertEdge source dest weight).2.removeEdge source dest).1 = true ∧
    ((g.insertEdge source dest weight).2.removeEdge source dest).2.C
      source.toNat dest.toNat = INT_MAX ∧
    ((g.insertEdge source dest weight).2.removeEdge source dest).2.pathed = false ∧
    ∀ i j, ¬ (i = source.toNat ∧ j = dest.toNat) →
      ((g.insertEdge source dest weight).2.removeEdge source dest).2.C i j = g.C i j := by
  have h1 : (g.insertEdge source dest weight).1 = true := by
    rw [GraphM.insertEdge_fst, decide_eq_true_eq]
    exact ⟨by omega, hs2, hw, by omega, hd2, hne⟩
  have e1 := GraphM.insertEdge_snd_of_true g source dest weight h1
  have h2 : ((g.insertEdge source dest weight).2.removeEdge source dest).1 = true := by
    rw [GraphM.removeEdge_fst, decide_eq_true_eq, e1]
    exact ⟨by omega, hs2, by omega, hd2, hne⟩
  have e2 := GraphM.removeEdge_snd_of_true _ source dest h2
  refine ⟨h1, h2, ?_, ?_, ?_⟩
  · rw [e2]
    show setCell _ source.toNat dest.toNat INT_MAX source.toNat dest.toNat = INT_MAX
    simp [setCell]
  · rw [e2]
  · intro i j hij
    rw [e2, e1]
    show setCell (setCell g.C source.toNat dest.toNat weight) source.toNat dest.toNat INT_MAX i j
      = g.C i j
    unfold setCell
    rw [if_neg hij, if_neg hij]

set_option maxRecDepth 100000 in
theorem insert_then_remove_witness :
    (scenarioGraph.insertEdge 3 1 9).1 = true ∧
    ((scenarioGraph.insertEdge 3 1 9).2.removeEdge 3 1).1 = true ∧
    ((scenarioGraph.insertEdge 3 1 9).2.removeEdge 3 1).2.C
      (3 : Int).toNat (1 : Int).toNat = INT_MAX ∧
    ((scenarioGraph.insertEdge 3 1 9).2.removeEdge 3 1).2.pathed = false ∧
    ∀ i j, ¬ (i = (3 : Int).toNat ∧ j = (1 : Int).toNat) →
      ((scenarioGraph.insertEdge 3 1 9).2.removeEdge 3 1).2.C i j = scenarioGraph.C i j :=
  insert_then_remove scenarioGraph 3 1 9 (by decide) (by decide) (by decide) (by decide)
    (by decide) (by decide)

/-! ## `GraphL`: edge insertion and the build loop -/

namespace GraphL

theorem insertEdge_of_accepted (g : GraphL) (source dest size : Int) (node : GraphNode)
    (hv : source > 0 ∧ source ≤ size ∧ dest > 0 ∧ dest ≤ size ∧ source ≠ dest)
    (hnode : g.adjList source.toNat = some node) :
    g.insertEdge source dest size =
      some (true, g.setNode source.toNat { node with edgeHead := dest.toNat :: node.edgeHead }) := by
  unfold insertEdge
  simp only [decide_eq_true hv, if_true, hnode]

theorem insertEdge_of_rejected (g : GraphL) (source dest size : Int)
    (hv : ¬ (source > 0 ∧ source ≤ size ∧ dest > 0 ∧ dest ≤ size ∧ source ≠ dest)) :
    g.insertEdge source dest size = some (false, g) := by
  unfold insertEdge
  simp only [decide_eq_false hv, Bool.false_eq_true, if_false]

theorem edgesOf_of_some {g : GraphL} {i : Nat} {node : GraphNode} (h : g.adjList i = some node) :
    g.edgesOf i = node.edgeHead := by
  unfold edgesOf
  rw [h]

theorem isVisited_of_some {g : GraphL} {i : Nat} {node : GraphNode}
    (h : g.adjList i = some node) : g.isVisited i = node.visited := by
  unfold isVisited
  rw [h]

/-- An accepted insertion into a graph of `n` vertices keeps its shape. -/
theorem Shape.insert {g : GraphL} {n : Nat} (hs : Shape g n) (source dest : Int)
    (node : GraphNode)
    (hv : source > 0 ∧ source ≤ (n : Int) ∧ dest > 0 ∧ dest ≤ (n : Int) ∧ source ≠ dest)
    (hnode : g.adjList source.toNat = some node) :
    Shape (g.setNode source.toNat { node with edgeHead := dest.toNat :: node.edgeHead }) n := by
  refine ⟨hs.bound, ?_, ?_, ?_⟩
  · intro i hi1 hi2
    show ∃ nd, setAt g.adjList source.toNat _ i = some nd
    unfold setAt
    split
    · exact ⟨_, rfl⟩
    · exact hs.alloc i hi1 hi2
  · intro i hi
    show setAt g.adjList source.toNat _ i = none
    unfold setAt
    rw [if_neg (by omega)]
    exact hs.free i hi
  · intro i nd hnd d hd
    change setAt g.adjList source.toNat _ i = some nd at hnd
    unfold setAt at hnd
    split at hnd
    · rename_i hi
      rw [Option.some.injEq] at hnd
      rw [← hnd] at hd
      simp only [List.mem_cons] at hd
      rcases hd with hd | hd
      · rw [hd, hi]
        omega
      · rw [hi]
        exact hs.edges _ node hnode d hd
    · exact hs.edges i nd hnd d hd

theorem shape_empty : Shape empty 0 :=
  ⟨by simp [GRAPHNODELIMIT], fun i h1 h2 => by omega, fun _ _ => rfl,
    fun i node h => by simp [empty] at h⟩

theorem readNodes_adjList (g : GraphL) (n : Nat) (descriptions : Nat → String) (i : Nat) :
    (readNodes g n descriptions).adjList i =
      if 1 ≤ i ∧ i ≤ n then some { edgeHead := [], data := descriptions i, visited := false }
      else g.adjList i := by
  have key := forLoop_inv (fun i (h : GraphL) =>
      h.setNode i { edgeHead := [], data := descriptions i, visited := false })
    (fun k h => ∀ a, h.adjList a =
      if 1 ≤ a ∧ a < k then some { edgeHead := [], data := descriptions a, visited := false }
      else g.adjList a)
    1 n g (fun a => by rw [if_neg (by omega)])
    (by
      intro k h hk1 _ hP a
      show setAt h.adjList k _ a = _
      unfold setAt
      by_cases c : a = k
      · rw [if_pos c, if_pos ⟨by omega, by omega⟩, c]
      · rw [if_neg c, hP]
        by_cases c2 : 1 ≤ a ∧ a < k
        · rw [if_pos c2, if_pos ⟨c2.1, by omega⟩]
        · rw [if_neg c2, if_neg]
          intro hc
          rcases Nat.lt_succ_iff_lt_or_eq.mp hc.2 with h1 | h1
          · exact c2 ⟨hc.1, h1⟩
          · exact c h1)
  have := key i
  unfold readNodes
  rw [this]
  by_cases c : 1 ≤ i ∧ i ≤ n
  · rw [if_pos c, if_pos ⟨c.1, by omega⟩]
  · rw [if_neg c, if_neg]
    intro hc
    exact c ⟨hc.1, by omega⟩

theorem readNodes_shape (n : Nat) (hn : n < GRAPHNODELIMIT) (descriptions : Nat → String) :
    Shape (readNodes empty n descriptions) n := by
  refine ⟨hn, ?_, ?_, ?_⟩
  · intro i hi1 hi2
    rw [readNodes_adjList, if_pos ⟨hi1, hi2⟩]
    exact ⟨_, rfl⟩
  · intro i hi
    rw [readNodes_adjList, if_neg (by omega)]
    rfl
  · intro i node hnode d hd
    rw [readNodes_adjList] at hnode
    split at hnode
    · rw [Option.some.injEq] at hnode
      rw [← hnode] at hd
      simp at hd
    · simp [empty] at hnode

/-- Applying `insertEdge` to a list of records in a graph of `n` vertices
returns, keeps the shape, and puts the accepted destinations of each source in
front of its edge list, the last accepted first. -/
theorem insertAll_spec (n : Nat) (records : List (Int × Int)) :
    ∀ g, Shape g n → ∃ g2, insertAll n g records = some g2 ∧ Shape g2 n ∧
      ∀ v, g2.edgesOf v = (destsOf n v records).reverse ++ g.edgesOf v ∧
        g2.isVisited v = g.isVisited v := by
  induction records with
  | nil =>
    intro g hs
    exact ⟨g, rfl, hs, fun v => by simp [destsOf]⟩
  | cons r rest ih =>
    intro g hs
    obtain ⟨source, dest⟩ := r
    by_cases hv : source > 0 ∧ source ≤ (n : Int) ∧ dest > 0 ∧ dest ≤ (n : Int) ∧ source ≠ dest
    · obtain ⟨node, hnode⟩ := hs.alloc source.toNat (by omega) (by omega)
      obtain ⟨g2, h2, hs2, he⟩ := ih _ (hs.insert source dest node hv hnode)
      refine ⟨g2, ?_, hs2, ?_⟩
      · unfold insertAll
        rw [insertEdge_of_accepted g source dest n node hv hnode]
        exact h2
      · intro v
        rw [(he v).1, (he v).2]
        have hacc : accepted (n : Int) (source, dest) = true := by
          unfold accepted
          exact decide_eq_true hv
        by_cases hsv : source.toNat = v
        · subst hsv
          constructor
          · have e1 : edgesOf (g.setNode source.toNat
                { node with edgeHead := dest.toNat :: node.edgeHead }) source.toNat =
                dest.toNat :: g.edgesOf source.toNat := by
              unfold edgesOf
              simp [setNode, setAt, hnode]
            rw [e1]
            simp [destsOf, List.filter_cons, hacc]
          · unfold isVisited
            simp [setNode, setAt, hnode]
        · constructor
          · have e1 : edgesOf (g.setNode source.toNat
                { node with edgeHead := dest.toNat :: node.edgeHead }) v = g.edgesOf v := by
              unfold edgesOf
              simp [setNode, setAt, Ne.symm hsv]
            rw [e1]
            simp [destsOf, List.filter_cons, hacc, hsv]
          · unfold isVisited
            simp [setNode, setAt, Ne.symm hsv]
    · obtain ⟨g2, h2, hs2, he⟩ := ih g hs
      refine ⟨g2, ?_, hs2, ?_⟩
      · unfold insertAll
        rw [insertEdge_of_rejected g source dest n hv]
        exact h2
      · intro v
        rw [(he v).1, (he v).2]
        have hacc : accepted (n : Int) (source, dest) = false := by
          unfold accepted
          exact decide_eq_false hv
        simp [destsOf, List.filter_cons, hacc]

/-- The edge loop stops at the first record with source field `0` and applies
`insertEdge` to the records before it. -/
theorem buildLoop_eq_insertAll (nodeCount : Int) (pre post : List (Int × Int)) (dest : Int)
    (hpre : ∀ r ∈ pre, r.1 ≠ 0) :
    ∀ g, buildLoop nodeCount g (pre ++ (0, dest) :: post) = insertAll nodeCount g pre := by
  induction pre with
  | nil =>
    intro g
    simp [buildLoop, insertAll]
  | cons r rest ih =>
    intro g
    obtain ⟨source, d⟩ := r
    have hs : source ≠ 0 := hpre (source, d) (List.mem_cons_self _ _)
    have hrest : ∀ r ∈ rest, r.1 ≠ 0 := fun r hr => hpre r (List.mem_cons_of_mem _ hr)
    simp only [List.cons_append, buildLoop, insertAll, ne_eq, hs, not_false_eq_true, if_true]
    cases h : g.insertEdge source d nodeCount with
    | none => rfl
    | some res =>
      obtain ⟨b, g2⟩ := res
      exact ih hrest g2

/-- A record list on which the edge loop ends has a first sentinel record. -/
theorem buildLoop_some_split (nodeCount : Int) (edges : List (Int × Int)) :
    ∀ g g2, buildLoop nodeCount g edges = some g2 →
      ∃ pre dest post, edges = pre ++ (0, dest) :: post ∧ ∀ r ∈ pre, r.1 ≠ 0 := by
  induction edges with
  | nil => intro g g2 h; simp [buildLoop] at h
  | cons r rest ih =>
    intro g g2 h
    obtain ⟨source, d⟩ := r
    by_cases hs : source = 0
    · subst hs
      exact ⟨[], d, rest, rfl, fun r hr => by simp at hr⟩
    · simp only [buildLoop, ne_eq, hs, not_false_eq_true, if_true] at h
      cases hi : g.insertEdge source d nodeCount with
      | none => rw [hi] at h; simp at h
      | some res =>
        obtain ⟨b, g3⟩ := res
        rw [hi] at h
        obtain ⟨pre, dest, post, he, hp⟩ := ih g3 g2 h
        refine ⟨(source, d) :: pre, dest, post, by rw [he]; rfl, ?_⟩
        intro r hr
        rcases List.mem_cons.mp hr with h1 | h1
        · rw [h1]; exact hs
        · exact hp r h1

end GraphL

theorem nodeTotal_lt (nodeCount : Int) : GraphL.nodeTotal nodeCount < GRAPHNODELIMIT := by
  unfold GraphL.nodeTotal
  split
  · rename_i h
    simp only [GRAPHNODELIMIT] at h ⊢
    omega
  · simp [GRAPHNODELIMIT]

/-! ## Depth-first search -/

theorem pathTokens_concat (A B : List Nat) :
    pathTokens (A ++ B) = pathTokens A ++ pathTokens B := by
  induction A with
  | nil => rfl
  | cons a A ih => simp [pathTokens, ih]

namespace GraphL

theorem ext_adjList {g h : GraphL} (hadj : ∀ i, g.adjList i = h.adjList i) : g = h := by
  cases g
  cases h
  congr
  funext i
  exact hadj i

theorem markAll_adjList (g : GraphL) (L : List Nat) (i : Nat) :
    (g.markAll L).adjList i =
      (g.adjList i).map (fun node => { node with visited := node.visited || decide (i ∈ L) }) :=
  rfl

theorem markAll_nil (g : GraphL) : g.markAll [] = g := by
  apply ext_adjList
  intro i
  rw [markAll_adjList]
  cases h : g.adjList i with
  | none => rfl
  | some node => cases node; simp

theorem markAll_markAll (g : GraphL) (A B : List Nat) :
    (g.markAll A).markAll B = g.markAll (A ++ B) := by
  apply ext_adjList
  intro i
  rw [markAll_adjList, markAll_adjList, markAll_adjList]
  cases h : g.adjList i with
  | none => rfl
  | some node => simp [Bool.or_assoc]

theorem setNode_visited (g : GraphL) (v : Nat) (node : GraphNode)
    (h : g.adjList v = some node) :
    g.setNode v { node with visited := true } = g.markAll [v] := by
  apply ext_adjList
  intro i
  rw [markAll_adjList]
  show setAt g.adjList v _ i = _
  unfold setAt
  by_cases c : i = v
  · rw [if_pos c, c, h]
    simp
  · rw [if_neg c]
    cases h2 : g.adjList i with
    | none => rfl
    | some nd => cases nd; simp [c]

theorem markAll_adjList_some {g : GraphL} {i : Nat} {node : GraphNode} (L : List Nat)
    (h : g.adjList i = some node) :
    (g.markAll L).adjList i = some { node with visited := node.visited || decide (i ∈ L) } := by
  rw [markAll_adjList, h]
  rfl

theorem isVisited_markAll (g : GraphL) (L : List Nat) (i : Nat) :
    (g.markAll L).isVisited i = true ↔
      g.isVisited i = true ∨ (i ∈ L ∧ ∃ node, g.adjList i = some node) := by
  unfold isVisited
  rw [markAll_adjList]
  cases h : g.adjList i with
  | none => simp
  | some node => simp

theorem edgesOf_markAll (g : GraphL) (L : List Nat) (i : Nat) :
    (g.markAll L).edgesOf i = g.edgesOf i := by
  unfold edgesOf
  rw [markAll_adjList]
  cases h : g.adjList i with
  | none => rfl
  | some node => rfl

theorem Shape.mark {g : GraphL} {n : Nat} (hs : Shape g n) (L : List Nat) :
    Shape (g.markAll L) n := by
  refine ⟨hs.bound, ?_, ?_, ?_⟩
  · intro i hi1 hi2
    obtain ⟨node, h⟩ := hs.alloc i hi1 hi2
    exact ⟨_, markAll_adjList_some L h⟩
  · intro i hi
    rw [markAll_adjList, hs.free i hi]
    rfl
  · intro i nd hnd d hd
    cases h : g.adjList i with
    | none =>
      rw [markAll_adjList, h] at hnd
      simp at hnd
    | some node =>
      rw [markAll_adjList_some L h, Option.some.injEq] at hnd
      rw [← hnd] at hd
      exact hs.edges i node h d hd

theorem isVisited_markAll_false {g : GraphL} {L : List Nat} {i : Nat}
    (h : (g.markAll L).isVisited i = false) : g.isVisited i = false := by
  cases hv : g.isVisited i with
  | false => rfl
  | true =>
    have := (isVisited_markAll g L i).mpr (Or.inl hv)
    rw [h] at this
    exact absurd this (by simp)

theorem not_mem_of_markAll_false {g : GraphL} {n : Nat} (hs : Shape g n) {L : List Nat}
    {i : Nat} (hi1 : 1 ≤ i) (hi2 : i ≤ n) (h : (g.markAll L).isVisited i = false) : i ∉ L := by
  intro hmem
  have := (isVisited_markAll g L i).mpr (Or.inr ⟨hmem, hs.alloc i hi1 hi2⟩)
  rw [h] at this
  exact absurd this (by simp)

theorem unvisited_markAll_subset (g : GraphL) (n : Nat) (L : List Nat) :
    unvisited (g.markAll L) n ⊆ unvisited g n := by
  intro i hi
  unfold unvisited at hi ⊢
  rw [Finset.mem_filter] at hi ⊢
  exact ⟨hi.1, isVisited_markAll_false hi.2⟩

theorem unvisited_markAll_card_lt {g : GraphL} {n : Nat} (hs : Shape g n) (L : List Nat)
    (v : Nat) (hv1 : 1 ≤ v) (hv2 : v ≤ n) (hvu : g.isVisited v = false) (hvL : v ∈ L) :
    (unvisited (g.markAll L) n).card < (unvisited g n).card := by
  apply Finset.card_lt_card
  refine ⟨unvisited_markAll_subset g n L, ?_⟩
  intro hsub
  have hv : v ∈ unvisited g n := by
    unfold unvisited
    rw [Finset.mem_filter, Finset.mem_Icc]
    exact ⟨⟨hv1, hv2⟩, hvu⟩
  have := hsub hv
  unfold unvisited at this
  rw [Finset.mem_filter] at this
  exact not_mem_of_markAll_false hs hv1 hv2 this.2 hvL

/-- The edge loop of `dfs`, given what the recursive calls do: it returns, and
the vertices it writes are distinct, were unvisited before and are exactly the
ones whose flag it raises; every destination of the list is visited after. -/
theorem dfsLoop_spec (n fuel : Nat)
    (hrec : ∀ g out v, Shape g n → 1 ≤ v → v ≤ n → g.isVisited v = false →
      (unvisited g n).card ≤ fuel →
      ∃ L2, dfs fuel v (g, out) = some (g.markAll (v :: L2), out ++ pathTokens (v :: L2)) ∧
        (v :: L2).Nodup ∧ (∀ x ∈ L2, 1 ≤ x ∧ x ≤ n ∧ g.isVisited x = false) ∧
        (∀ d rest, g.edgesOf v = d :: rest → g.isVisited d = false → L2.head? = some d))
    (ds : List Nat) :
    ∀ g out, Shape g n → (∀ d ∈ ds, 1 ≤ d ∧ d ≤ n) → (unvisited g n).card ≤ fuel →
      ∃ L, dfsLoop (dfs fuel) ds (g, out) = some (g.markAll L, out ++ pathTokens L) ∧
        L.Nodup ∧ (∀ x ∈ L, 1 ≤ x ∧ x ≤ n ∧ g.isVisited x = false) ∧
        (∀ d rest, ds = d :: rest → g.isVisited d = false → L.head? = some d) ∧
        (∀ d ∈ ds, g.isVisited d = true ∨ d ∈ L) := by
  induction ds with
  | nil =>
    intro g out _ _ _
    refine ⟨[], ?_, List.nodup_nil, fun x hx => by simp at hx, fun d rest h => by simp at h,
      fun d hd => by simp at hd⟩
    simp [dfsLoop, markAll_nil, pathTokens]
  | cons d rest ih =>
    intro g out hs hds hcard
    obtain ⟨hd1, hd2⟩ := hds d (List.mem_cons_self _ _)
    have hrest : ∀ x ∈ rest, 1 ≤ x ∧ x ≤ n := fun x hx => hds x (List.mem_cons_of_mem _ hx)
    obtain ⟨node, hnode⟩ := hs.alloc d hd1 hd2
    cases hv : node.visited with
    | true =>
      obtain ⟨L, hL, hnd, hmem, _, hall⟩ := ih g out hs hrest hcard
      refine ⟨L, ?_, hnd, hmem, ?_, ?_⟩
      · unfold dfsLoop
        simp only [hnode, hv, Bool.not_true, Bool.false_eq_true, if_false]
        exact hL
      · intro d2 rest2 he hu
        simp only [List.cons.injEq] at he
        rw [← he.1, isVisited_of_some hnode, hv] at hu
        exact absurd hu (by simp)
      · intro x hx
        rcases List.mem_cons.mp hx with h1 | h1
        · left
          rw [h1, isVisited_of_some hnode, hv]
        · exact hall x h1
    | false =>
      have hdu : g.isVisited d = false := by rw [isVisited_of_some hnode, hv]
      obtain ⟨L2, hL2, hnd2, hmem2, _⟩ := hrec g out d hs hd1 hd2 hdu hcard
      have hcard2 : (unvisited (g.markAll (d :: L2)) n).card ≤ fuel :=
        le_trans (Finset.card_le_card (unvisited_markAll_subset g n _)) hcard
      obtain ⟨L3, hL3, hnd3, hmem3, _, hall3⟩ :=
        ih (g.markAll (d :: L2)) (out ++ pathTokens (d :: L2)) (hs.mark _) hrest hcard2
      refine ⟨(d :: L2) ++ L3, ?_, ?_, ?_, ?_, ?_⟩
      · unfold dfsLoop
        simp only [hnode, hv, Bool.not_false, if_true, hL2]
        rw [hL3, markAll_markAll, pathTokens_concat, List.append_assoc]
      · refine List.Nodup.append hnd2 hnd3 ?_
        intro x hx1 hx2
        exact not_mem_of_markAll_false hs (hmem3 x hx2).1 (hmem3 x hx2).2.1 (hmem3 x hx2).2.2 hx1
      · intro x hx
        rcases List.mem_append.mp hx with h1 | h1
        · rcases List.mem_cons.mp h1 with h2 | h2
          · rw [h2]; exact ⟨hd1, hd2, hdu⟩
          · exact hmem2 x h2
        · exact ⟨(hmem3 x h1).1, (hmem3 x h1).2.1, isVisited_markAll_false (hmem3 x h1).2.2⟩
      · intro d2 rest2 he _
        simp only [List.cons.injEq] at he
        rw [← he.1]
        rfl
      · intro x hx
        rcases List.mem_cons.mp hx with h1 | h1
        · right
          rw [h1]
          exact List.mem_append_left _ (List.mem_cons_self _ _)
        · rcases hall3 x h1 with h2 | h2
          · rcases (isVisited_markAll g (d :: L2) x).mp h2 with h3 | h3
            · exact Or.inl h3
            · exact Or.inr (List.mem_append_left _ h3.1)
          · exact Or.inr (List.mem_append_right _ h2)

/-- The method `dfs` on an unvisited vertex `v`, with a depth budget of at
least the number of unvisited vertices: it returns, writes `v` first and then
distinct vertices that were unvisited, and raises exactly their flags. -/
theorem dfs_spec (n : Nat) : ∀ fuel g out v, Shape g n → 1 ≤ v → v ≤ n →
    g.isVisited v = false → (unvisited g n).card ≤ fuel →
    ∃ L2, dfs fuel v (g, out) = some (g.markAll (v :: L2), out ++ pathTokens (v :: L2)) ∧
      (v :: L2).Nodup ∧ (∀ x ∈ L2, 1 ≤ x ∧ x ≤ n ∧ g.isVisited x = false) ∧
      (∀ d rest, g.edgesOf v = d :: rest → g.isVisited d = false → L2.head? = some d) := by
  intro fuel
  induction fuel with
  | zero =>
    intro g out v _ hv1 hv2 hvu hcard
    exfalso
    have hv : v ∈ unvisited g n := by
      unfold unvisited
      rw [Finset.mem_filter, Finset.mem_Icc]
      exact ⟨⟨hv1, hv2⟩, hvu⟩
    have := Finset.card_pos.mpr ⟨v, hv⟩
    omega
  | succ fuel ih =>
    intro g out v hs hv1 hv2 hvu hcard
    obtain ⟨node, hnode⟩ := hs.alloc v hv1 hv2
    have hg1 := setNode_visited g v node hnode
    have hlt := unvisited_markAll_card_lt hs [v] v hv1 hv2 hvu (List.mem_singleton.mpr rfl)
    obtain ⟨L, hL, hnd, hmem, hhead, _⟩ := dfsLoop_spec n fuel ih node.edgeHead
      (g.markAll [v]) (out ++ [Token.int v, Token.chr ' ']) (hs.mark _)
      (fun d hd => ⟨(hs.edges v node hnode d hd).1, (hs.edges v node hnode d hd).2.1⟩)
      (by omega)
    refine ⟨L, ?_, ?_, ?_, ?_⟩
    · unfold dfs
      simp only [hnode, hg1, hL]
      rw [markAll_markAll]
      simp [pathTokens]
    · rw [List.nodup_cons]
      refine ⟨?_, hnd⟩
      intro hvL
      have h1 := (hmem v hvL).2.2
      have h2 := (isVisited_markAll g [v] v).mpr (Or.inr ⟨List.mem_singleton.mpr rfl, node, hnode⟩)
      rw [h1] at h2
      exact absurd h2 (by simp)
    · intro x hx
      exact ⟨(hmem x hx).1, (hmem x hx).2.1, isVisited_markAll_false (hmem x hx).2.2⟩
    · intro d rest he hdu
      rw [edgesOf_of_some hnode] at he
      have hd := hs.edges v node hnode d (by rw [he]; exact List.mem_cons_self _ _)
      refine hhead d rest he ?_
      cases hx : (g.markAll [v]).isVisited d with
      | false => rfl
      | true =>
        rcases (isVisited_markAll g [v] d).mp hx with h3 | h3
        · rw [hdu] at h3; exact absurd h3 (by simp)
        · exact absurd (List.mem_singleton.mp h3.1) hd.2.2

end GraphL

namespace GraphL

theorem clearAll_adjList (g : GraphL) (i : Nat) :
    g.clearAll.adjList i = (g.adjList i).map (fun node => { node with visited := false }) :=
  rfl

theorem isVisited_clearAll (g : GraphL) (i : Nat) : g.clearAll.isVisited i = false := by
  unfold isVisited
  rw [clearAll_adjList]
  cases h : g.adjList i with
  | none => rfl
  | some node => rfl

theorem edgesOf_clearAll (g : GraphL) (i : Nat) : g.clearAll.edgesOf i = g.edgesOf i := by
  unfold edgesOf
  rw [clearAll_adjList]
  cases h : g.adjList i with
  | none => rfl
  | some node => rfl

theorem Shape.clear {g : GraphL} {n : Nat} (hs : Shape g n) : Shape g.clearAll n := by
  refine ⟨hs.bound, ?_, ?_, ?_⟩
  · intro i hi1 hi2
    obtain ⟨node, h⟩ := hs.alloc i hi1 hi2
    exact ⟨_, by rw [clearAll_adjList, h]; rfl⟩
  · intro i hi
    rw [clearAll_adjList, hs.free i hi]
    rfl
  · intro i nd hnd d hd
    cases h : g.adjList i with
    | none =>
      rw [clearAll_adjList, h] at hnd
      simp at hnd
    | some node =>
      rw [clearAll_adjList, h] at hnd
      simp only [Option.map_some', Option.some.injEq] at hnd
      rw [← hnd] at hd
      exact hs.edges i node h d hd

theorem Shape.setVisited {g : GraphL} {n : Nat} (hs : Shape g n) (i : Nat) (node : GraphNode)
    (h : g.adjList i = some node) (b : Bool) :
    Shape (g.setNode i { node with visited := b }) n := by
  refine ⟨hs.bound, ?_, ?_, ?_⟩
  · intro j hj1 hj2
    show ∃ nd, setAt g.adjList i _ j = some nd
    unfold setAt
    split
    · exact ⟨_, rfl⟩
    · exact hs.alloc j hj1 hj2
  · intro j hj
    show setAt g.adjList i _ j = none
    unfold setAt
    split
    · rename_i hji
      have := hs.free i (hji ▸ hj)
      rw [h] at this
      exact absurd this (by simp)
    · exact hs.free j hj
  · intro j nd hnd d hd
    change setAt g.adjList i _ j = some nd at hnd
    unfold setAt at hnd
    split at hnd
    · rename_i hji
      rw [Option.some.injEq] at hnd
      rw [← hnd] at hd
      rw [hji]
      exact hs.edges i node h d hd
    · exact hs.edges j nd hnd d hd

/-- Once every node below some index is unvisited and no node exists from
that index on, lowering all flags changes nothing. -/
theorem clearAll_eq_self {g : GraphL} {n : Nat} (hs : Shape g n)
    (hall : ∀ j, 1 ≤ j → j ≤ n → g.isVisited j = false) : g.clearAll = g := by
  apply ext_adjList
  intro i
  rw [clearAll_adjList]
  cases h : g.adjList i with
  | none => rfl
  | some node =>
    have hi : 1 ≤ i ∧ i ≤ n := by
      by_contra hc
      have := hs.free i (by omega)
      rw [h] at this
      exact absurd this (by simp)
    have hv := hall i hi.1 hi.2
    rw [isVisited_of_some h] at hv
    cases node
    simp_all

/-- The first loop of `depthFirstSearch` lowers every visited flag. -/
theorem resetLoop_spec (n : Nat) : ∀ k i g, i + k = GRAPHNODELIMIT → 1 ≤ i → i ≤ n + 1 →
    Shape g n → (∀ j, 1 ≤ j → j < i → g.isVisited j = false) →
    resetLoop k i g = g.clearAll := by
  intro k
  induction k with
  | zero =>
    intro i g hik _ hi2 hs hall
    have hb := hs.bound
    simp only [GRAPHNODELIMIT] at hik hb
    unfold resetLoop
    exact (clearAll_eq_self hs (fun j hj1 hj2 => hall j hj1 (by omega))).symm
  | succ k ih =>
    intro i g hik hi1 hi2 hs hall
    by_cases hin : i ≤ n
    · obtain ⟨node, hnode⟩ := hs.alloc i hi1 hin
      unfold resetLoop
      simp only [hnode]
      rw [ih (i + 1) _ (by omega) (by omega) (by omega) (hs.setVisited i node hnode false)]
      · apply ext_adjList
        intro j
        rw [clearAll_adjList, clearAll_adjList]
        show Option.map _ (setAt g.adjList i _ j) = _
        unfold setAt
        by_cases c : j = i
        · rw [if_pos c, c, hnode]
          rfl
        · rw [if_neg c]
      · intro j hj1 hj2
        unfold isVisited
        show (match setAt g.adjList i _ j with | some nd => nd.visited | none => false) = false
        unfold setAt
        by_cases c : j = i
        · rw [if_pos c]
        · rw [if_neg c]
          exact hall j hj1 (by omega)
    · have hfree := hs.free i (Or.inr (by omega))
      unfold resetLoop
      simp only [hfree]
      exact (clearAll_eq_self hs (fun j hj1 hj2 => hall j hj1 (by omega))).symm

/-- The second loop of `depthFirstSearch`, from index `v` on: it returns, the
vertices written are distinct, were unvisited and are exactly those whose flag
is raised, and afterwards every vertex is visited. -/
theorem searchLoop_spec (n fuel : Nat) : ∀ k v g out, v + k = GRAPHNODELIMIT → 1 ≤ v →
    v ≤ n + 1 → Shape g n → (∀ j, 1 ≤ j → j < v → g.isVisited j = true) →
    (unvisited g n).card ≤ fuel →
    ∃ M, searchLoop fuel k v (g, out) = some (g.markAll M, out ++ pathTokens M) ∧
      M.Nodup ∧ (∀ x ∈ M, 1 ≤ x ∧ x ≤ n ∧ g.isVisited x = false) ∧
      (∀ j, 1 ≤ j → j ≤ n → (g.markAll M).isVisited j = true) ∧
      (v ≤ n → g.isVisited v = false → M.head? = some v ∧
        ∀ d rest, g.edgesOf v = d :: rest → g.isVisited d = false → M.tail.head? = some d) := by
  intro k
  induction k with
  | zero =>
    intro v g out hvk _ hv2 hs hall _
    have hb := hs.bound
    simp only [GRAPHNODELIMIT] at hvk hb
    refine ⟨[], ?_, List.nodup_nil, fun x hx => by simp at hx, ?_, fun h => by omega⟩
    · simp [searchLoop, markAll_nil, pathTokens]
    · intro j hj1 hj2
      rw [markAll_nil]
      exact hall j hj1 (by omega)
  | succ k ih =>
    intro v g out hvk hv1 hv2 hs hall hcard
    by_cases hvn : v ≤ n
    · obtain ⟨node, hnode⟩ := hs.alloc v hv1 hvn
      cases hv : node.visited with
      | true =>
        obtain ⟨M, hM, hnd, hmem, hfin, _⟩ := ih (v + 1) g out (by omega) (by omega) (by omega) hs
          (fun j hj1 hj2 => by
            rcases Nat.lt_succ_iff_lt_or_eq.mp hj2 with h1 | h1
            · exact hall j hj1 h1
            · rw [h1, isVisited_of_some hnode, hv]) hcard
        refine ⟨M, ?_, hnd, hmem, hfin, ?_⟩
        · unfold searchLoop
          simp only [hnode, hv, Bool.not_true, Bool.false_eq_true, if_false]
          exact hM
        · intro _ hu
          rw [isVisited_of_some hnode, hv] at hu
          exact absurd hu (by simp)
      | false =>
        have hvu : g.isVisited v = false := by rw [isVisited_of_some hnode, hv]
        obtain ⟨L2, hL2, hnd2, hmem2, hhead2⟩ := dfs_spec n fuel g out v hs hv1 hvn hvu hcard
        have hcard2 : (unvisited (g.markAll (v :: L2)) n).card ≤ fuel :=
          le_trans (Finset.card_le_card (unvisited_markAll_subset g n _)) hcard
        obtain ⟨M, hM, hnd, hmem, hfin, _⟩ := ih (v + 1) (g.markAll (v :: L2))
          (out ++ pathTokens (v :: L2)) (by omega) (by omega) (by omega) (hs.mark _)
          (fun j hj1 hj2 => by
            rw [isVisited_markAll]
            rcases Nat.lt_succ_iff_lt_or_eq.mp hj2 with h1 | h1
            · exact Or.inl (hall j hj1 h1)
            · exact Or.inr ⟨by rw [h1]; exact List.mem_cons_self _ _, by rw [h1]; exact ⟨node, hnode⟩⟩)
          hcard2
        refine ⟨(v :: L2) ++ M, ?_, ?_, ?_, ?_, ?_⟩
        · unfold searchLoop
          simp only [hnode, hv, Bool.not_false, if_true, hL2]
          rw [hM, markAll_markAll, pathTokens_concat, List.append_assoc]
        · refine List.Nodup.append hnd2 hnd ?_
          intro x hx1 hx2
          exact not_mem_of_markAll_false hs (hmem x hx2).1 (hmem x hx2).2.1 (hmem x hx2).2.2 hx1
        · intro x hx
          rcases List.mem_append.mp hx with h1 | h1
          · rcases List.mem_cons.mp h1 with h2 | h2
            · rw [h2]; exact ⟨hv1, hvn, hvu⟩
            · exact hmem2 x h2
          · exact ⟨(hmem x h1).1, (hmem x h1).2.1, isVisited_markAll_false (hmem x h1).2.2⟩
        · intro j hj1 hj2
          rw [← markAll_markAll]
          exact hfin j hj1 hj2
        · intro _ _
          refine ⟨rfl, ?_⟩
          intro d rest he hdu
          have := hhead2 d rest he hdu
          cases L2 with
          | nil => simp at this
          | cons a L3 =>
            simp only [List.head?_cons, Option.some.injEq] at this
            rw [this]
            rfl
    · have hfree := hs.free v (Or.inr (by omega))
      refine ⟨[], ?_, List.nodup_nil, fun x hx => by simp at hx, ?_, fun h => by omega⟩
      · unfold searchLoop
        simp [hfree, markAll_nil, pathTokens]
      · intro j hj1 hj2
        rw [markAll_nil]
        exact hall j hj1 (by omega)

theorem unvisited_card_le (g : GraphL) (n : Nat) : (unvisited g n).card ≤ n := by
  unfold unvisited
  have h1 := Finset.card_filter_le (Finset.Icc 1 n) (fun i => g.isVisited i = false)
  have h2 : (Finset.Icc 1 n).card = n := by simp
  omega

/-- The method `depthFirstSearch` on a graph of `n` vertices with a depth
budget of at least `n`: it returns, and the vertices it writes are distinct
and are all the vertices `1..n`; the first is vertex 1, the second the head of
the edge list of vertex 1 when there is one. -/
theorem depthFirstSearch_spec {g : GraphL} {n : Nat} (hs : Shape g n) (fuel : Nat)
    (hf : n ≤ fuel) :
    ∃ M, depthFirstSearch fuel g = some (g.clearAll.markAll M,
        [Token.endl, Token.str "Depth-first ordering: "] ++ pathTokens M ++
          [Token.endl, Token.endl]) ∧
      M.Nodup ∧ (∀ x ∈ M, 1 ≤ x ∧ x ≤ n) ∧ (∀ j, 1 ≤ j → j ≤ n → j ∈ M) ∧
      (1 ≤ n → M.head? = some 1 ∧
        ∀ d rest, g.edgesOf 1 = d :: rest → M.tail.head? = some d) := by
  have hreset : resetLoop (GRAPHNODELIMIT - 1) 1 g = g.clearAll :=
    resetLoop_spec n _ 1 g (by simp [GRAPHNODELIMIT]) (le_refl _) (by omega) hs
      (fun j hj1 hj2 => by omega)
  obtain ⟨M, hM, hnd, hmem, hfin, hhead⟩ := searchLoop_spec n fuel (GRAPHNODELIMIT - 1) 1
    g.clearAll [Token.endl, Token.str "Depth-first ordering: "] (by simp [GRAPHNODELIMIT])
    (le_refl _) (by omega) hs.clear (fun j hj1 hj2 => by omega)
    (le_trans (unvisited_card_le _ n) hf)
  refine ⟨M, ?_, hnd, fun x hx => ⟨(hmem x hx).1, (hmem x hx).2.1⟩, ?_, ?_⟩
  · unfold depthFirstSearch
    rw [hreset, hM]
  · intro j hj1 hj2
    rcases (isVisited_markAll g.clearAll M j).mp (hfin j hj1 hj2) with h | h
    · rw [isVisited_clearAll] at h
      exact absurd h (by simp)
    · exact h.1
  · intro hn
    obtain ⟨h1, h2⟩ := hhead hn (isVisited_clearAll g 1)
    refine ⟨h1, ?_⟩
    intro d rest he
    exact h2 d rest (by rw [edgesOf_clearAll]; exact he) (isVisited_clearAll g d)

end GraphL

theorem intTokens_append (A B : List Token) :
    intTokens (A ++ B) = intTokens A ++ intTokens B := by
  induction A with
  | nil => rfl
  | cons a A ih =>
    cases a <;> simp [intTokens, ih]

/-- Every state of a built list graph has the shape of a graph of `n`
vertices. -/
theorem ListBuilt.shape {n : Nat} {g : GraphL} (h : ListBuilt n g) : GraphL.Shape g n := by
  induction h with
  | @build nodeCount descriptions edges g hb =>
    unfold GraphL.buildGraph at hb
    unfold GraphL.nodeTotal
    split at hb
    · rename_i hn
      rw [if_pos hn]
      obtain ⟨pre, dest, post, he, hpre⟩ := GraphL.buildLoop_some_split _ _ _ _ hb
      rw [he, GraphL.buildLoop_eq_insertAll nodeCount pre post dest hpre] at hb
      have hcast : ((nodeCount.toNat : Nat) : Int) = nodeCount := Int.toNat_of_nonneg (by omega)
      obtain ⟨g2, h2, hs2, _⟩ := GraphL.insertAll_spec nodeCount.toNat pre _
        (GraphL.readNodes_shape nodeCount.toNat (by
          simp only [GRAPHNODELIMIT] at hn ⊢
          omega) descriptions)
      rw [hcast, hb, Option.some.injEq] at h2
      rw [h2]
      exact hs2
    · rename_i hn
      rw [if_neg hn]
      rw [Option.some.injEq] at hb
      rw [← hb]
      exact GraphL.shape_empty
  | @search n g g2 fuel out _ hf hd ih =>
    obtain ⟨M, hM, _⟩ := GraphL.depthFirstSearch_spec ih fuel hf
    rw [hM, Option.some.injEq, Prod.mk.injEq] at hd
    rw [← hd.1]
    exact (ih.clear).mark M

namespace GraphL

/-- In a graph without edges the second loop of `depthFirstSearch` writes the
indices from `v` up to `n` in increasing order. -/
theorem searchLoop_edgeless (n fuel : Nat) : ∀ k v g out, v + k = GRAPHNODELIMIT → 1 ≤ v →
    v ≤ n + 1 → Shape g n → (∀ i, g.edgesOf i = []) →
    (∀ j, v ≤ j → j ≤ n → g.isVisited j = false) →
    searchLoop (fuel + 1) k v (g, out) =
      some (g.markAll (List.range' v (n + 1 - v)),
        out ++ pathTokens (List.range' v (n + 1 - v))) := by
  intro k
  induction k with
  | zero =>
    intro v g out hvk _ hv2 hs _ _
    have hb := hs.bound
    simp only [GRAPHNODELIMIT] at hvk hb
    have e : n + 1 - v = 0 := by omega
    rw [e]
    simp [searchLoop, markAll_nil, pathTokens]
  | succ k ih =>
    intro v g out hvk hv1 hv2 hs hedge hall
    by_cases hvn : v ≤ n
    · obtain ⟨node, hnode⟩ := hs.alloc v hv1 hvn
      have hvu := hall v (le_refl _) hvn
      rw [isVisited_of_some hnode] at hvu
      have hnil : node.edgeHead = [] := by
        rw [← edgesOf_of_some hnode]
        exact hedge v
      have hdfs : dfs (fuel + 1) v (g, out) =
          some (g.markAll [v], out ++ pathTokens [v]) := by
        unfold dfs
        simp only [hnode]
        rw [setNode_visited g v node hnode, hnil]
        rfl
      have e : n + 1 - v = (n + 1 - (v + 1)) + 1 := by omega
      unfold searchLoop
      simp only [hnode, hvu, Bool.not_false, if_true, hdfs]
      rw [ih (v + 1) (g.markAll [v]) _ (by omega) (by omega) (by omega) (hs.mark _)
        (fun i => by rw [edgesOf_markAll]; exact hedge i)
        (fun j hj1 hj2 => by
          cases hx : (g.markAll [v]).isVisited j with
          | false => rfl
          | true =>
            rcases (isVisited_markAll g [v] j).mp hx with h3 | h3
            · rw [hall j (by omega) hj2] at h3; exact absurd h3 (by simp)
            · have := List.mem_singleton.mp h3.1
              omega)]
      rw [markAll_markAll, e, List.range'_succ, List.append_assoc, ← pathTokens_concat]
      rfl
    · have hfree := hs.free v (Or.inr (by omega))
      have e : n + 1 - v = 0 := by omega
      rw [e]
      unfold searchLoop
      simp [hfree, markAll_nil, pathTokens]

theorem destsOf_zero (v : Nat) (records : List (Int × Int)) : destsOf 0 v records = [] := by
  unfold destsOf
  have : ∀ r : Int × Int, accepted 0 r = false := by
    intro r
    unfold accepted
    apply decide_eq_false
    omega
  simp [this]

/-- The edge lists of a freshly built graph: for each vertex the accepted
destinations of the records before the sentinel, the last inserted first. -/
theorem buildGraph_edges (nodeCount : Int) (descriptions : Nat → String)
    (pre post : List (Int × Int)) (dest : Int) (hpre : ∀ r ∈ pre, r.1 ≠ 0) (g : GraphL)
    (hb : buildGraph empty nodeCount descriptions (pre ++ (0, dest) :: post) = some g) :
    ∀ v, g.edgesOf v = (destsOf (nodeTotal nodeCount) v pre).reverse := by
  unfold buildGraph at hb
  unfold nodeTotal
  split at hb
  · rename_i hn
    rw [if_pos hn]
    rw [buildLoop_eq_insertAll nodeCount pre post dest hpre] at hb
    have hcast : ((nodeCount.toNat : Nat) : Int) = nodeCount := Int.toNat_of_nonneg (by omega)
    obtain ⟨g2, h2, _, he⟩ := insertAll_spec nodeCount.toNat pre _
      (readNodes_shape nodeCount.toNat (by
        simp only [GRAPHNODELIMIT] at hn ⊢
        omega) descriptions)
    rw [hcast] at h2 he
    rw [hb, Option.some.injEq] at h2
    intro v
    rw [h2, (he v).1, hcast]
    have : (readNodes empty nodeCount.toNat descriptions).edgesOf v = [] := by
      unfold edgesOf
      rw [readNodes_adjList]
      by_cases c : 1 ≤ v ∧ v ≤ nodeCount.toNat
      · rw [if_pos c]
      · rw [if_neg c]
        rfl
    rw [this, List.append_nil]
  · rename_i hn
    rw [if_neg hn]
    rw [Option.some.injEq] at hb
    intro v
    rw [← hb]
    show edgesOf empty v = _
    rw [show ((0 : Nat) : Int) = 0 from rfl, destsOf_zero]
    rfl

end GraphL

theorem cycleGraph_built : ListBuilt 4 cycleGraph :=
  ListBuilt.build 4 (fun _ => "n")
    [(1, 2), (2, 3), (3, 1), (1, 2), (2, 2), (1, 7), (1, 3), (0, 0), (4, 1)] rfl

theorem isolatedGraph_built : ListBuilt 3 isolatedGraph :=
  ListBuilt.build 3 (fun _ => "n") [(0, 0)] rfl

theorem isolatedGraph_edgeless : ∀ i, isolatedGraph.edgesOf i = [] := by
  intro i
  have h := GraphL.buildGraph_edges 3 (fun _ => "n") [] [] 0 (fun r hr => by simp at hr)
    isolatedGraph rfl i
  rw [h]
  rfl

/-- C12. For every list graph of `n` vertices (built from any records, with
cycles and duplicate edges), `depthFirstSearch()` returns and the sequence of
vertex indices it writes is a permutation of `1..n`: each index exactly once
and nothing else. -/
theorem dfs_visits_every_vertex_once (n : Nat) (g : GraphL) (hb : ListBuilt n g)
    (fuel : Nat) (hf : n ≤ fuel) :
    ∃ (g2 : GraphL) (out : List Token) (M : List Nat), GraphL.depthFirstSearch fuel g = some (g2, out) ∧
      intTokens out = M.map Int.ofNat ∧ M.Nodup ∧ M.Perm (List.range' 1 n) := by
  obtain ⟨M, hM, hnd, hmem, hall, _⟩ := GraphL.depthFirstSearch_spec hb.shape fuel hf
  refine ⟨_, _, M, hM, ?_, hnd, ?_⟩
  · rw [intTokens_append, intTokens_append, intTokens_pathTokens]
    simp [intTokens]
  · rw [List.perm_ext_iff_of_nodup hnd (List.nodup_range' 1 n)]
    intro a
    rw [List.mem_range'_1]
    constructor
    · intro ha
      have := hmem a ha
      omega
    · intro ha
      exact hall a ha.1 (by omega)

theorem dfs_visits_every_vertex_once_witness :
    ∃ (g2 : GraphL) (out : List Token) (M : List Nat), GraphL.depthFirstSearch 4 cycleGraph = some (g2, out) ∧
      intTokens out = M.map Int.ofNat ∧ M.Nodup ∧ M.Perm (List.range' 1 4) :=
  dfs_visits_every_vertex_once 4 cycleGraph cycleGraph_built 4 (by decide)

/-- C13. For every list graph of `n` vertices without edges,
`depthFirstSearch()` writes exactly the sequence `1, 2, ..., n`. -/
theorem dfs_edgeless_in_index_order (n : Nat) (g : GraphL) (hb : ListBuilt n g)
    (hedge : ∀ i, g.edgesOf i = []) (fuel : Nat) (hf : 1 ≤ fuel) :
    ∃ (g2 : GraphL) (out : List Token), GraphL.depthFirstSearch fuel g = some (g2, out) ∧
      out = [Token.endl, Token.str "Depth-first ordering: "] ++
        pathTokens (List.range' 1 n) ++ [Token.endl, Token.endl] ∧
      intTokens out = (List.range' 1 n).map Int.ofNat := by
  have hs := hb.shape
  have hreset : GraphL.resetLoop (GRAPHNODELIMIT - 1) 1 g = g.clearAll :=
    GraphL.resetLoop_spec n _ 1 g (by simp [GRAPHNODELIMIT]) (le_refl _) (by omega) hs
      (fun j hj1 hj2 => by omega)
  obtain ⟨f, rfl⟩ : ∃ f, fuel = f + 1 := ⟨fuel - 1, by omega⟩
  have hsearch := GraphL.searchLoop_edgeless n f (GRAPHNODELIMIT - 1) 1 g.clearAll
    [Token.endl, Token.str "Depth-first ordering: "] (by simp [GRAPHNODELIMIT]) (le_refl _)
    (by omega) hs.clear (fun i => by rw [GraphL.edgesOf_clearAll]; exact hedge i)
    (fun j _ _ => GraphL.isVisited_clearAll g j)
  have e : n + 1 - 1 = n := by omega
  rw [e] at hsearch
  refine ⟨g.clearAll.markAll (List.range' 1 n), _, ?_, rfl, ?_⟩
  · unfold GraphL.depthFirstSearch
    rw [hreset, hsearch]
  · rw [intTokens_append, intTokens_append, intTokens_pathTokens]
    simp [intTokens]

set_option maxRecDepth 100000 in
theorem dfs_edgeless_in_index_order_witness :
    ∃ (g2 : GraphL) (out : List Token), GraphL.depthFirstSearch 1 isolatedGraph = some (g2, out) ∧
      out = [Token.endl, Token.str "Depth-first ordering: "] ++
        pathTokens (List.range' 1 3) ++ [Token.endl, Token.endl] ∧
      intTokens out = (List.range' 1 3).map Int.ofNat :=
  dfs_edgeless_in_index_order 3 isolatedGraph isolatedGraph_built isolatedGraph_edgeless 1
    (by decide)

/-- C15. For every list graph of `n` vertices, with cycles and duplicate
edges or not, `depthFirstSearch()` returns (a depth budget of `n` is enough);
a call of `dfs` on an unvisited vertex returns with strictly fewer unvisited
vertices, and the edge loop makes no recursive call on a visited vertex. -/
theorem dfs_terminates (n : Nat) (g : GraphL) (hb : ListBuilt n g) :
    (∀ fuel, n ≤ fuel → ∃ st, GraphL.depthFirstSearch fuel g = some st) ∧
    (∀ (h : GraphL) (fuel v : Nat) (out : List Token), GraphL.Shape h n → 1 ≤ v → v ≤ n →
      h.isVisited v = false → (GraphL.unvisited h n).card ≤ fuel →
      ∃ st, GraphL.dfs fuel v (h, out) = some st ∧
        (GraphL.unvisited st.1 n).card < (GraphL.unvisited h n).card) ∧
    (∀ (recurse : Nat → GraphL × List Token → Option (GraphL × List Token)) (d : Nat)
      (rest : List Nat) (h : GraphL) (out : List Token) (node : GraphNode),
      h.adjList d = some node → node.visited = true →
      GraphL.dfsLoop recurse (d :: rest) (h, out) = GraphL.dfsLoop recurse rest (h, out)) := by
  refine ⟨?_, ?_, ?_⟩
  · intro fuel hf
    obtain ⟨M, hM, _⟩ := GraphL.depthFirstSearch_spec hb.shape fuel hf
    exact ⟨_, hM⟩
  · intro h fuel v out hs hv1 hv2 hvu hcard
    obtain ⟨L2, hL2, _⟩ := GraphL.dfs_spec n fuel h out v hs hv1 hv2 hvu hcard
    exact ⟨_, hL2, GraphL.unvisited_markAll_card_lt hs (v :: L2) v hv1 hv2 hvu
      (List.mem_cons_self _ _)⟩
  · intro recurse d rest h out node hnode hv
    simp only [GraphL.dfsLoop, hnode, hv, Bool.not_true, Bool.false_eq_true, if_false]

theorem dfs_terminates_witness :
    (∀ fuel, 4 ≤ fuel → ∃ st, GraphL.depthFirstSearch fuel cycleGraph = some st) ∧
    (∀ (h : GraphL) (fuel v : Nat) (out : List Token), GraphL.Shape h 4 → 1 ≤ v → v ≤ 4 →
      h.isVisited v = false → (GraphL.unvisited h 4).card ≤ fuel →
      ∃ st, GraphL.dfs fuel v (h, out) = some st ∧
        (GraphL.unvisited st.1 4).card < (GraphL.unvisited h 4).card) ∧
    (∀ (recurse : Nat → GraphL × List Token → Option (GraphL × List Token)) (d : Nat)
      (rest : List Nat) (h : GraphL) (out : List Token) (node : GraphNode),
      h.adjList d = some node → node.visited = true →
      GraphL.dfsLoop recurse (d :: rest) (h, out) = GraphL.dfsLoop recurse rest (h, out)) :=
  dfs_terminates 4 cycleGraph cycleGraph_built

/-! ## `GraphL::insertEdge` -/

/-- C16. For every list graph of `n` vertices and all `source`, `dest` with
`1 <= source,dest <= n` and `source != dest`, `insertEdge(source,dest,n)`
returns true and the edge list of `source` becomes `dest` followed by its
previous contents (one longer, also when `dest` was present already); the
other nodes, all labels and all visited flags are unchanged. -/
theorem list_insertEdge_prepends (n : Nat) (g : GraphL) (hb : ListBuilt n g)
    (source dest : Int) (hs1 : 1 ≤ source) (hs2 : source ≤ n) (hd1 : 1 ≤ dest)
    (hd2 : dest ≤ n) (hne : source ≠ dest) :
    ∃ g2, g.insertEdge source dest n = some (true, g2) ∧
      g2.edgesOf source.toNat = dest.toNat :: g.edgesOf source.toNat ∧
      (g2.edgesOf source.toNat).length = (g.edgesOf source.toNat).length + 1 ∧
      (∀ i, i ≠ source.toNat → g2.adjList i = g.adjList i) ∧
      (∀ i, g2.isVisited i = g.isVisited i) ∧
      (∀ i, (g2.adjList i).map (fun node => node.data) =
        (g.adjList i).map (fun node => node.data)) := by
  obtain ⟨node, hnode⟩ := hb.shape.alloc source.toNat (by omega) (by omega)
  have hins := GraphL.insertEdge_of_accepted g source dest n node
    ⟨by omega, hs2, by omega, hd2, hne⟩ hnode
  have hself : (g.setNode source.toNat
      { node with edgeHead := dest.toNat :: node.edgeHead }).adjList source.toNat =
      some { node with edgeHead := dest.toNat :: node.edgeHead } := by
    show setAt g.adjList source.toNat _ source.toNat = _
    simp [setAt]
  have hother : ∀ i, i ≠ source.toNat → (g.setNode source.toNat
      { node with edgeHead := dest.toNat :: node.edgeHead }).adjList i = g.adjList i := by
    intro i hi
    show setAt g.adjList source.toNat _ i = _
    simp [setAt, hi]
  have hedge : (g.setNode source.toNat
      { node with edgeHead := dest.toNat :: node.edgeHead }).edgesOf source.toNat =
      dest.toNat :: g.edgesOf source.toNat := by
    rw [GraphL.edgesOf_of_some hself, GraphL.edgesOf_of_some hnode]
  refine ⟨_, hins, hedge, by rw [hedge]; rfl, hother, ?_, ?_⟩
  · intro i
    by_cases hi : i = source.toNat
    · rw [hi, GraphL.isVisited_of_some hself, GraphL.isVisited_of_some hnode]
    · unfold GraphL.isVisited
      rw [hother i hi]
  · intro i
    by_cases hi : i = source.toNat
    · rw [hi, hself, hnode]
      rfl
    · rw [hother i hi]

theorem list_insertEdge_prepends_witness :
    ∃ g2, cycleGraph.insertEdge 1 2 (4 : Nat) = some (true, g2) ∧
      g2.edgesOf (1 : Int).toNat = (2 : Int).toNat :: cycleGraph.edgesOf (1 : Int).toNat ∧
      (g2.edgesOf (1 : Int).toNat).length = (cycleGraph.edgesOf (1 : Int).toNat).length + 1 ∧
      (∀ i, i ≠ (1 : Int).toNat → g2.adjList i = cycleGraph.adjList i) ∧
      (∀ i, g2.isVisited i = cycleGraph.isVisited i) ∧
      (∀ i, (g2.adjList i).map (fun node => node.data) =
        (cycleGraph.adjList i).map (fun node => node.data)) :=
  list_insertEdge_prepends 4 cycleGraph cycleGraph_built 1 2 (by decide) (by decide)
    (by decide) (by decide) (by decide)

/-- C17. `GraphL::insertEdge(source,dest,size)` returns false exactly when
`source == dest` or `source` or `dest` is `<= 0` or `> size`; a rejected call
leaves the graph as it is; and no state of a built list graph of `n` vertices
holds a self-loop or an edge to an index outside `1..n`. -/
theorem list_insertEdge_rejects (g : GraphL) (source dest size : Int) :
    ((∃ g2, g.insertEdge source dest size = some (false, g2)) ↔
      (source = dest ∨ source ≤ 0 ∨ source > size ∨ dest ≤ 0 ∨ dest > size)) ∧
    ((source = dest ∨ source ≤ 0 ∨ source > size ∨ dest ≤ 0 ∨ dest > size) →
      g.insertEdge source dest size = some (false, g)) ∧
    (∀ (n : Nat) (gb : GraphL), ListBuilt n gb →
      ∀ v d, d ∈ gb.edgesOf v → d ≠ v ∧ 1 ≤ d ∧ d ≤ n) := by
  have hrej : (source = dest ∨ source ≤ 0 ∨ source > size ∨ dest ≤ 0 ∨ dest > size) →
      g.insertEdge source dest size = some (false, g) := by
    intro h
    exact GraphL.insertEdge_of_rejected g source dest size (by omega)
  refine ⟨⟨?_, fun h => ⟨g, hrej h⟩⟩, hrej, ?_⟩
  · rintro ⟨g2, h2⟩
    by_contra hc
    have hv : source > 0 ∧ source ≤ size ∧ dest > 0 ∧ dest ≤ size ∧ source ≠ dest := by omega
    cases hnode : g.adjList source.toNat with
    | none =>
      unfold GraphL.insertEdge at h2
      simp [decide_eq_true hv, hnode] at h2
    | some node =>
      rw [GraphL.insertEdge_of_accepted g source dest size node hv hnode] at h2
      simp at h2
  · intro n gb hb v d hd
    cases hnode : gb.adjList v with
    | none =>
      unfold GraphL.edgesOf at hd
      rw [hnode] at hd
      simp at hd
    | some node =>
      rw [GraphL.edgesOf_of_some hnode] at hd
      have := hb.shape.edges v node hnode d hd
      exact ⟨this.2.2, this.1, this.2.1⟩

/-! ## The build loop -/

theorem GraphM.buildLoop_eq_foldl (pre post : List (Int × Int × Int)) (dest cost : Int)
    (hpre : ∀ r ∈ pre, r.1 ≠ 0) :
    ∀ g, GraphM.buildLoop g (pre ++ (0, dest, cost) :: post) =
      some (pre.foldl (fun h r => (h.insertEdge r.1 r.2.1 r.2.2).2) g) := by
  induction pre with
  | nil =>
    intro g
    simp [GraphM.buildLoop]
  | cons r rest ih =>
    intro g
    obtain ⟨s, d, c⟩ := r
    have hs : s ≠ 0 := hpre (s, d, c) (List.mem_cons_self _ _)
    have hrest : ∀ r ∈ rest, r.1 ≠ 0 := fun r hr => hpre r (List.mem_cons_of_mem _ hr)
    simp only [List.cons_append, GraphM.buildLoop, ne_eq, hs, not_false_eq_true, if_true,
      List.foldl_cons]
    exact ih hrest _

/-- C18. For a valid vertex count (1..100) and any edge records with a first
record of source field `0`: `buildGraph` returns the graph obtained from the
freshly created vertices by applying `insertEdge`, in order, to exactly the
records before that sentinel, for the matrix graph and for the list graph;
the sentinel and what follows it play no part, a rejected record leaves the
graph as it is, and the records after a rejected one are still inserted. -/
theorem buildGraph_stops_at_sentinel (nodeCount : Int)
    (hn : 0 < nodeCount ∧ nodeCount < 101)
    (descriptions : Nat → String)
    (preM postM : List (Int × Int × Int)) (destM costM : Int)
    (hpreM : ∀ r ∈ preM, r.1 ≠ 0)
    (preL postL : List (Int × Int)) (destL : Int)
    (hpreL : ∀ r ∈ preL, r.1 ≠ 0) :
    (∀ g : GraphM,
      GraphM.buildGraph g nodeCount descriptions (preM ++ (0, destM, costM) :: postM) =
        some (preM.foldl (fun h r => (h.insertEdge r.1 r.2.1 r.2.2).2)
          (GraphM.readNodes { g with size := nodeCount.toNat } descriptions))) ∧
    (∀ g : GraphL,
      GraphL.buildGraph g nodeCount descriptions (preL ++ (0, destL) :: postL) =
        GraphL.insertAll nodeCount (GraphL.readNodes g nodeCount.toNat descriptions) preL) ∧
    (∃ gl, GraphL.buildGraph GraphL.empty nodeCount descriptions
      (preL ++ (0, destL) :: postL) = some gl) ∧
    (∀ (h : GraphM) (s d c : Int), (h.insertEdge s d c).1 = false →
      (h.insertEdge s d c).2 = h) ∧
    (∀ (h : GraphL) (s d : Int), ¬ (s > 0 ∧ s ≤ nodeCount ∧ d > 0 ∧ d ≤ nodeCount ∧ s ≠ d) →
      h.insertEdge s d nodeCount = some (false, h)) := by
  have hvM : nodeCount > 0 ∧ nodeCount < (NODELIMIT : Int) := by
    simp only [NODELIMIT]
    omega
  have hvL : nodeCount > 0 ∧ nodeCount < (GRAPHNODELIMIT : Int) := by
    simp only [GRAPHNODELIMIT]
    omega
  have hL : ∀ g : GraphL,
      GraphL.buildGraph g nodeCount descriptions (preL ++ (0, destL) :: postL) =
        GraphL.insertAll nodeCount (GraphL.readNodes g nodeCount.toNat descriptions) preL := by
    intro g
    unfold GraphL.buildGraph
    rw [if_pos hvL]
    exact GraphL.buildLoop_eq_insertAll nodeCount preL postL destL hpreL _
  refine ⟨?_, hL, ?_, fun h s d c => GraphM.insertEdge_snd_of_false h s d c,
    fun h s d hv => GraphL.insertEdge_of_rejected h s d nodeCount hv⟩
  · intro g
    unfold GraphM.buildGraph
    rw [if_pos hvM]
    exact GraphM.buildLoop_eq_foldl preM postM destM costM hpreM _
  · have hcast : ((nodeCount.toNat : Nat) : Int) = nodeCount := Int.toNat_of_nonneg (by omega)
    obtain ⟨g2, h2, _⟩ := GraphL.insertAll_spec nodeCount.toNat preL _
      (GraphL.readNodes_shape nodeCount.toNat (by
        simp only [GRAPHNODELIMIT]
        omega) descriptions)
    rw [hcast] at h2
    exact ⟨g2, by rw [hL]; exact h2⟩

set_option maxRecDepth 100000 in
theorem buildGraph_stops_at_sentinel_witness :
    (∀ g : GraphM,
      GraphM.buildGraph g 2 (fun _ => "n")
          ([(1, 1, 5), (1, 2, 5)] ++ (0, 9, 9) :: [(2, 1, 3)]) =
        some (List.foldl (fun h r => (h.insertEdge r.1 r.2.1 r.2.2).2)
          (GraphM.readNodes { g with size := (2 : Int).toNat } (fun _ => "n"))
          [(1, 1, 5), (1, 2, 5)])) ∧
    (∀ g : GraphL,
      GraphL.buildGraph g 2 (fun _ => "n") ([(2, 2), (2, 1)] ++ (0, 9) :: [(1, 2)]) =
        GraphL.insertAll 2 (GraphL.readNodes g (2 : Int).toNat (fun _ => "n"))
          [(2, 2), (2, 1)]) ∧
    (∃ gl, GraphL.buildGraph GraphL.empty 2 (fun _ => "n")
      ([(2, 2), (2, 1)] ++ (0, 9) :: [(1, 2)]) = some gl) ∧
    (∀ (h : GraphM) (s d c : Int), (h.insertEdge s d c).1 = false →
      (h.insertEdge s d c).2 = h) ∧
    (∀ (h : GraphL) (s d : Int), ¬ (s > 0 ∧ s ≤ 2 ∧ d > 0 ∧ d ≤ 2 ∧ s ≠ d) →
      h.insertEdge s d 2 = some (false, h)) :=
  buildGraph_stops_at_sentinel 2 (by decide) (fun _ => "n") [(1, 1, 5), (1, 2, 5)] [(2, 1, 3)]
    9 9 (by decide) [(2, 2), (2, 1)] [(1, 2)] 9 (by decide)

/-! ## Weights at the edge of the `int` range -/

set_option maxRecDepth 100000 in
/-- C19 (the code departs from the claim). On the two-vertex graph with the
edge (1,2,5), `insertEdge(1,2,2147483647)` is accepted and returns true, yet
the value it stores is the sentinel `INT_MAX`: `findShortestPath` then reads
the cell as "no edge", the distance from 1 to 2 is infinite where it was 5
before, and `displayFrom` writes the "no path" line. -/
theorem insertEdge_accepts_sentinel_weight :
    (pairGraph.findShortestPath.T 1 2).dist = 5 ∧
    (pairGraph.insertEdge 1 2 2147483647).1 = true ∧
    (pairGraph.insertEdge 1 2 2147483647).2.C 1 2 = INT_MAX ∧
    ((pairGraph.insertEdge 1 2 2147483647).2.findShortestPath.T 1 2).dist = INT_MAX ∧
    (GraphM.displayFromStep 2 1 2
      (some ((pairGraph.insertEdge 1 2 2147483647).2.findShortestPath, []))).map
        (fun r => r.2) =
      some [Token.int 1, Token.int 2, Token.str "----", Token.endl] := by
  decide

theorem forLoop_split {σ : Type} (body : Nat → σ → σ) (i a b : Nat) (s : σ) :
    forLoop body i (a + b) s = forLoop body (i + a) b (forLoop body i a s) := by
  induction b with
  | zero => rfl
  | succ b ih =>
    rw [← Nat.add_assoc, forLoop_succ_last, forLoop_succ_last, ih]
    rw [Nat.add_assoc]

namespace GraphM

/-- The state at the start of a round of the source loop. -/
theorem sourceState_spec (g : GraphM) (hwf : WellFormed g) (hno : NoOverflow g) (k : Nat)
    (hk : k ≤ g.size) :
    (g.sourceState k).C = g.C ∧ (g.sourceState k).size = g.size ∧
    (∀ i, ((g.sourceState k).T i 0).dist = INT_MAX) ∧
    (∀ a b, k + 1 ≤ a → 1 ≤ b → b ≤ g.size → a ≤ g.size →
      (g.sourceState k).T a b = { visited := false, dist := INT_MAX, path := 0 }) := by
  obtain ⟨rC, rsz, _, _, rT⟩ := resetTable_spec g
  have key := forLoop_inv sourceStep
    (fun m h => m ≤ g.size + 1 → (h.C = g.C ∧ h.size = g.size ∧
      (∀ i, (h.T i 0).dist = INT_MAX) ∧
      (∀ a b, m ≤ a → h.T a b = (resetTable g).T a b)))
    1 k (resetTable g)
    (fun _ => ⟨rC, rsz, fun i => by
        rw [rT, if_neg (by omega)]
        exact hwf.col0 i, fun _ _ _ => rfl⟩)
    (by
      intro m h hm1 hm2 hP hm3
      obtain ⟨hC, hsz, hcol, hrest⟩ := hP (by omega)
      have hm4 : m ≤ g.size := by omega
      obtain ⟨sC, ssz, _, _, srows, ssent, _, _⟩ := sourceStep_spec h m
        (by rw [hC, hsz]; exact hwf.diag) (by rw [hC, hsz]; exact hwf.pos)
        (hno.transfer hC hsz) hm1 (by rw [hsz]; exact hm4) (hcol m)
        (by
          intro j hj1 hj2
          rw [hsz] at hj2
          rw [hrest m j (le_refl _), rT, if_pos ⟨hm1, hm4, hj1, hj2⟩])
      refine ⟨sC.trans hC, ssz.trans hsz, ?_, ?_⟩
      · intro i
        by_cases him : i = m
        · rw [him]; exact ssent
        · rw [srows i 0 him]; exact hcol i
      · intro a b hab
        rw [srows a b (by omega)]
        exact hrest a b (by omega))
  obtain ⟨hC, hsz, hcol, hrest⟩ := key (by omega)
  refine ⟨hC, hsz, hcol, ?_⟩
  intro a b ha hb1 hb2 ha2
  have := hrest a b (by omega)
  unfold sourceState
  rw [this, rT, if_pos ⟨by omega, ha2, hb1, hb2⟩]

/-- The state at the start of a pass of the `while` loop satisfies the
invariant of Dijkstra's algorithm. -/
theorem visitState_spec (g : GraphM) (hwf : WellFormed g) (hno : NoOverflow g) (k m : Nat)
    (hk : k < g.size) :
    (g.visitState k m).C = g.C ∧ (g.visitState k m).size = g.size ∧
    RowInv g.C g.size (k + 1) ((g.visitState k m).T (k + 1)) := by
  obtain ⟨sC, ssz, scol, sinit⟩ := sourceState_spec g hwf hno k (by omega)
  have hs0 : k + 1 ≠ 0 := by omega
  have hInv1 : RowInv g.C g.size (k + 1) (((g.sourceState k).initSource (k + 1)).T (k + 1)) := by
    refine rowInv_init g.C g.size (k + 1) _ ?_ ?_ ?_
    · show (setCell (g.sourceState k).T (k + 1) (k + 1) _ (k + 1) 0).dist = INT_MAX
      unfold setCell
      rw [if_neg (fun h0 => hs0 h0.2.symm)]
      exact scol (k + 1)
    · show setCell (g.sourceState k).T (k + 1) (k + 1) _ (k + 1) (k + 1) = _
      simp [setCell, sinit (k + 1) (k + 1) (le_refl _) (by omega) (by omega) (by omega)]
    · intro j hj1 hj2 hjs
      show setCell (g.sourceState k).T (k + 1) (k + 1) _ (k + 1) j = _
      simp [setCell, hjs, sinit (k + 1) j (le_refl _) hj1 hj2 (by omega)]
  have key := forLoop_inv (fun _ h => visitStep (k + 1) h)
    (fun _ h => h.C = g.C ∧ h.size = g.size ∧ RowInv g.C g.size (k + 1) (h.T (k + 1)))
    0 m ((g.sourceState k).initSource (k + 1)) ⟨sC, ssz, hInv1⟩
    (by
      intro i h _ _ ⟨hC, hsz, hInv⟩
      obtain ⟨fC, fsz, _⟩ := visitStep_spec h (k + 1)
      have hstep := visitStep_rowInv h (k + 1) (by rw [hC, hsz]; exact hwf.diag)
        (by rw [hC, hsz]; exact hwf.pos) (hno.transfer hC hsz) (by omega)
        (by rw [hsz]; omega) (by rw [hC, hsz]; exact hInv)
      rw [hC, hsz] at hstep
      exact ⟨fC.trans hC, fsz.trans hsz, hstep.1⟩)
  exact key

/-- While `setW(source, v)` runs, the cost matrix, the cell of `v` and the
cells not yet reached are as at its start. -/
theorem relaxState_spec (g : GraphM) (k m j : Nat) :
    (g.relaxState k m j).C = (g.visitState k m).C ∧
    ((g.relaxState k m j).T (k + 1) (g.relaxVertex k m)).dist =
      ((g.visitState k m).T (k + 1) (g.relaxVertex k m)).dist ∧
    ∀ b, j + 1 ≤ b → (g.relaxState k m j).T (k + 1) b =
      ((g.visitState k m).markVisited (k + 1) (g.relaxVertex k m)).T (k + 1) b := by
  have hvis : (((g.visitState k m).markVisited (k + 1) (g.relaxVertex k m)).T (k + 1)
      (g.relaxVertex k m)).visited = true := by
    simp [markVisited_T]
  have key := forLoop_inv (setWStep (k + 1) (g.relaxVertex k m))
    (fun i h => h.C = (g.visitState k m).C ∧
      h.T (k + 1) (g.relaxVertex k m) =
        ((g.visitState k m).markVisited (k + 1) (g.relaxVertex k m)).T (k + 1)
          (g.relaxVertex k m) ∧
      ∀ b, i ≤ b → h.T (k + 1) b =
        ((g.visitState k m).markVisited (k + 1) (g.relaxVertex k m)).T (k + 1) b)
    1 j ((g.visitState k m).markVisited (k + 1) (g.relaxVertex k m))
    ⟨rfl, rfl, fun _ _ => rfl⟩
    (by
      intro i h _ _ ⟨hC, hv, hrest⟩
      refine ⟨(setWStep_frame _ _ _ h).1.trans hC, ?_, ?_⟩
      · rw [← hv]
        by_cases hiv : g.relaxVertex k m = i
        · rw [← hiv, setWStep_of_visited _ _ _ h (by rw [hv]; exact hvis)]
        · rw [setWStep_T_other _ _ _ h _ _ (fun hc => hiv hc.2)]
      · intro b hb
        rw [setWStep_T_other _ _ _ h _ _ (fun hc => by omega)]
        exact hrest b (by omega))
  obtain ⟨hC, hv, hrest⟩ := key
  refine ⟨hC, ?_, fun b hb => hrest b (by omega)⟩
  have e : (g.relaxState k m j).T (k + 1) (g.relaxVertex k m) =
      ((g.visitState k m).markVisited (k + 1) (g.relaxVertex k m)).T (k + 1)
        (g.relaxVertex k m) := hv
  rw [e]
  simp [markVisited_T]

end GraphM

namespace GraphM

theorem sourceStep_size (s : Nat) (z : GraphM) : (sourceStep s z).size = z.size :=
  forLoop_inv (fun _ x => visitStep s x) (fun _ x => x.size = z.size) 0 z.size
    (z.initSource s) rfl (fun _ t _ _ ht => (visitStep_spec t s).2.1.trans ht)

theorem sourceState_size (g : GraphM) (k : Nat) : (g.sourceState k).size = g.size :=
  forLoop_inv sourceStep (fun _ x => x.size = g.size) 1 k (resetTable g)
    (resetTable_spec g).2.1 (fun i t _ _ ht => (sourceStep_size i t).trans ht)

theorem visitState_size (g : GraphM) (k m : Nat) : (g.visitState k m).size = g.size :=
  forLoop_inv (fun _ x => visitStep (k + 1) x) (fun _ x => x.size = g.size) 0 m
    ((g.sourceState k).initSource (k + 1)) (sourceState_size g k)
    (fun _ t _ _ ht => (visitStep_spec t (k + 1)).2.1.trans ht)

theorem forLoop_peel {σ : Type} (body : Nat → σ → σ) (i a n : Nat) (s : σ) (ha : a < n) :
    forLoop body i n s =
      forLoop body (i + a + 1) (n - (a + 1)) (body (i + a) (forLoop body i a s)) := by
  have e : n = a + ((n - (a + 1)) + 1) := by omega
  conv_lhs => rw [e]
  rw [forLoop_split]
  rfl

/-- When `findShortestPath` recomputes the table it passes through the state
`relaxState g k m j`: there the round `w = j + 1` of `setW` is run, and the
three loops then run to their ends. -/
theorem findShortestPath_through_relaxState (g : GraphM) (hp : g.pathed = false)
    (k m j : Nat) (hk : k < g.size) (hm : m < g.size) (hj : j < g.size) :
    g.findShortestPath =
      { forLoop sourceStep (k + 2) (g.size - (k + 1))
          (forLoop (fun _ h => visitStep (k + 1) h) (m + 1) (g.size - (m + 1))
            (forLoop (setWStep (k + 1) (g.relaxVertex k m)) (j + 2) (g.size - (j + 1))
              (setWStep (k + 1) (g.relaxVertex k m) (j + 1) (g.relaxState k m j))))
        with pathed := true } := by
  rw [findShortestPath_of_not_pathed g hp]
  have hA := forLoop_peel sourceStep 1 k g.size (resetTable g) hk
  have hB : sourceStep (k + 1) (g.sourceState k) =
      forLoop (fun _ h => visitStep (k + 1) h) (0 + m + 1) (g.size - (m + 1))
        (visitStep (k + 1) (g.visitState k m)) := by
    have h1 := forLoop_peel (fun _ h => visitStep (k + 1) h) 0 m g.size
      ((g.sourceState k).initSource (k + 1)) hm
    have h2 : sourceStep (k + 1) (g.sourceState k) =
        forLoop (fun _ h => visitStep (k + 1) h) 0 g.size
          ((g.sourceState k).initSource (k + 1)) := by
      have e : ((g.sourceState k).initSource (k + 1)).size = g.size := sourceState_size g k
      unfold sourceStep
      simp only [e]
    exact h2.trans h1
  have hC : visitStep (k + 1) (g.visitState k m) =
      forLoop (setWStep (k + 1) (g.relaxVertex k m)) (1 + j + 1) (g.size - (j + 1))
        (setWStep (k + 1) (g.relaxVertex k m) (1 + j) (g.relaxState k m j)) := by
    have h1 := forLoop_peel (setWStep (k + 1) (g.relaxVertex k m)) 1 j g.size
      ((g.visitState k m).markVisited (k + 1) (g.relaxVertex k m)) hj
    have h2 : visitStep (k + 1) (g.visitState k m) =
        forLoop (setWStep (k + 1) (g.relaxVertex k m)) 1 g.size
          ((g.visitState k m).markVisited (k + 1) (g.relaxVertex k m)) := by
      have e : ((g.visitState k m).markVisited (k + 1) (g.relaxVertex k m)).size = g.size :=
        visitState_size g k m
      show forLoop (setWStep (k + 1) (g.relaxVertex k m)) 1
        ((g.visitState k m).markVisited (k + 1) (g.relaxVertex k m)).size _ = _
      rw [e]
      rfl
    exact h2.trans h1
  rw [hA]
  have e1 : forLoop sourceStep 1 k (resetTable g) = g.sourceState k := rfl
  rw [e1, Nat.add_comm 1 k, hB, hC]
  have e2 : k + 1 + 1 = k + 2 := by omega
  have e3 : 0 + m + 1 = m + 1 := by omega
  have e4 : 1 + j + 1 = j + 2 := by omega
  have e5 : 1 + j = j + 1 := by omega
  rw [e2, e3, e4, e5]

end GraphM

set_option maxRecDepth 100000 in
/-- C20, as stated, fails. On the graph of three vertices with the accepted
edges (1,2,2147483646) and (2,3,2147483646), the second pass of the `while`
loop for source 1 selects `v = 2`, and for `w = 3` the guard of `setW` holds
with both operands finite, but the exact sum 2147483646 + 2147483646 exceeds
`INT_MAX`; the distance stored for the pair (1,3) is the wrapped value -4. -/
theorem relaxation_sum_overflows :
    (overflowGraph.insertEdge 1 2 2147483646).1 = true ∧
    (overflowGraph.insertEdge 2 3 2147483646).1 = true ∧
    overflowGraph.relaxVertex 0 1 = 2 ∧
    ((overflowGraph.relaxState 0 1 2).T 1 3).visited = false ∧
    (overflowGraph.relaxState 0 1 2).C 2 3 < INT_MAX ∧
    ((overflowGraph.relaxState 0 1 2).T 1 2).dist < INT_MAX ∧
    INT_MAX < ((overflowGraph.relaxState 0 1 2).T 1 2).dist +
      (overflowGraph.relaxState 0 1 2).C 2 3 ∧
    (overflowGraph.findShortestPath.T 1 3).dist = -4 := by
  decide

/-- C20, amended. In every state of a built graph, whenever a round of `setW`
inside `findShortestPath` evaluates the sum `T[source][v].dist + C[v][w]`,
neither operand is the sentinel `INT_MAX`; and when the total cost of every
directed path without repeated vertex is below `INT_MAX`, the exact sum lies
in `0 .. INT_MAX - 1`, so it fits a 32-bit `int` and is stored unchanged. -/
theorem relaxation_sum_in_range (g : GraphM) (hb : Built g) (k m j : Nat)
    (hk : k < g.size) (hj : j < g.size)
    (hguard : (g.relaxState k m j).sumEvaluated (k + 1) (g.relaxVertex k m) (j + 1)) :
    ((g.relaxState k m j).T (k + 1) (g.relaxVertex k m)).dist ≠ INT_MAX ∧
    (g.relaxState k m j).C (g.relaxVertex k m) (j + 1) ≠ INT_MAX ∧
    (NoOverflow g →
      0 ≤ ((g.relaxState k m j).T (k + 1) (g.relaxVertex k m)).dist +
          (g.relaxState k m j).C (g.relaxVertex k m) (j + 1) ∧
      ((g.relaxState k m j).T (k + 1) (g.relaxVertex k m)).dist +
          (g.relaxState k m j).C (g.relaxVertex k m) (j + 1) < INT_MAX ∧
      wrap32 (((g.relaxState k m j).T (k + 1) (g.relaxVertex k m)).dist +
          (g.relaxState k m j).C (g.relaxVertex k m) (j + 1)) =
        ((g.relaxState k m j).T (k + 1) (g.relaxVertex k m)).dist +
          (g.relaxState k m j).C (g.relaxVertex k m) (j + 1)) := by
  obtain ⟨hgw, hgc, hgv⟩ := hguard
  refine ⟨ne_of_lt hgv, ne_of_lt hgc, ?_⟩
  intro hno
  have hwf := hb.wellFormed
  obtain ⟨vC, vsz, vInv⟩ := GraphM.visitState_spec g hwf hno k m hk
  obtain ⟨xC, xv, xrest⟩ := GraphM.relaxState_spec g k m j
  have hvle : g.relaxVertex k m ≤ g.size := by
    have := GraphM.findV_le (g.visitState k m) (k + 1)
    rw [vsz] at this
    exact this
  rw [xv] at hgv ⊢
  rw [xC, vC] at hgc ⊢
  have hv0 : g.relaxVertex k m ≠ 0 := by
    intro h0
    rw [h0, vInv.sentinel] at hgv
    exact absurd hgv (lt_irrefl _)
  rw [xrest (j + 1) (le_refl _), GraphM.markVisited_T] at hgw
  have hne : j + 1 ≠ g.relaxVertex k m := by
    intro hc
    rw [if_pos ⟨rfl, hc⟩] at hgw
    simp at hgw
  rw [if_neg (fun hc => hne hc.2)] at hgw
  have hlt := GraphM.relax_sum_lt (g.visitState k m) (k + 1) (g.relaxVertex k m) (j + 1)
    (by rw [vC, vsz]; exact hwf.pos) (hno.transfer vC vsz) (by omega) (by rw [vsz]; omega)
    (by rw [vC, vsz]; exact vInv) (by omega) (by rw [vsz]; exact hvle) hgv (by omega)
    (by rw [vsz]; omega) hne hgw (by rw [vC]; exact hgc)
  rw [vC] at hlt
  have h0 := (vInv.range (g.relaxVertex k m) (by omega) hvle).1
  have hc := hwf.pos (g.relaxVertex k m) (j + 1) (by omega) hvle (by omega) (by omega)
    (fun e => hne e.symm)
  exact ⟨by omega, hlt, wrap32_of_range _ (by omega) hlt⟩

set_option maxRecDepth 100000 in
theorem relaxation_sum_in_range_witness :
    (scenarioGraph.relaxState 0 1 2).sumEvaluated 1 (scenarioGraph.relaxVertex 0 1) 3 ∧
    ((scenarioGraph.relaxState 0 1 2).T 1 (scenarioGraph.relaxVertex 0 1)).dist ≠ INT_MAX ∧
    (scenarioGraph.relaxState 0 1 2).C (scenarioGraph.relaxVertex 0 1) 3 ≠ INT_MAX ∧
    (NoOverflow scenarioGraph →
      0 ≤ ((scenarioGraph.relaxState 0 1 2).T 1 (scenarioGraph.relaxVertex 0 1)).dist +
          (scenarioGraph.relaxState 0 1 2).C (scenarioGraph.relaxVertex 0 1) 3 ∧
      ((scenarioGraph.relaxState 0 1 2).T 1 (scenarioGraph.relaxVertex 0 1)).dist +
          (scenarioGraph.relaxState 0 1 2).C (scenarioGraph.relaxVertex 0 1) 3 < INT_MAX ∧
      wrap32 (((scenarioGraph.relaxState 0 1 2).T 1 (scenarioGraph.relaxVertex 0 1)).dist +
          (scenarioGraph.relaxState 0 1 2).C (scenarioGraph.relaxVertex 0 1) 3) =
        ((scenarioGraph.relaxState 0 1 2).T 1 (scenarioGraph.relaxVertex 0 1)).dist +
          (scenarioGraph.relaxState 0 1 2).C (scenarioGraph.relaxVertex 0 1) 3) :=
  ⟨⟨by decide, by decide, by decide⟩,
    relaxation_sum_in_range scenarioGraph scenarioGraph_built 0 1 2 (by decide) (by decide)
      ⟨by decide, by decide, by decide⟩⟩

/-! ## The vertex selected by `findV` while the table is recomputed -/

theorem wrap32_le (x : Int) : wrap32 x ≤ INT_MAX := by
  unfold wrap32 INT_MAX
  omega

theorem pairGraph_built : Built pairGraph :=
  Built.build 2 (fun i => if i = 1 then "A" else "B") [(1, 2, 5), (0, 0, 0)] rfl

namespace GraphM

/-- Column 0 of the table keeps its distance through a pass of the `while`
loop. -/
theorem visitStep_col0 (g : GraphM) (s a : Nat) :
    ((visitStep s g).T a 0).dist = (g.T a 0).dist := by
  by_cases ha : a = s
  · rw [ha]
    exact (visitStep_T_row_outside g s 0 (by omega)).1
  · rw [visitStep_T_other_row g s a 0 ha]

/-- The state at the start of a round of the source loop, without any
assumption on the weights: column 0 and the rows not yet treated are as the
clearing loops left them. -/
theorem sourceState_frame (g : GraphM) (k : Nat) (hk : k ≤ g.size) :
    (g.sourceState k).C = g.C ∧
    (∀ a, ((g.sourceState k).T a 0).dist = (g.T a 0).dist) ∧
    (∀ a b, k + 1 ≤ a → (g.sourceState k).T a b = (resetTable g).T a b) := by
  obtain ⟨rC, rsz, _, _, rT⟩ := resetTable_spec g
  have key := forLoop_inv sourceStep
    (fun m h => m ≤ g.size + 1 → (h.C = g.C ∧ h.size = g.size ∧
      (∀ a, (h.T a 0).dist = (g.T a 0).dist) ∧
      (∀ a b, m ≤ a → h.T a b = (resetTable g).T a b)))
    1 k (resetTable g)
    (fun _ => ⟨rC, rsz, fun a => by rw [rT, if_neg (by omega)], fun _ _ _ => rfl⟩)
    (by
      intro m h hm1 hm2 hP hm3
      obtain ⟨hC, hsz, hcol, hrest⟩ := hP (by omega)
      obtain ⟨sC, ssz, _, _, srows, sout⟩ := sourceStep_frame h m hm1 (by rw [hsz]; omega)
      refine ⟨sC.trans hC, ssz.trans hsz, ?_, ?_⟩
      · intro a
        by_cases ham : a = m
        · rw [ham, (sout 0 (by omega)).1]
          exact hcol m
        · rw [srows a 0 ham]
          exact hcol a
      · intro a b hab
        rw [srows a b (by omega)]
        exact hrest a b (by omega))
  obtain ⟨hC, _, hcol, hrest⟩ := key (by omega)
  exact ⟨hC, hcol, fun a b hab => hrest a b (by omega)⟩

/-- The state at the start of a pass of the `while` loop, without any
assumption on the weights: the sentinel cell `T[source][0]` holds `INT_MAX`
and no distance of the row exceeds it. -/
theorem visitState_bounds (g : GraphM) (hwf : WellFormed g) (k m : Nat) (hk : k < g.size) :
    ((g.visitState k m).T (k + 1) 0).dist = INT_MAX ∧
    ∀ i, 1 ≤ i → i ≤ g.size → ((g.visitState k m).T (k + 1) i).dist ≤ INT_MAX := by
  obtain ⟨_, scol, srest⟩ := sourceState_frame g k (by omega)
  obtain ⟨_, _, _, _, rT⟩ := resetTable_spec g
  have key := forLoop_inv (fun _ h => visitStep (k + 1) h)
    (fun _ h => h.size = g.size ∧ (h.T (k + 1) 0).dist = INT_MAX ∧
      ∀ i, 1 ≤ i → i ≤ g.size → (h.T (k + 1) i).dist ≤ INT_MAX)
    0 m ((g.sourceState k).initSource (k + 1))
    ⟨sourceState_size g k, by
        show (setCell (g.sourceState k).T (k + 1) (k + 1) _ (k + 1) 0).dist = INT_MAX
        unfold setCell
        rw [if_neg (by omega), scol]
        exact hwf.col0 (k + 1), by
        intro i hi1 hi2
        show (setCell (g.sourceState k).T (k + 1) (k + 1) _ (k + 1) i).dist ≤ INT_MAX
        unfold setCell
        by_cases c : k + 1 = k + 1 ∧ i = k + 1
        · rw [if_pos c]
          simp [INT_MAX]
        · rw [if_neg c, srest (k + 1) i (le_refl _), rT, if_pos ⟨by omega, by omega, hi1, hi2⟩]⟩
    (by
      intro _ h _ _ ⟨hsz, hcol, hle⟩
      refine ⟨(visitStep_spec h (k + 1)).2.1.trans hsz, ?_, ?_⟩
      · rw [visitStep_col0]
        exact hcol
      · intro i hi1 hi2
        by_cases hne : i = h.findV (k + 1)
        · rw [hne, visitStep_T_self]
          rw [← hne]
          exact hle i hi1 hi2
        · rw [visitStep_T_other h (k + 1) i hi1 (by rw [hsz]; exact hi2) hne]
          split
          · exact wrap32_le _
          · exact hle i hi1 hi2)
  exact ⟨key.2.1, key.2.2⟩

/-- With the sentinel in `T[source][0]`, `setW(source, 0)` changes nothing. -/
theorem setW_zero_noop (g : GraphM) (s : Nat) (h0 : (g.T s 0).dist = INT_MAX) :
    setW g s 0 = g := by
  unfold setW
  exact forLoop_inv (setWStep s 0) (fun _ h => h = g) 1 g.size g rfl
    (by
      intro w h _ _ hh
      rw [hh]
      unfold setWStep
      rw [if_neg (fun c => by
        have := c.2.2
        rw [h0] at this
        exact lt_irrefl _ this)])

end GraphM

/-- C21. In the state in which any pass of the `while` loop of
`findShortestPath` starts (source `k + 1`, `numVisits = m`) on a built graph:
no distance of the row exceeds `INT_MAX`, so "finite" is "below `INT_MAX`";
`findV(source)` returns 0 exactly when no unvisited vertex of `1..size` has a
finite distance; otherwise it returns an unvisited vertex of `1..size` of
finite distance, minimal over the unvisited vertices and of lowest index among
those of minimal distance; and when it returns 0 the following
`setW(source, 0)` leaves the state, hence every entry of `T`, as it is. -/
theorem findV_selects_minimum (g : GraphM) (hb : Built g) (k m : Nat) (hk : k < g.size) :
    (∀ i, 1 ≤ i → i ≤ g.size → ((g.visitState k m).T (k + 1) i).dist ≤ INT_MAX) ∧
    (g.relaxVertex k m = 0 ↔
      ∀ i, 1 ≤ i → i ≤ g.size → ((g.visitState k m).T (k + 1) i).visited = false →
        ¬ ((g.visitState k m).T (k + 1) i).dist < INT_MAX) ∧
    (g.relaxVertex k m ≠ 0 →
      1 ≤ g.relaxVertex k m ∧ g.relaxVertex k m ≤ g.size ∧
      ((g.visitState k m).T (k + 1) (g.relaxVertex k m)).visited = false ∧
      ((g.visitState k m).T (k + 1) (g.relaxVertex k m)).dist < INT_MAX ∧
      ∀ i, 1 ≤ i → i ≤ g.size → ((g.visitState k m).T (k + 1) i).visited = false →
        ((g.visitState k m).T (k + 1) (g.relaxVertex k m)).dist ≤
            ((g.visitState k m).T (k + 1) i).dist ∧
        (i < g.relaxVertex k m →
          ((g.visitState k m).T (k + 1) (g.relaxVertex k m)).dist <
            ((g.visitState k m).T (k + 1) i).dist)) ∧
    (g.relaxVertex k m = 0 →
      GraphM.setW ((g.visitState k m).markVisited (k + 1) 0) (k + 1) 0 =
        (g.visitState k m).markVisited (k + 1) 0) := by
  obtain ⟨h0, hle⟩ := GraphM.visitState_bounds g hb.wellFormed k m hk
  have hsz := GraphM.visitState_size g k m
  have hspec := GraphM.findV_spec (g.visitState k m) (k + 1)
  rw [h0, hsz] at hspec
  have hv : g.relaxVertex k m = (g.visitState k m).findV (k + 1) := rfl
  refine ⟨hle, ?_, ?_, ?_⟩
  · constructor
    · intro hz
      rcases hspec with ⟨_, hall⟩ | ⟨h1, _⟩
      · exact hall
      · rw [← hv] at h1
        omega
    · intro hall
      rcases hspec with ⟨hz, _⟩ | ⟨h1, h2, hu, hf, _⟩
      · exact hz
      · exact absurd hf (hall _ h1 h2 hu)
  · intro hnz
    rcases hspec with ⟨hz, _⟩ | h
    · exact absurd hz hnz
    · exact h
  · intro _
    apply GraphM.setW_zero_noop
    rw [GraphM.markVisited_T]
    split
    · exact h0
    · exact h0

set_option maxRecDepth 100000 in
theorem findV_selects_minimum_witness :
    1 < pairGraph.size ∧ pairGraph.relaxVertex 1 0 = 2 ∧ pairGraph.relaxVertex 1 1 = 0 ∧
    ((∀ i, 1 ≤ i → i ≤ pairGraph.size → ((pairGraph.visitState 1 1).T (1 + 1) i).dist ≤ INT_MAX) ∧
    (pairGraph.relaxVertex 1 1 = 0 ↔
      ∀ i, 1 ≤ i → i ≤ pairGraph.size → ((pairGraph.visitState 1 1).T (1 + 1) i).visited = false →
        ¬ ((pairGraph.visitState 1 1).T (1 + 1) i).dist < INT_MAX) ∧
    (pairGraph.relaxVertex 1 1 ≠ 0 →
      1 ≤ pairGraph.relaxVertex 1 1 ∧ pairGraph.relaxVertex 1 1 ≤ pairGraph.size ∧
      ((pairGraph.visitState 1 1).T (1 + 1) (pairGraph.relaxVertex 1 1)).visited = false ∧
      ((pairGraph.visitState 1 1).T (1 + 1) (pairGraph.relaxVertex 1 1)).dist < INT_MAX ∧
      ∀ i, 1 ≤ i → i ≤ pairGraph.size →
        ((pairGraph.visitState 1 1).T (1 + 1) i).visited = false →
        ((pairGraph.visitState 1 1).T (1 + 1) (pairGraph.relaxVertex 1 1)).dist ≤
            ((pairGraph.visitState 1 1).T (1 + 1) i).dist ∧
        (i < pairGraph.relaxVertex 1 1 →
          ((pairGraph.visitState 1 1).T (1 + 1) (pairGraph.relaxVertex 1 1)).dist <
            ((pairGraph.visitState 1 1).T (1 + 1) i).dist)) ∧
    (pairGraph.relaxVertex 1 1 = 0 →
      GraphM.setW ((pairGraph.visitState 1 1).markVisited (1 + 1) 0) (1 + 1) 0 =
        (pairGraph.visitState 1 1).markVisited (1 + 1) 0)) :=
  ⟨by decide, by decide, by decide,
    findV_selects_minimum pairGraph pairGraph_built 1 1 (by decide)⟩

/-! ## Depth-first search and reachability -/

namespace GraphL

theorem reaches_markAll (g : GraphL) (L : List Nat) (a b : Nat) :
    (g.markAll L).Reaches a b ↔ g.Reaches a b := by
  have e : (fun u d => d ∈ (g.markAll L).edgesOf u) = (fun u d => d ∈ g.edgesOf u) := by
    funext u d
    rw [edgesOf_markAll]
  unfold Reaches
  rw [e]

theorem reaches_clearAll (g : GraphL) (a b : Nat) : g.clearAll.Reaches a b ↔ g.Reaches a b := by
  have e : (fun u d => d ∈ g.clearAll.edgesOf u) = (fun u d => d ∈ g.edgesOf u) := by
    funext u d
    rw [edgesOf_clearAll]
  unfold Reaches
  rw [e]

theorem isVisited_markAll_mono (g : GraphL) (A B : List Nat) (i : Nat)
    (h : (g.markAll A).isVisited i = true) : (g.markAll (A ++ B)).isVisited i = true := by
  rw [← markAll_markAll]
  exact (isVisited_markAll _ B i).mpr (Or.inl h)

/-- The edge loop of `dfs`, given what the recursive calls do: every vertex it
writes is reachable from a destination of the list, every edge out of a vertex
it writes leads to a vertex visited at the end, and so does every destination
of the list. -/
theorem dfsLoop_reach (n fuel : Nat)
    (hrec : ∀ g out v, Shape g n → 1 ≤ v → v ≤ n → g.isVisited v = false →
      (unvisited g n).card ≤ fuel →
      ∃ L2, dfs fuel v (g, out) = some (g.markAll (v :: L2), out ++ pathTokens (v :: L2)) ∧
        (∀ x ∈ L2, g.Reaches v x) ∧
        (∀ u ∈ v :: L2, ∀ d ∈ g.edgesOf u, (g.markAll (v :: L2)).isVisited d = true))
    (ds : List Nat) :
    ∀ g out, Shape g n → (∀ d ∈ ds, 1 ≤ d ∧ d ≤ n) → (unvisited g n).card ≤ fuel →
      ∃ L, dfsLoop (dfs fuel) ds (g, out) = some (g.markAll L, out ++ pathTokens L) ∧
        (∀ x ∈ L, ∃ d ∈ ds, g.Reaches d x) ∧
        (∀ u ∈ L, ∀ d ∈ g.edgesOf u, (g.markAll L).isVisited d = true) ∧
        (∀ d ∈ ds, (g.markAll L).isVisited d = true) := by
  induction ds with
  | nil =>
    intro g out _ _ _
    refine ⟨[], ?_, fun x hx => by simp at hx, fun u hu => by simp at hu,
      fun d hd => by simp at hd⟩
    simp [dfsLoop, markAll_nil, pathTokens]
  | cons d rest ih =>
    intro g out hs hds hcard
    obtain ⟨hd1, hd2⟩ := hds d (List.mem_cons_self _ _)
    have hrest : ∀ x ∈ rest, 1 ≤ x ∧ x ≤ n := fun x hx => hds x (List.mem_cons_of_mem _ hx)
    obtain ⟨node, hnode⟩ := hs.alloc d hd1 hd2
    cases hv : node.visited with
    | true =>
      obtain ⟨L, hL, hS, hC, hall⟩ := ih g out hs hrest hcard
      refine ⟨L, ?_, ?_, hC, ?_⟩
      · unfold dfsLoop
        simp only [hnode, hv, Bool.not_true, Bool.false_eq_true, if_false]
        exact hL
      · intro x hx
        obtain ⟨e, he, hr⟩ := hS x hx
        exact ⟨e, List.mem_cons_of_mem _ he, hr⟩
      · intro x hx
        rcases List.mem_cons.mp hx with h1 | h1
        · rw [h1]
          exact (isVisited_markAll g L d).mpr
            (Or.inl (by rw [isVisited_of_some hnode, hv]))
        · exact hall x h1
    | false =>
      have hdu : g.isVisited d = false := by rw [isVisited_of_some hnode, hv]
      obtain ⟨L2, hL2, hS2, hC2⟩ := hrec g out d hs hd1 hd2 hdu hcard
      have hcard2 : (unvisited (g.markAll (d :: L2)) n).card ≤ fuel :=
        le_trans (Finset.card_le_card (unvisited_markAll_subset g n _)) hcard
      obtain ⟨L3, hL3, hS3, hC3, hall3⟩ :=
        ih (g.markAll (d :: L2)) (out ++ pathTokens (d :: L2)) (hs.mark _) hrest hcard2
      rw [markAll_markAll] at hL3 hC3 hall3
      refine ⟨(d :: L2) ++ L3, ?_, ?_, ?_, ?_⟩
      · unfold dfsLoop
        simp only [hnode, hv, Bool.not_false, if_true, hL2]
        rw [hL3, pathTokens_concat, List.append_assoc]
      · intro x hx
        rcases List.mem_append.mp hx with h1 | h1
        · refine ⟨d, List.mem_cons_self _ _, ?_⟩
          rcases List.mem_cons.mp h1 with h2 | h2
          · rw [h2]
            exact Relation.ReflTransGen.refl
          · exact hS2 x h2
        · obtain ⟨e, he, hr⟩ := hS3 x h1
          exact ⟨e, List.mem_cons_of_mem _ he, (reaches_markAll g _ e x).mp hr⟩
      · intro u hu e he
        rcases List.mem_append.mp hu with h1 | h1
        · exact isVisited_markAll_mono g _ L3 e (hC2 u h1 e he)
        · exact hC3 u h1 e (by rw [edgesOf_markAll]; exact he)
      · intro x hx
        rcases List.mem_cons.mp hx with h1 | h1
        · rw [h1]
          exact (isVisited_markAll g _ d).mpr
            (Or.inr ⟨List.mem_append_left _ (List.mem_cons_self _ _), node, hnode⟩)
        · exact hall3 x h1

/-- The method `dfs` on an unvisited vertex `v`: every vertex it writes is
reachable from `v`, and every edge out of a vertex it writes leads to a vertex
that is visited when it returns. -/
theorem dfs_reach (n : Nat) : ∀ fuel g out v, Shape g n → 1 ≤ v → v ≤ n →
    g.isVisited v = false → (unvisited g n).card ≤ fuel →
    ∃ L2, dfs fuel v (g, out) = some (g.markAll (v :: L2), out ++ pathTokens (v :: L2)) ∧
      (∀ x ∈ L2, g.Reaches v x) ∧
      (∀ u ∈ v :: L2, ∀ d ∈ g.edgesOf u, (g.markAll (v :: L2)).isVisited d = true) := by
  intro fuel
  induction fuel with
  | zero =>
    intro g out v _ hv1 hv2 hvu hcard
    exfalso
    have hv : v ∈ unvisited g n := by
      unfold unvisited
      rw [Finset.mem_filter, Finset.mem_Icc]
      exact ⟨⟨hv1, hv2⟩, hvu⟩
    have := Finset.card_pos.mpr ⟨v, hv⟩
    omega
  | succ fuel ih =>
    intro g out v hs hv1 hv2 hvu hcard
    obtain ⟨node, hnode⟩ := hs.alloc v hv1 hv2
    have hg1 := setNode_visited g v node hnode
    have hlt := unvisited_markAll_card_lt hs [v] v hv1 hv2 hvu (List.mem_singleton.mpr rfl)
    obtain ⟨L, hL, hS, hC, hall⟩ := dfsLoop_reach n fuel ih node.edgeHead
      (g.markAll [v]) (out ++ [Token.int v, Token.chr ' ']) (hs.mark _)
      (fun d hd => ⟨(hs.edges v node hnode d hd).1, (hs.edges v node hnode d hd).2.1⟩)
      (by omega)
    rw [markAll_markAll] at hL hC hall
    refine ⟨L, ?_, ?_, ?_⟩
    · unfold dfs
      simp only [hnode, hg1, hL]
      simp [pathTokens]
    · intro x hx
      obtain ⟨e, he, hr⟩ := hS x hx
      refine Relation.ReflTransGen.head ?_ ((reaches_markAll g _ e x).mp hr)
      show e ∈ g.edgesOf v
      rw [edgesOf_of_some hnode]
      exact he
    · intro u hu e he
      rcases List.mem_cons.mp hu with h1 | h1
      · rw [h1, edgesOf_of_some hnode] at he
        exact hall e he
      · exact hC u h1 e (by rw [edgesOf_markAll]; exact he)

end GraphL

namespace GraphL

/-- The second loop of `depthFirstSearch`, from index `v` on, as a sequence
of blocks, one for each call `dfs(w)` it makes: the call is made on the lowest
index `w` not visited so far, the block is what this call writes, its vertices
are reachable from `w` and their edges lead to vertices visited when the call
returns. -/
theorem searchLoop_blocks (n fuel : Nat) : ∀ k v g out, v + k = GRAPHNODELIMIT → 1 ≤ v →
    v ≤ n + 1 → Shape g n → (∀ j, 1 ≤ j → j < v → g.isVisited j = true) →
    (unvisited g n).card ≤ fuel →
    ∃ blocks : List (List Nat),
      searchLoop fuel k v (g, out) =
        some (g.markAll blocks.flatten, out ++ pathTokens blocks.flatten) ∧
      (∀ j, 1 ≤ j → j ≤ n → (g.markAll blocks.flatten).isVisited j = true) ∧
      (v ≤ n → g.isVisited v = false → ∃ L rest, blocks = (v :: L) :: rest) ∧
      (∀ pre b post, blocks = pre ++ b :: post → ∃ w L, b = w :: L ∧ 1 ≤ w ∧ w ≤ n ∧
        (g.markAll pre.flatten).isVisited w = false ∧
        (∀ j, 1 ≤ j → j < w → (g.markAll pre.flatten).isVisited j = true) ∧
        dfs fuel w (g.markAll pre.flatten, out ++ pathTokens pre.flatten) =
          some (g.markAll (pre.flatten ++ b), out ++ pathTokens (pre.flatten ++ b)) ∧
        (∀ x ∈ b, g.Reaches w x) ∧
        (∀ u ∈ b, ∀ d ∈ g.edgesOf u, (g.markAll (pre.flatten ++ b)).isVisited d = true)) := by
  intro k
  induction k with
  | zero =>
    intro v g out hvk _ hv2 hs hall _
    have hb := hs.bound
    simp only [GRAPHNODELIMIT] at hvk hb
    refine ⟨[], ?_, ?_, fun h => by omega, ?_⟩
    · simp [searchLoop, markAll_nil, pathTokens]
    · intro j hj1 hj2
      rw [List.flatten_nil, markAll_nil]
      exact hall j hj1 (by omega)
    · intro pre b post he
      simp at he
  | succ k ih =>
    intro v g out hvk hv1 hv2 hs hall hcard
    by_cases hvn : v ≤ n
    · obtain ⟨node, hnode⟩ := hs.alloc v hv1 hvn
      cases hv : node.visited with
      | true =>
        obtain ⟨blocks, hM, hfin, _, hsplit⟩ := ih (v + 1) g out (by omega) (by omega)
          (by omega) hs
          (fun j hj1 hj2 => by
            rcases Nat.lt_succ_iff_lt_or_eq.mp hj2 with h1 | h1
            · exact hall j hj1 h1
            · rw [h1, isVisited_of_some hnode, hv]) hcard
        refine ⟨blocks, ?_, hfin, ?_, hsplit⟩
        · unfold searchLoop
          simp only [hnode, hv, Bool.not_true, Bool.false_eq_true, if_false]
          exact hM
        · intro _ hu
          rw [isVisited_of_some hnode, hv] at hu
          exact absurd hu (by simp)
      | false =>
        have hvu : g.isVisited v = false := by rw [isVisited_of_some hnode, hv]
        obtain ⟨L2, hL2, hS2, hC2⟩ := dfs_reach n fuel g out v hs hv1 hvn hvu hcard
        have hcard2 : (unvisited (g.markAll (v :: L2)) n).card ≤ fuel :=
          le_trans (Finset.card_le_card (unvisited_markAll_subset g n _)) hcard
        obtain ⟨blocks, hM, hfin, _, hsplit⟩ := ih (v + 1) (g.markAll (v :: L2))
          (out ++ pathTokens (v :: L2)) (by omega) (by omega) (by omega) (hs.mark _)
          (fun j hj1 hj2 => by
            rw [isVisited_markAll]
            rcases Nat.lt_succ_iff_lt_or_eq.mp hj2 with h1 | h1
            · exact Or.inl (hall j hj1 h1)
            · exact Or.inr ⟨by rw [h1]; exact List.mem_cons_self _ _, by rw [h1]; exact ⟨node, hnode⟩⟩)
          hcard2
        rw [markAll_markAll] at hM hfin
        refine ⟨(v :: L2) :: blocks, ?_, ?_, fun _ _ => ⟨L2, blocks, rfl⟩, ?_⟩
        · unfold searchLoop
          simp only [hnode, hv, Bool.not_false, if_true, hL2]
          rw [hM, List.flatten_cons, pathTokens_concat, List.append_assoc]
        · intro j hj1 hj2
          rw [List.flatten_cons]
          exact hfin j hj1 hj2
        · intro pre b post he
          cases pre with
          | nil =>
            simp only [List.nil_append, List.cons.injEq] at he
            refine ⟨v, L2, he.1.symm, hv1, hvn, ?_, ?_, ?_, ?_, ?_⟩
            · rw [List.flatten_nil, markAll_nil]
              exact hvu
            · intro j hj1 hj2
              rw [List.flatten_nil, markAll_nil]
              exact hall j hj1 hj2
            · rw [List.flatten_nil, markAll_nil, ← he.1]
              simp only [pathTokens, List.append_nil, List.nil_append]
              exact hL2
            · intro x hx
              rw [← he.1] at hx
              rcases List.mem_cons.mp hx with h1 | h1
              · rw [h1]
                exact Relation.ReflTransGen.refl
              · exact hS2 x h1
            · intro u hu d hd
              rw [← he.1] at hu ⊢
              rw [List.flatten_nil, List.nil_append]
              exact hC2 u hu d hd
          | cons p pre2 =>
            simp only [List.cons_append, List.cons.injEq] at he
            obtain ⟨w, L, hbw, hw1, hw2, hwu, hlow, hdfs, hS, hC⟩ := hsplit pre2 b post he.2
            rw [markAll_markAll] at hwu hlow hC
            refine ⟨w, L, hbw, hw1, hw2, ?_, ?_, ?_, ?_, ?_⟩
            · rw [List.flatten_cons, ← he.1]
              exact hwu
            · intro j hj1 hj2
              rw [List.flatten_cons, ← he.1]
              exact hlow j hj1 hj2
            · rw [List.flatten_cons, ← he.1]
              simp only [markAll_markAll, pathTokens_concat, List.append_assoc] at hdfs ⊢
              exact hdfs
            · intro x hx
              exact (reaches_markAll g _ w x).mp (hS x hx)
            · intro u hu d hd
              rw [List.flatten_cons, ← he.1, List.append_assoc]
              exact hC u hu d (by rw [edgesOf_markAll]; exact hd)
    · have hfree := hs.free v (Or.inr (by omega))
      refine ⟨[], ?_, ?_, fun h => by omega, ?_⟩
      · unfold searchLoop
        simp [hfree, markAll_nil, pathTokens]
      · intro j hj1 hj2
        rw [List.flatten_nil, markAll_nil]
        exact hall j hj1 (by omega)
      · intro pre b post he
        simp at he

end GraphL

/-- C22. For every list graph of `n >= 1` vertices, `depthFirstSearch()`
returns and what it writes is a first block followed by later blocks.  The
first block is what the call `dfs(1)` writes, made in the state with all
flags lowered, and its vertices are exactly the vertices reachable from
vertex 1 along directed edges.  The vertices of the later blocks are exactly
the vertices of `1..n` not reachable from vertex 1.  Each later block is what
one call `dfs(w)` writes, where `w` is the lowest index not written before. -/
theorem dfs_restart_structure (n : Nat) (g : GraphL) (hb : ListBuilt n g) (hn : 1 ≤ n)
    (fuel : Nat) (hf : n ≤ fuel) :
    ∃ (g2 : GraphL) (out : List Token) (first : List Nat) (later : List (List Nat)),
      GraphL.depthFirstSearch fuel g = some (g2, out) ∧
      intTokens out = (first ++ later.flatten).map Int.ofNat ∧
      GraphL.resetLoop (GRAPHNODELIMIT - 1) 1 g = g.clearAll ∧
      GraphL.dfs fuel 1 (g.clearAll, [Token.endl, Token.str "Depth-first ordering: "]) =
        some (g.clearAll.markAll first,
          [Token.endl, Token.str "Depth-first ordering: "] ++ pathTokens first) ∧
      (∀ x, x ∈ first ↔ g.Reaches 1 x) ∧
      (∀ x, x ∈ later.flatten ↔ (1 ≤ x ∧ x ≤ n ∧ ¬ g.Reaches 1 x)) ∧
      (∀ pre b post, later = pre ++ b :: post → ∃ w L, b = w :: L ∧ 1 ≤ w ∧ w ≤ n ∧
        w ∉ first ++ pre.flatten ∧ (∀ j, 1 ≤ j → j < w → j ∈ first ++ pre.flatten) ∧
        GraphL.dfs fuel w (g.clearAll.markAll (first ++ pre.flatten),
            [Token.endl, Token.str "Depth-first ordering: "] ++
              pathTokens (first ++ pre.flatten)) =
          some (g.clearAll.markAll (first ++ pre.flatten ++ b),
            [Token.endl, Token.str "Depth-first ordering: "] ++
              pathTokens (first ++ pre.flatten ++ b))) := by
  have hs := hb.shape
  have hreset : GraphL.resetLoop (GRAPHNODELIMIT - 1) 1 g = g.clearAll :=
    GraphL.resetLoop_spec n _ 1 g (by simp [GRAPHNODELIMIT]) (le_refl _) (by omega) hs
      (fun j hj1 hj2 => by omega)
  obtain ⟨blocks, hM, _, hfirst, hsplit⟩ := GraphL.searchLoop_blocks n fuel
    (GRAPHNODELIMIT - 1) 1 g.clearAll [Token.endl, Token.str "Depth-first ordering: "]
    (by simp [GRAPHNODELIMIT]) (le_refl _) (by omega) hs.clear (fun j hj1 hj2 => by omega)
    (le_trans (GraphL.unvisited_card_le _ n) hf)
  obtain ⟨L, later, hblocks⟩ := hfirst hn (GraphL.isVisited_clearAll g 1)
  have hflat : blocks.flatten = (1 :: L) ++ later.flatten := by
    rw [hblocks, List.flatten_cons]
  have hrun : GraphL.depthFirstSearch fuel g = some (g.clearAll.markAll blocks.flatten,
      [Token.endl, Token.str "Depth-first ordering: "] ++ pathTokens blocks.flatten ++
        [Token.endl, Token.endl]) := by
    unfold GraphL.depthFirstSearch
    rw [hreset, hM]
  obtain ⟨M, hMeq, hnd, hmem, hall, _⟩ := GraphL.depthFirstSearch_spec hs fuel hf
  have hsame : M = blocks.flatten := by
    have h1 := hMeq.symm.trans hrun
    simp only [Option.some.injEq, Prod.mk.injEq] at h1
    have h2 := congrArg intTokens h1.2
    rw [intTokens_append, intTokens_append, intTokens_pathTokens, intTokens_append,
      intTokens_append, intTokens_pathTokens] at h2
    have h3 : M.map Int.ofNat = blocks.flatten.map Int.ofNat := by
      simpa [intTokens] using h2
    exact List.map_injective_iff.mpr (fun a b hab => Int.ofNat.inj hab) h3
  rw [hsame, hflat] at hnd hmem hall
  obtain ⟨w0, L0, hb0, _, _, _, _, hdfs0, hS0, hC0⟩ := hsplit [] (1 :: L) later hblocks
  simp only [List.cons.injEq] at hb0
  rw [← hb0.1] at hdfs0 hS0
  simp only [List.flatten_nil, GraphL.markAll_nil, pathTokens, List.append_nil,
    List.nil_append] at hdfs0 hC0
  have hreach : ∀ x, x ∈ 1 :: L ↔ g.Reaches 1 x := by
    intro x
    constructor
    · intro hx
      exact (GraphL.reaches_clearAll g 1 x).mp (hS0 x hx)
    · intro hr
      unfold GraphL.Reaches at hr
      induction hr with
      | refl => exact List.mem_cons_self _ _
      | @tail u c _ hbc ih =>
        have hv := hC0 u ih c (by rw [GraphL.edgesOf_clearAll]; exact hbc)
        rcases (GraphL.isVisited_markAll g.clearAll (1 :: L) c).mp hv with h | h
        · rw [GraphL.isVisited_clearAll] at h
          exact absurd h (by simp)
        · exact h.1
  refine ⟨_, _, 1 :: L, later, hrun, ?_, hreset, ?_, hreach, ?_, ?_⟩
  · rw [intTokens_append, intTokens_append, intTokens_pathTokens, hflat]
    simp [intTokens]
  · simpa [pathTokens] using hdfs0
  · intro x
    constructor
    · intro hx
      have hr := hmem x (List.mem_append_right _ hx)
      refine ⟨hr.1, hr.2, ?_⟩
      intro hreach1
      exact (List.disjoint_of_nodup_append hnd) ((hreach x).mpr hreach1) hx
    · rintro ⟨hx1, hx2, hnr⟩
      rcases List.mem_append.mp (hall x hx1 hx2) with h | h
      · exact absurd ((hreach x).mp h) hnr
      · exact h
  · intro pre b post hlater
    obtain ⟨w, L1, hbw, hw1, hw2, hwu, hlow, hdfs, _, _⟩ :=
      hsplit ((1 :: L) :: pre) b post (by rw [hblocks, hlater]; rfl)
    rw [List.flatten_cons] at hwu hlow hdfs
    refine ⟨w, L1, hbw, hw1, hw2, ?_, ?_, hdfs⟩
    · exact GraphL.not_mem_of_markAll_false hs.clear hw1 hw2 hwu
    · intro j hj1 hj2
      rcases (GraphL.isVisited_markAll g.clearAll _ j).mp (hlow j hj1 hj2) with h | h
      · rw [GraphL.isVisited_clearAll] at h
        exact absurd h (by simp)
      · exact h.1

set_option maxRecDepth 100000 in
theorem dfs_restart_structure_witness :
    (GraphL.depthFirstSearch 4 cycleGraph).map (fun r => intTokens r.2) = some [1, 3, 2, 4] ∧
    ∃ (g2 : GraphL) (out : List Token) (first : List Nat) (later : List (List Nat)),
      GraphL.depthFirstSearch 4 cycleGraph = some (g2, out) ∧
      intTokens out = (first ++ later.flatten).map Int.ofNat ∧
      GraphL.resetLoop (GRAPHNODELIMIT - 1) 1 cycleGraph = cycleGraph.clearAll ∧
      GraphL.dfs 4 1 (cycleGraph.clearAll, [Token.endl, Token.str "Depth-first ordering: "]) =
        some (cycleGraph.clearAll.markAll first,
          [Token.endl, Token.str "Depth-first ordering: "] ++ pathTokens first) ∧
      (∀ x, x ∈ first ↔ cycleGraph.Reaches 1 x) ∧
      (∀ x, x ∈ later.flatten ↔ (1 ≤ x ∧ x ≤ 4 ∧ ¬ cycleGraph.Reaches 1 x)) ∧
      (∀ pre b post, later = pre ++ b :: post → ∃ w L, b = w :: L ∧ 1 ≤ w ∧ w ≤ 4 ∧
        w ∉ first ++ pre.flatten ∧ (∀ j, 1 ≤ j → j < w → j ∈ first ++ pre.flatten) ∧
        GraphL.dfs 4 w (cycleGraph.clearAll.markAll (first ++ pre.flatten),
            [Token.endl, Token.str "Depth-first ordering: "] ++
              pathTokens (first ++ pre.flatten)) =
          some (cycleGraph.clearAll.markAll (first ++ pre.flatten ++ b),
            [Token.endl, Token.str "Depth-first ordering: "] ++
              pathTokens (first ++ pre.flatten ++ b))) :=
  ⟨by decide, dfs_restart_structure 4 cycleGraph cycleGraph_built (by decide) 4 (by decide)⟩

/-! ## Order of the edge list and of the recursive calls -/

theorem ListBuiltFrom.listBuilt {n : Nat} {records : List (Int × Int)} {g : GraphL}
    (h : ListBuiltFrom n records g) : ListBuilt n g := by
  induction h with
  | build nodeCount descriptions records dest post _ hb => exact ListBuilt.build _ _ _ hb
  | search fuel out _ hf hrun ih => exact ListBuilt.search fuel out ih hf hrun

/-- In every state of a list graph the edge list of a vertex holds the
destinations of its accepted records, the one inserted last first. -/
theorem ListBuiltFrom.edges {n : Nat} {records : List (Int × Int)} {g : GraphL}
    (h : ListBuiltFrom n records g) :
    ∀ v, g.edgesOf v = (GraphL.destsOf n v records).reverse := by
  induction h with
  | build nodeCount descriptions records dest post hrec hb =>
    exact GraphL.buildGraph_edges nodeCount descriptions records post dest hrec _ hb
  | @search n records g g2 fuel out hfrom hf hrun ih =>
    intro v
    obtain ⟨M, hM, _⟩ := GraphL.depthFirstSearch_spec hfrom.listBuilt.shape fuel hf
    rw [hrun] at hM
    simp only [Option.some.injEq, Prod.mk.injEq] at hM
    rw [hM.1, GraphL.edgesOf_markAll, GraphL.edgesOf_clearAll]
    exact ih v

namespace GraphL

/-- The edge loop of `dfs` as a sequence of blocks, one for each entry of the
edge list in list order: the block of an entry that is visited when its turn
comes is empty, the block of an entry `d` that is not is what the recursive
call `dfs(d)` made at that moment writes. -/
theorem dfsLoop_blocks (n fuel : Nat) (ds : List Nat) :
    ∀ g out, Shape g n → (∀ d ∈ ds, 1 ≤ d ∧ d ≤ n) → (unvisited g n).card ≤ fuel →
      ∃ blocks : List (List Nat), blocks.length = ds.length ∧
        dfsLoop (dfs fuel) ds (g, out) =
          some (g.markAll blocks.flatten, out ++ pathTokens blocks.flatten) ∧
        ∀ before b after, blocks = before ++ b :: after →
          ∃ d, ds[before.length]? = some d ∧
            ((g.markAll before.flatten).isVisited d = true → b = []) ∧
            ((g.markAll before.flatten).isVisited d = false → ∃ L, b = d :: L ∧
              dfs fuel d (g.markAll before.flatten, out ++ pathTokens before.flatten) =
                some (g.markAll (before.flatten ++ b),
                  out ++ pathTokens (before.flatten ++ b))) := by
  induction ds with
  | nil =>
    intro g out _ _ _
    refine ⟨[], rfl, ?_, ?_⟩
    · simp [dfsLoop, markAll_nil, pathTokens]
    · intro before b after he
      simp at he
  | cons d rest ih =>
    intro g out hs hds hcard
    obtain ⟨hd1, hd2⟩ := hds d (List.mem_cons_self _ _)
    have hrest : ∀ x ∈ rest, 1 ≤ x ∧ x ≤ n := fun x hx => hds x (List.mem_cons_of_mem _ hx)
    obtain ⟨node, hnode⟩ := hs.alloc d hd1 hd2
    cases hv : node.visited with
    | true =>
      have hdv : g.isVisited d = true := by rw [isVisited_of_some hnode, hv]
      obtain ⟨blocks, hlen, hrun, hsplit⟩ := ih g out hs hrest hcard
      refine ⟨[] :: blocks, by simp [hlen], ?_, ?_⟩
      · unfold dfsLoop
        simp only [hnode, hv, Bool.not_true, Bool.false_eq_true, if_false]
        rw [List.flatten_cons, List.nil_append]
        exact hrun
      · intro before b after he
        cases before with
        | nil =>
          simp only [List.nil_append, List.cons.injEq] at he
          refine ⟨d, by simp, fun _ => he.1.symm, ?_⟩
          intro hu
          rw [List.flatten_nil, markAll_nil, hdv] at hu
          exact absurd hu (by simp)
        | cons p before2 =>
          simp only [List.cons_append, List.cons.injEq] at he
          obtain ⟨e, he1, he2, he3⟩ := hsplit before2 b after he.2
          refine ⟨e, by simpa using he1, ?_, ?_⟩
          · rw [List.flatten_cons, ← he.1, List.nil_append]
            exact he2
          · rw [List.flatten_cons, ← he.1, List.nil_append]
            exact he3
    | false =>
      have hdu : g.isVisited d = false := by rw [isVisited_of_some hnode, hv]
      obtain ⟨L2, hL2, _⟩ := dfs_spec n fuel g out d hs hd1 hd2 hdu hcard
      have hcard2 : (unvisited (g.markAll (d :: L2)) n).card ≤ fuel :=
        le_trans (Finset.card_le_card (unvisited_markAll_subset g n _)) hcard
      obtain ⟨blocks, hlen, hrun, hsplit⟩ :=
        ih (g.markAll (d :: L2)) (out ++ pathTokens (d :: L2)) (hs.mark _) hrest hcard2
      refine ⟨(d :: L2) :: blocks, by simp [hlen], ?_, ?_⟩
      · unfold dfsLoop
        simp only [hnode, hv, Bool.not_false, if_true, hL2]
        rw [hrun, markAll_markAll, List.flatten_cons, pathTokens_concat, List.append_assoc]
      · intro before b after he
        cases before with
        | nil =>
          simp only [List.nil_append, List.cons.injEq] at he
          refine ⟨d, by simp, ?_, ?_⟩
          · intro hu
            rw [List.flatten_nil, markAll_nil, hdu] at hu
            exact absurd hu (by simp)
          · intro _
            refine ⟨L2, he.1.symm, ?_⟩
            rw [List.flatten_nil, markAll_nil, ← he.1]
            simp only [pathTokens, List.append_nil, List.nil_append]
            exact hL2
        | cons p before2 =>
          simp only [List.cons_append, List.cons.injEq] at he
          obtain ⟨e, he1, he2, he3⟩ := hsplit before2 b after he.2
          refine ⟨e, by simpa using he1, ?_, ?_⟩
          · rw [List.flatten_cons, ← he.1, ← markAll_markAll]
            exact he2
          · intro hu
            rw [List.flatten_cons, ← he.1, ← markAll_markAll] at hu
            obtain ⟨L, hbL, hcall⟩ := he3 hu
            refine ⟨L, hbL, ?_⟩
            rw [List.flatten_cons, ← he.1]
            simp only [markAll_markAll, pathTokens_concat, List.append_assoc] at hcall ⊢
            exact hcall

/-- The method `dfs` on an unvisited vertex `v`: it marks and writes `v`, then
takes the entries of the edge list of `v` from its head, makes the recursive
call for each entry that is unvisited at its turn and none for the others. -/
theorem dfs_blocks (n : Nat) (g : GraphL) (out : List Token) (v fuel : Nat) (hs : Shape g n)
    (hv1 : 1 ≤ v) (hv2 : v ≤ n) (hvu : g.isVisited v = false)
    (hcard : (unvisited g n).card ≤ fuel + 1) :
    ∃ blocks : List (List Nat), blocks.length = (g.edgesOf v).length ∧
      dfs (fuel + 1) v (g, out) =
        some (g.markAll (v :: blocks.flatten), out ++ pathTokens (v :: blocks.flatten)) ∧
      ∀ before b after, blocks = before ++ b :: after →
        ∃ d, (g.edgesOf v)[before.length]? = some d ∧
          ((g.markAll (v :: before.flatten)).isVisited d = true → b = []) ∧
          ((g.markAll (v :: before.flatten)).isVisited d = false → ∃ L, b = d :: L ∧
            dfs fuel d (g.markAll (v :: before.flatten),
                out ++ pathTokens (v :: before.flatten)) =
              some (g.markAll (v :: before.flatten ++ b),
                out ++ pathTokens (v :: before.flatten ++ b))) := by
  obtain ⟨node, hnode⟩ := hs.alloc v hv1 hv2
  have hg1 := setNode_visited g v node hnode
  have hlt := unvisited_markAll_card_lt hs [v] v hv1 hv2 hvu (List.mem_singleton.mpr rfl)
  obtain ⟨blocks, hlen, hrun, hsplit⟩ := dfsLoop_blocks n fuel node.edgeHead
    (g.markAll [v]) (out ++ [Token.int v, Token.chr ' ']) (hs.mark _)
    (fun d hd => ⟨(hs.edges v node hnode d hd).1, (hs.edges v node hnode d hd).2.1⟩)
    (by omega)
  rw [edgesOf_of_some hnode]
  refine ⟨blocks, hlen, ?_, ?_⟩
  · unfold dfs
    simp only [hnode, hg1, hrun]
    rw [markAll_markAll]
    simp [pathTokens]
  · intro before b after he
    obtain ⟨d, hd1, hd2, hd3⟩ := hsplit before b after he
    rw [markAll_markAll] at hd2 hd3
    refine ⟨d, hd1, hd2, ?_⟩
    intro hu
    obtain ⟨L, hbL, hcall⟩ := hd3 hu
    refine ⟨L, hbL, ?_⟩
    simp only [markAll_markAll, pathTokens, List.append_assoc, List.singleton_append,
      List.cons_append, List.nil_append] at hcall ⊢
    exact hcall

end GraphL

theorem searchedGraph_from :
    ListBuiltFrom 4 [(1, 2), (2, 3), (3, 1), (1, 2), (2, 2), (1, 7), (1, 3)] searchedGraph := by
  have hb : ListBuiltFrom 4 [(1, 2), (2, 3), (3, 1), (1, 2), (2, 2), (1, 7), (1, 3)] cycleGraph :=
    ListBuiltFrom.build 4 (fun _ => "n") [(1, 2), (2, 3), (3, 1), (1, 2), (2, 2), (1, 7), (1, 3)]
      0 [(4, 1)] (by decide) rfl
  obtain ⟨M, hM, _⟩ := GraphL.depthFirstSearch_spec hb.listBuilt.shape 4 (le_refl _)
  have e : searchedGraph = cycleGraph.clearAll.markAll M := by
    unfold searchedGraph
    rw [hM]
    rfl
  rw [e]
  exact ListBuiltFrom.search 4 _ hb (le_refl _) hM

/-- C14. In every state of a list graph of `n` vertices (after `buildGraph`
and any number of `depthFirstSearch()` calls) in which vertex 1 has an
accepted outgoing edge: the edge list of every vertex holds its accepted
destinations in reverse order of insertion; `depthFirstSearch()` returns and
writes vertex 1 first and then the destination `dlast` of the edge out of
vertex 1 inserted last; and in every state `h` with these edge lists, `dfs(v)`
on an unvisited `v` returns, writes `v` and then one block for each
destination of `v`, taken in reverse order of insertion: the block of a
destination that is visited at its turn is empty, the block of a destination
`d` that is not starts with `d` and is what the recursive call `dfs(d)` made
at that moment writes. -/
theorem dfs_most_recent_edge_first (n : Nat) (records : List (Int × Int)) (g : GraphL)
    (hfrom : ListBuiltFrom n records g) (dlast : Nat)
    (hlast : (GraphL.destsOf n 1 records).getLast? = some dlast)
    (fuel : Nat) (hf : n ≤ fuel) :
    (∀ v, g.edgesOf v = (GraphL.destsOf n v records).reverse) ∧
    (∃ (g2 : GraphL) (out : List Token) (M : List Nat),
      GraphL.depthFirstSearch fuel g = some (g2, out) ∧
      intTokens out = (1 :: dlast :: M).map Int.ofNat) ∧
    (∀ (h : GraphL) (out : List Token) (v k : Nat), GraphL.Shape h n →
      (∀ u, h.edgesOf u = g.edgesOf u) → 1 ≤ v → v ≤ n → h.isVisited v = false →
      (GraphL.unvisited h n).card ≤ k + 1 →
      ∃ blocks : List (List Nat), blocks.length = (GraphL.destsOf n v records).length ∧
        GraphL.dfs (k + 1) v (h, out) =
          some (h.markAll (v :: blocks.flatten), out ++ pathTokens (v :: blocks.flatten)) ∧
        ∀ before b after, blocks = before ++ b :: after →
          ∃ d, (GraphL.destsOf n v records).reverse[before.length]? = some d ∧
            ((h.markAll (v :: before.flatten)).isVisited d = true → b = []) ∧
            ((h.markAll (v :: before.flatten)).isVisited d = false → ∃ L, b = d :: L ∧
              GraphL.dfs k d (h.markAll (v :: before.flatten),
                  out ++ pathTokens (v :: before.flatten)) =
                some (h.markAll (v :: before.flatten ++ b),
                  out ++ pathTokens (v :: before.flatten ++ b)))) := by
  have hedges := hfrom.edges
  have hs := hfrom.listBuilt.shape
  refine ⟨hedges, ?_, ?_⟩
  · obtain ⟨M, hM, _, _, _, hhead⟩ := GraphL.depthFirstSearch_spec hs fuel hf
    have hn : 1 ≤ n := by
      by_contra hc
      have h0 : n = 0 := by omega
      rw [h0, show ((0 : Nat) : Int) = 0 from rfl, GraphL.destsOf_zero] at hlast
      simp at hlast
    obtain ⟨h1, h2⟩ := hhead hn
    have he1 : (g.edgesOf 1).head? = some dlast := by
      rw [hedges 1, List.head?_reverse]
      exact hlast
    cases he : g.edgesOf 1 with
    | nil => rw [he] at he1; simp at he1
    | cons d rest =>
      rw [he] at he1
      simp only [List.head?_cons, Option.some.injEq] at he1
      have h3 := h2 d rest he
      cases M with
      | nil => simp at h1
      | cons a M1 =>
        simp only [List.head?_cons, Option.some.injEq] at h1
        cases M1 with
        | nil => simp at h3
        | cons b M2 =>
          simp only [List.tail_cons, List.head?_cons, Option.some.injEq] at h3
          refine ⟨_, _, M2, hM, ?_⟩
          rw [intTokens_append, intTokens_append, intTokens_pathTokens, h1, h3, he1]
          simp [intTokens]
  · intro h out v k hsh hsame hv1 hv2 hvu hcard
    obtain ⟨blocks, hlen, hrun, hsplit⟩ := GraphL.dfs_blocks n h out v k hsh hv1 hv2 hvu hcard
    rw [hsame v, hedges v] at hlen hsplit
    refine ⟨blocks, by rw [hlen, List.length_reverse], hrun, hsplit⟩

set_option maxRecDepth 100000 in
theorem dfs_most_recent_edge_first_witness :
    (GraphL.destsOf (4 : Nat) 1
      [(1, 2), (2, 3), (3, 1), (1, 2), (2, 2), (1, 7), (1, 3)]).getLast? = some 3 ∧
    searchedGraph.isVisited 1 = true ∧
    (GraphL.depthFirstSearch 4 searchedGraph).map (fun r => intTokens r.2) =
      some [1, 3, 2, 4] ∧
    ((∀ v, searchedGraph.edgesOf v = (GraphL.destsOf (4 : Nat) v
      [(1, 2), (2, 3), (3, 1), (1, 2), (2, 2), (1, 7), (1, 3)]).reverse) ∧
    (∃ (g2 : GraphL) (out : List Token) (M : List Nat),
      GraphL.depthFirstSearch 4 searchedGraph = some (g2, out) ∧
      intTokens out = (1 :: 3 :: M).map Int.ofNat) ∧
    (∀ (h : GraphL) (out : List Token) (v k : Nat), GraphL.Shape h 4 →
      (∀ u, h.edgesOf u = searchedGraph.edgesOf u) → 1 ≤ v → v ≤ 4 →
      h.isVisited v = false → (GraphL.unvisited h 4).card ≤ k + 1 →
      ∃ blocks : List (List Nat), blocks.length = (GraphL.destsOf (4 : Nat) v
          [(1, 2), (2, 3), (3, 1), (1, 2), (2, 2), (1, 7), (1, 3)]).length ∧
        GraphL.dfs (k + 1) v (h, out) =
          some (h.markAll (v :: blocks.flatten), out ++ pathTokens (v :: blocks.flatten)) ∧
        ∀ before b after, blocks = before ++ b :: after →
          ∃ d, (GraphL.destsOf (4 : Nat) v
              [(1, 2), (2, 3), (3, 1), (1, 2), (2, 2), (1, 7), (1, 3)]).reverse[before.length]? =
              some d ∧
            ((h.markAll (v :: before.flatten)).isVisited d = true → b = []) ∧
            ((h.markAll (v :: before.flatten)).isVisited d = false → ∃ L, b = d :: L ∧
              GraphL.dfs k d (h.markAll (v :: before.flatten),
                  out ++ pathTokens (v :: before.flatten)) =
                some (h.markAll (v :: before.flatten ++ b),
                  out ++ pathTokens (v :: before.flatten ++ b))))) :=
  ⟨by decide, by decide, by decide,
    dfs_most_recent_edge_first 4 [(1, 2), (2, 3), (3, 1), (1, 2), (2, 2), (1, 7), (1, 3)]
      searchedGraph searchedGraph_from 3 (by decide) 4 (by decide)⟩
